import Mathlib

/-!
Verification of the peggy PEG parser-generator core against its
natural-language specification.

The development shallowly embeds, in Lean, the parts of the Go source that
the checked claims are about:

* the grammar AST (`Expr`, `Rule`, `Grammar`) with its `epsilon`, `CanFail`,
  `Type`, `substitute` and `Walk` methods (grammar.go);
* the semantic-analysis entry point `Check` with `expandTemplates` and
  `templateInvocations` (check.go);
* the memoization runtime emitted by the code generator (`_memoize`,
  `_memo`, `_failMemo`, `_accept`, `_node`, `_fail` in gen.go's
  `declsTemplate`) together with fuel-indexed interpreters for the code the
  per-expression templates of gen.go emit for the accepts, node and fail
  passes (`ruleAcceptsFn`, `ruleNodeFn`, `ruleFailFn`);
* a model of the left-recursion checker `checkLeft`, whose implementation
  is not part of the sources (only its interface declaration and its tests
  are), reconstructed from the specification.

Go machine integers are modelled as `Int`, with the `int32` truncation of
the memo matrices made explicit (`toInt32`).  Input text is a list of
bytes; rune decoding, which the specification treats as an external
runtime collaborator, is a parameter `dec` of the interpreters constrained
only by its width contract, and instantiated with a one-byte decoder
(agreeing with UTF-8 on ASCII) in concrete evaluations.
-/

/-! ## Grammar AST (grammar.go)

Constructors mirror the `Expr` variants of grammar.go.  Locations are
dropped (no claim depends on them); `Text` fields become `String`.
`Ident` carries the `Name` structure (base name plus template arguments);
after resolution the referenced rule is found by name in the grammar, which
replaces the mutable `rule` pointer of the source.  The bookkeeping fields
that the check pass fills in place (`LabelExpr.N`, the `Labels` lists of
`Action` and `PredCode`) are constructor arguments here. -/

/-- Name is the name of a rule template: a base name and the list of
argument (or parameter) identifiers, as in grammar.go's `Name`. -/
structure PName where
  base : String
  args : List String
deriving Repr, DecidableEq

/-- String renders a `PName` as grammar.go's `Name.String`:
the base name alone, or `base<a1, a2>` with a comma-space separator. -/
def PName.render (n : PName) : String :=
  if n.args.isEmpty then n.base
  else n.base ++ "<" ++ String.intercalate ", " n.args ++ ">"

/-- Expr is the PEG expression sum type of grammar.go.  `lit` stores the
literal's bytes (Go compares raw string bytes); `charClass` stores rune
spans as integers; `rep`'s operator is the rune `'*'` or `'+'`. -/
inductive Expr where
  | choice (exprs : List Expr)
  | action (expr : Expr) (code : String) (returnType : String) (labels : List Nat)
  | seq (exprs : List Expr)
  | label (name : String) (expr : Expr) (n : Nat)
  | pred (neg : Bool) (expr : Expr)
  | rep (op : Char) (expr : Expr)
  | opt (expr : Expr)
  | sub (expr : Expr)
  | ident (name : PName)
  | predCode (neg : Bool) (code : String) (labels : List Nat)
  | lit (text : List Nat)
  | charClass (neg : Bool) (spans : List (Int × Int))
  | any
deriving Repr

/-- Rule is grammar.go's `Rule`: a `Name` (base plus template parameters),
an optional error name (non-`none` makes the rule a named rule), the
defining expression, and the index `N` assigned by `Check`. -/
structure Rule where
  name : PName
  errorName : Option String := none
  expr : Expr
  n : Int := 0
deriving Repr

/-! ## epsilon, CanFail and Type (grammar.go, the version of
src/unnamed/part_001 cited by the claims)

`Ident.epsilon` and `Ident.Type` read fields of the rule the identifier
was resolved to (a `nil` rule gives `false` and `""`); the environments
`ruleEps` and `ruleType` stand for that resolved state, `none` standing
for an unresolved identifier.  The Go loops over sub-expression lists
become mutually recursive list helpers. -/

mutual

/-- epsilon returns whether the expression can match the empty string,
following grammar.go exactly: a choice is nullable when any branch is, a
sequence when all factors are, predicates and `?` always, `*` always and
`+` never (`RepExpr.epsilon` is `e.Op == '*'` in both versions of
grammar.go present in the sources). -/
def Expr.epsilon (ruleEps : String → Option Bool) : Expr → Bool
  | .choice es => Expr.epsilonAny ruleEps es
  | .action e _ _ _ => e.epsilon ruleEps
  | .seq es => Expr.epsilonAll ruleEps es
  | .label _ e _ => e.epsilon ruleEps
  | .pred _ _ => true
  | .rep op _ => op == '*'
  | .opt _ => true
  | .sub e => e.epsilon ruleEps
  | .ident n => (ruleEps n.render).getD false
  | .predCode _ _ _ => true
  | .lit _ => false
  | .charClass _ _ => false
  | .any => false

/-- epsilonAny is `Choice.epsilon`'s loop: true when some branch is nullable. -/
def Expr.epsilonAny (ruleEps : String → Option Bool) : List Expr → Bool
  | [] => false
  | e :: es => e.epsilon ruleEps || Expr.epsilonAny ruleEps es

/-- epsilonAll is `Sequence.epsilon`'s loop: true when every factor is nullable. -/
def Expr.epsilonAll (ruleEps : String → Option Bool) : List Expr → Bool
  | [] => true
  | e :: es => e.epsilon ruleEps && Expr.epsilonAll ruleEps es

end

mutual

/-- canFail returns whether the expression can ever fail to parse,
following grammar.go: a choice fails only if every branch can, a sequence
if any factor can, `+` iff its body can, `*` and `?` never, identifiers
and terminals always. -/
def Expr.canFail : Expr → Bool
  | .choice es => Expr.canFailAll es
  | .action e _ _ _ => e.canFail
  | .seq es => Expr.canFailAny es
  | .label _ e _ => e.canFail
  | .pred _ e => e.canFail
  | .rep op e => op == '+' && e.canFail
  | .opt _ => false
  | .sub e => e.canFail
  | .ident _ => true
  | .predCode _ _ _ => true
  | .lit _ => true
  | .charClass _ _ => true
  | .any => true

/-- canFailAll is `Choice.CanFail`'s loop: every branch can fail. -/
def Expr.canFailAll : List Expr → Bool
  | [] => true
  | e :: es => e.canFail && Expr.canFailAll es

/-- canFailAny is `Sequence.CanFail`'s loop: some factor can fail. -/
def Expr.canFailAny : List Expr → Bool
  | [] => false
  | e :: es => e.canFail || Expr.canFailAny es

end

mutual

/-- typeOf is grammar.go's `Type` in the version of src/unnamed/part_001
(the lines the claims cite): a choice of equal-typed branches has that
type and otherwise `interface{}`; a sequence is `[]T` for the first
factor's type `T` when all factors agree and `[]interface{}` otherwise; a
repetition is `[]T`; an optional is `*T`.  No case reifies a string
collection back to `string`. -/
def Expr.typeOf (ruleType : String → Option String) : Expr → String
  | .choice [] => ""
  | .choice (e :: es) =>
    let t := e.typeOf ruleType
    if Expr.typeAllEq ruleType es t then t else "interface\x7b\x7d"
  | .action _ _ rt _ => rt
  | .seq [] => ""
  | .seq (e :: es) =>
    let t := e.typeOf ruleType
    if Expr.typeAllEq ruleType es t then "[]" ++ t
    else "[]interface\x7b\x7d"
  | .label _ e _ => e.typeOf ruleType
  | .pred _ _ => "bool"
  | .rep _ e => "[]" ++ e.typeOf ruleType
  | .opt e => "*" ++ e.typeOf ruleType
  | .sub e => e.typeOf ruleType
  | .ident n => (ruleType n.render).getD ""
  | .predCode _ _ _ => "bool"
  | .lit _ => "string"
  | .charClass _ _ => "string"
  | .any => "string"

/-- typeAllEq is the loop shared by `Choice.Type` and `Sequence.Type` in
src/unnamed/part_001: whether every remaining sub-expression has type `t`. -/
def Expr.typeAllEq (ruleType : String → Option String) : List Expr → String → Bool
  | [], _ => true
  | e :: es, t => e.typeOf ruleType == t && Expr.typeAllEq ruleType es t

end

mutual

/-- typeReified is the `Type` of the other grammar.go version present in
the sources (the one bundled inside src/action_test.go, whose behavior the
executable action tests expect): the first factor's type `t` switches the
sequence type between `""`, `"string"` and `[]t`; a repetition over a
string is a string; an optional over a string is a string; a choice takes
its first branch's type. -/
def Expr.typeReified (ruleType : String → Option String) : Expr → String
  | .choice [] => ""
  | .choice (e :: _) => e.typeReified ruleType
  | .action _ _ rt _ => rt
  | .seq [] => ""
  | .seq (e :: _) => Expr.reifyBox "[]" (e.typeReified ruleType)
  | .label _ e _ => e.typeReified ruleType
  | .pred _ _ => "string"
  | .rep _ e => Expr.reifyBox "[]" (e.typeReified ruleType)
  | .opt e => Expr.reifyBox "*" (e.typeReified ruleType)
  | .sub e => e.typeReified ruleType
  | .ident n => (ruleType n.render).getD ""
  | .predCode _ _ _ => "string"
  | .lit _ => "string"
  | .charClass _ _ => "string"
  | .any => "string"

/-- reifyBox is the switch shared by `Sequence.Type`, `RepExpr.Type` and
`OptExpr.Type` in the action_test.go grammar version: an empty type stays
empty, `string` stays `string`, any other type `t` becomes `pre ++ t`. -/
def Expr.reifyBox (pre : String) (t : String) : String :=
  if t = "" then "" else if t = "string" then "string" else pre ++ t

end

/-! ## substitute and invocation collection (grammar.go)

`substitute` follows the `substitute` methods of the grammar.go version
bundled in src/action_test.go (the one matching check.go's template
expander per the specification): plain identifier names that are keys of
the substitution are replaced, and each argument of a further invocation
is substituted individually; `Action` and `PredCode` clear their `Labels`
bookkeeping.  The substitution map is a function, matching Go map lookup
(later insertions overwrite earlier ones). -/

mutual

/-- substitute returns a clone of the expression with identifiers that are
keys of `sub` replaced, as grammar.go's `substitute`. -/
def Expr.substitute (sub : String → Option String) : Expr → Expr
  | .choice es => .choice (Expr.substituteList sub es)
  | .action e c rt _ => .action (e.substitute sub) c rt []
  | .seq es => .seq (Expr.substituteList sub es)
  | .label l e n => .label l (e.substitute sub) n
  | .pred b e => .pred b (e.substitute sub)
  | .rep op e => .rep op (e.substitute sub)
  | .opt e => .opt (e.substitute sub)
  | .sub e => .sub (e.substitute sub)
  | .ident n =>
    let base := match sub n.render with
      | some s => s
      | none => n.base
    .ident ⟨base, n.args.map fun a => (sub a).getD a⟩
  | .predCode b c _ => .predCode b c []
  | .lit t => .lit t
  | .charClass b s => .charClass b s
  | .any => .any

/-- substituteList maps `substitute` over the sub-expressions of a choice
or sequence, as their Go loops do. -/
def Expr.substituteList (sub : String → Option String) : List Expr → List Expr
  | [] => []
  | e :: es => e.substitute sub :: Expr.substituteList sub es

end

mutual

/-- collectInvocations gathers, in the pre-order that `Expr.Walk` visits
expressions, every identifier that passes arguments — the invocations that
`templateInvocations`'s walk callback appends (it appends exactly the
`Ident`s with `len(id.Args) > 0` and always continues). -/
def Expr.collectInvocations : Expr → List PName
  | .choice es => Expr.collectInvocationsList es
  | .action e _ _ _ => e.collectInvocations
  | .seq es => Expr.collectInvocationsList es
  | .label _ e _ => e.collectInvocations
  | .pred _ e => e.collectInvocations
  | .rep _ e => e.collectInvocations
  | .opt e => e.collectInvocations
  | .sub e => e.collectInvocations
  | .ident n => if n.args.isEmpty then [] else [n]
  | .predCode _ _ _ => []
  | .lit _ => []
  | .charClass _ _ => []
  | .any => []

/-- collectInvocationsList walks the members of a choice or sequence in
order. -/
def Expr.collectInvocationsList : List Expr → List PName
  | [] => []
  | e :: es => e.collectInvocations ++ Expr.collectInvocationsList es

end

/-! ## Template expansion and Check (check.go)

These definitions follow check.go (the version whose `Check` calls
`expandTemplates` and assigns `Grammar.CheckedRules`, the lines cited by
the claims).  Errors are modelled as their message strings; the source's
location-sorted rendering is not needed by any claim. -/

/-- templateInvocations is check.go's map from a template's base name to
the invocations of it found anywhere in the (unexpanded) rules, in walk
order: the slice for `n` holds every `Ident` with arguments whose base
name is `n`, appended rule by rule. -/
def templateInvocations (rules : List Rule) (n : String) : List PName :=
  ((rules.map Rule.expr).flatMap Expr.collectInvocations).filter
    fun inv => inv.base == n

/-- buildSub is the substitution-map loop of `expandTemplates`:
`sub[r.Args[i]] = t.Args[i]` for each position, with Go-map overwrite
semantics for duplicate parameter names. -/
def buildSub : List String → List String → (String → Option String)
  | [], _ => fun _ => none
  | _, [] => fun _ => none
  | p :: ps, a :: as' =>
    fun x => if x = p ∧ (buildSub ps as') x = none then some a else (buildSub ps as') x

/-- dupParamErrors is `expandTemplates`' seen-params loop, producing one
"parameter redefined" message per duplicate occurrence. -/
def dupParamErrors : List String → List String → List String
  | _, [] => []
  | seen, p :: ps =>
    (if p ∈ seen then ["parameter " ++ p ++ " redefined"] else []) ++
      dupParamErrors (p :: seen) ps

/-- expandClones is the inner loop of `expandTemplates`: one clone (or one
arity-mismatch error) per invocation in `tmps[r.Name.Name.String()]`, in
collection order.  The clone keeps the template's base name, takes the
invocation's arguments as its own name arguments, and substitutes each
parameter by the corresponding argument in a deep copy of the body. -/
def expandClones (r : Rule) : List PName → List Rule × List String
  | [] => ([], [])
  | t :: ts =>
    let (rest, errs) := expandClones r ts
    if t.args.length ≠ r.name.args.length then
      (rest, ("template " ++ r.name.render ++ " argument count mismatch: got " ++
        toString t.args.length ++ ", expected " ++ toString r.name.args.length) :: errs)
    else
      let sub := buildSub r.name.args t.args
      ({ r with name := ⟨r.name.base, t.args⟩, expr := r.expr.substitute sub } :: rest,
        errs)

/-- expandTemplatesStep processes one rule of `expandTemplates`' main loop:
a concrete rule is kept unless its name collides with a template's name
(then only an error is recorded); a template rule contributes its duplicate
parameter errors and one clone per collected invocation of it. -/
def expandTemplatesStep (tmpNames : String → Bool) (tmps : String → List PName)
    (r : Rule) : List Rule × List String :=
  if r.name.args.isEmpty then
    if tmpNames r.name.base then ([], ["rule " ++ r.name.base ++ " redefined"])
    else ([r], [])
  else
    let perrs := dupParamErrors [] r.name.args
    let (clones, cerrs) := expandClones r (tmps r.name.base)
    (clones, perrs ++ cerrs)

/-- expandTemplates is check.go's template expander: it records the base
names of parameterized rules, collects every invocation with a single
pre-pass over the original rules (`templateInvocations`), and then walks
the rules once, keeping concrete rules and replacing each template by one
specialized clone per collected invocation of it.  There is no worklist
and no deduplication of textually equal invocations. -/
def expandTemplates (rules : List Rule) : List Rule × List String :=
  let tmpNames : String → Bool := fun n =>
    rules.any fun r => !r.name.args.isEmpty && r.name.base == n
  let tmps := templateInvocations rules
  (rules.map (expandTemplatesStep tmpNames tmps)).foldr
    (fun p acc => (p.1 ++ acc.1, p.2 ++ acc.2)) ([], [])

/-! ## The per-rule check pass (check.go)

The `check` methods of check.go walk an expression assigning each label
its `N` (its insertion position among the labels seen so far in the rule),
reporting redefined labels and undefined identifiers, linking identifiers
to rules, and storing the in-scope labels (sorted by name) into `Action`
and `PredCode` nodes.  The model returns the rewritten expression, the
label list in insertion order, and the error messages. -/

/-- insertByName inserts a label into a name-sorted list (insertion sort;
the label names in one scope are distinct, so any sort by Go's strict-less
comparator produces this order). -/
def insertByName (p : String × Nat) : List (String × Nat) → List (String × Nat)
  | [] => [p]
  | q :: qs => if p.1 < q.1 then p :: q :: qs else q :: insertByName p qs

/-- sortByName sorts labels by name. -/
def sortByName : List (String × Nat) → List (String × Nat)
  | [] => []
  | p :: ps => insertByName p (sortByName ps)

/-- sortedLabelNs lists the `N`s of the in-scope labels sorted by label
name, as the `sort.Slice` calls in `Action.check` and `PredCode.check`
order their `Labels` slices. -/
def sortedLabelNs (labels : List (String × Nat)) : List Nat :=
  (sortByName labels).map Prod.snd

mutual

/-- checkRun is check.go's `check` on one expression, threading the label
table (name and `N` in insertion order) and appending error messages in
traversal order. -/
def Expr.checkRun (ruleDefined : String → Bool) :
    Expr → List (String × Nat) → Expr × List (String × Nat) × List String
  | .choice es, ls =>
    let (es', ls', errs) := Expr.checkRunList ruleDefined es ls
    (.choice es', ls', errs)
  | .action e c rt _, ls =>
    let (e', ls', errs) := e.checkRun ruleDefined ls
    (.action e' c rt (sortedLabelNs ls'), ls', errs)
  | .seq es, ls =>
    let (es', ls', errs) := Expr.checkRunList ruleDefined es ls
    (.seq es', ls', errs)
  | .label l e _, ls =>
    let (e', ls', errs) := e.checkRun ruleDefined ls
    let dup := if (ls'.map Prod.fst).contains l then
      ["label " ++ l ++ " redefined"] else []
    (.label l e' ls'.length, ls' ++ [(l, ls'.length)], errs ++ dup)
  | .pred b e, ls =>
    let (e', ls', errs) := e.checkRun ruleDefined ls
    (.pred b e', ls', errs)
  | .rep op e, ls =>
    let (e', ls', errs) := e.checkRun ruleDefined ls
    (.rep op e', ls', errs)
  | .opt e, ls =>
    let (e', ls', errs) := e.checkRun ruleDefined ls
    (.opt e', ls', errs)
  | .sub e, ls =>
    let (e', ls', errs) := e.checkRun ruleDefined ls
    (.sub e', ls', errs)
  | .ident n, ls =>
    (.ident n, ls,
      if ruleDefined n.render then [] else ["rule " ++ n.render ++ " undefined"])
  | .predCode b c _, ls => (.predCode b c (sortedLabelNs ls), ls, [])
  | .lit t, ls => (.lit t, ls, [])
  | .charClass b s, ls => (.charClass b s, ls, [])
  | .any, ls => (.any, ls, [])

/-- checkRunList threads `checkRun` left to right over the members of a
choice or sequence. -/
def Expr.checkRunList (ruleDefined : String → Bool) :
    List Expr → List (String × Nat) → List Expr × List (String × Nat) × List String
  | [], ls => ([], ls, [])
  | e :: es, ls =>
    let (e', ls', errs) := e.checkRun ruleDefined ls
    let (es', ls'', errs') := Expr.checkRunList ruleDefined es ls'
    (e' :: es', ls'', errs ++ errs')

end

/-- Grammar is grammar.go's `Grammar`: the rules from the front end, and
the `CheckedRules` field that only a successful `Check` assigns (`none`
models the Go `nil` slice). -/
structure Grammar where
  rules : List Rule
  checkedRules : Option (List Rule) := none
deriving Repr

/-- dupRuleErrors is `Check`'s rule-map loop: walking the expanded rules
in order, it reports a "rule redefined" error whenever a rule's rendered
name was already inserted. -/
def dupRuleErrors : List String → List Rule → List String
  | _, [] => []
  | seen, r :: rs =>
    (if r.name.render ∈ seen then ["rule " ++ r.name.render ++ " redefined"] else []) ++
      dupRuleErrors (r.name.render :: seen) rs

/-- assignNs is `Check`'s `r.N = i` assignment over the expanded rules. -/
def assignNs (rules : List Rule) : List Rule :=
  (rules.enum).map fun p => { p.2 with n := (p.1 : Int) }

/-- checkRules runs the per-rule `check` pass over every expanded rule,
returning the rewritten rules and the concatenated error messages. -/
def checkRules (ruleDefined : String → Bool) (rules : List Rule) :
    List Rule × List String :=
  (rules.map fun r =>
    let (e', _, errs) := r.expr.checkRun ruleDefined []
    ({ r with expr := e' }, errs)).foldr
    (fun p acc => (p.1 :: acc.1, p.2 ++ acc.2)) ([], [])

/-- Check is check.go's `Check`: expand templates, assign each rule its
index `N`, report duplicate rule names, run the per-rule check pass, and —
only when no error at all was accumulated — assign `Grammar.CheckedRules`.
The result pairs the error messages (empty meaning a `nil` error return)
with the updated grammar. -/
def Check (g : Grammar) : List String × Grammar :=
  let (expanded, terrs) := expandTemplates g.rules
  let rules := assignNs expanded
  let derrs := dupRuleErrors [] rules
  let ruleDefined : String → Bool := fun n => rules.any fun r => r.name.render == n
  let (rules', cerrs) := checkRules ruleDefined rules
  let errs := terrs ++ derrs ++ cerrs
  if errs.isEmpty then ([], { g with checkedRules := some rules' })
  else (errs, g)

/-! ## Generated-parser runtime (gen.go, declsTemplate)

The generated parser's state owns the input text, the `deltaPos` and
`deltaErr` matrices (`int32` entries, hence the explicit `toInt32`
truncation), the `lastFail` position, and the node and fail caches keyed
by (start, rule).  Matrices and caches are modelled as functions. -/

/-- identName renders a `PName` as grammar.go's `Name.Ident`: the base
name alone, or `base__a1__a2` for specializations. -/
def PName.identName (n : PName) : String :=
  if n.args.isEmpty then n.base
  else n.base ++ "__" ++ String.intercalate "__" n.args

/-- toInt32 is Go's `int32(x)` conversion on an arbitrary integer:
truncation to 32 bits, interpreted as a signed value. -/
def toInt32 (x : Int) : Int := (x + 2 ^ 31) % 2 ^ 32 - 2 ^ 31

/-- PNode is peg.Node: a rule name (empty for anonymous nodes), the input
text of the node's subtree, and the kid nodes. -/
inductive PNode where
  | mk (name : String) (text : List Nat) (kids : List PNode)
deriving Repr

/-- PFail is peg.Fail: a rule name (empty for terminal failures), the
byte position of the failure, the want description, and the kid failures. -/
inductive PFail where
  | mk (name : String) (pos : Int) (want : String) (kids : List PFail)
deriving Repr

/-- empty is the Go zero value `peg.Fail{}`: no name, position 0, no want,
no kids. -/
def PFail.empty : PFail := .mk "" 0 "" []

/-- want is the `Want` field of a `PFail`. -/
def PFail.want : PFail → String
  | .mk _ _ w _ => w

/-- kids is the `Kids` field of a `PFail`. -/
def PFail.kids : PFail → List PFail
  | .mk _ _ _ ks => ks

/-- PState is the mutable state of a generated `_Parser` value: the two
memo matrices, `lastFail`, and the node and fail caches (the action cache
is not modelled; no claim concerns the action pass). -/
structure PState where
  deltaPos : Int → Nat → Int
  deltaErr : Int → Nat → Int
  lastFail : Int
  nodeCache : Int → Nat → Option PNode
  failCache : Int → Nat → Option PFail

/-- init is the parser state `_NewParser` allocates: zeroed matrices,
`lastFail` zero, empty caches. -/
def PState.init : PState :=
  ⟨fun _ _ => 0, fun _ _ => 0, 0, fun _ _ => none, fun _ _ => none⟩

/-- mset updates one entry of a memo matrix. -/
def mset (f : Int → Nat → Int) (p : Int) (r : Nat) (v : Int) : Int → Nat → Int :=
  fun q s => if q = p ∧ s = r then v else f q s

/-- memoizeFn is `_memoize`: set `lastFail` to `perr` (a plain assignment),
record `deltaErr[start][rule] = int32(perr-start+1)`, and record
`deltaPos[start][rule]` as `int32(pos-start+1)` on success (`pos >= 0`) or
`-1` on failure, returning the (untruncated) deltas. -/
def memoizeFn (st : PState) (rule : Nat) (start pos perr : Int) :
    PState × Int × Int :=
  let derr := perr - start
  let st1 : PState :=
    { st with lastFail := perr,
              deltaErr := mset st.deltaErr start rule (toInt32 (derr + 1)) }
  if pos ≥ 0 then
    let dpos := pos - start
    ({ st1 with deltaPos := mset st1.deltaPos start rule (toInt32 (dpos + 1)) },
      dpos, derr)
  else
    ({ st1 with deltaPos := mset st1.deltaPos start rule (-1) }, -1, derr)

/-- memoFn is `_memo`: an entry of 0 means no attempt was recorded;
otherwise a positive entry is decremented and returned along with
`deltaErr - 1`. -/
def memoFn (st : PState) (rule : Nat) (start : Int) : Int × Int × Bool :=
  let dp := st.deltaPos start rule
  if dp = 0 then (0, 0, false)
  else
    let dp := if dp > 0 then dp - 1 else dp
    let de := st.deltaErr start rule - 1
    (dp, de, true)

/-- failMemoFn is `_failMemo`: if `start` is beyond `lastFail` return an
empty failure at once; if the recorded furthest error did not reach
`errPos` return an empty failure carrying only the length consumed; else
return the cached failure if one exists, and otherwise `(start, nil)`
telling the caller to rebuild it. -/
def failMemoFn (st : PState) (rule : Nat) (start errPos : Int) :
    Int × Option PFail :=
  if start > st.lastFail then (-1, some PFail.empty)
  else
    let dp := st.deltaPos start rule
    let de := st.deltaErr start rule
    if start + (de - 1) < errPos then
      if dp > 0 then (start + (dp - 1), some PFail.empty)
      else (-1, some PFail.empty)
    else
      match st.failCache start rule with
      | some f =>
        if dp < 0 then (-1, some f)
        else if dp > 0 then (start + (dp - 1), some f)
        else (start, none)
      | none => (start, none)

/-! ## Interpreters for the generated accepts, node and fail passes

gen.go emits, per rule, an `Accepts`, `Node` and `Fail` function whose
bodies are assembled from per-expression templates.  The interpreters
below execute those bodies over the AST: each equation is the meaning of
the corresponding template (choiceTemplate, sequenceTemplate, ...) in the
respective pass, with the templates' goto structure rendered as structured
control flow.  `fuel` bounds rule activations and repetition-loop
iterations; `none` is a run that exhausts it (a Go parse that has not yet
returned).  Embedded Go predicate fragments are interpreted by the
environment's `codeEval`; rune decoding by its `dec`, the contract of
peg.DecodeRuneInString. -/

/-- Labels is the `var labels [k]string` array of a generated rule
function, zero-initialized to empty strings (byte lists here). -/
abbrev Labels := Nat → List Nat

/-- PEnv is the static environment of a generated parser: the checked
rules, the input text bytes, the rune decoder (applied to the text suffix,
returning the rune and its width), and the evaluator of embedded predicate
code fragments. -/
structure PEnv where
  rules : List Rule
  text : List Nat
  dec : List Nat → Int × Nat
  codeEval : String → List (List Nat) → Bool

/-- lookupRule resolves an identifier to the rule with that generated-code
identifier and its column index `N`, as the static call `_Name(parser, …)`
in the generated code binds. -/
def PEnv.lookupRule (env : PEnv) (n : PName) : Option (Nat × Rule) :=
  match env.rules.findIdx? (fun r => r.name.identName == n.identName) with
  | some i => match env.rules.get? i with
    | some r => some (i, r)
    | none => none
  | none => none

/-- textSlice is Go's `parser.text[a:b]`. -/
def PEnv.textSlice (env : PEnv) (a b : Int) : List Nat :=
  (env.text.take b.toNat).drop a.toNat

/-- next is `_next`: decode one rune at `pos`. -/
def PEnv.next (env : PEnv) (pos : Int) : Int × Nat :=
  env.dec (env.text.drop pos.toNat)

/-- litMisses is literalTemplate's mismatch test:
`len(parser.text[pos:]) < n || parser.text[pos:pos+n] != want`. -/
def PEnv.litMisses (env : PEnv) (pos : Int) (want : List Nat) : Bool :=
  (env.text.drop pos.toNat).length < want.length ||
    ((env.text.drop pos.toNat).take want.length ≠ want)

/-- spanHit is the span-wise test of charClassCondition: the decoded rune
equals a singleton span's rune or lies inclusively within a span. -/
def spanHit (r : Int) : List (Int × Int) → Bool
  | [] => false
  | (lo, hi) :: s => (if lo = hi then r == lo else lo ≤ r && r ≤ hi) || spanHit r s

/-- classMisses is charClassCondition: a negated class fails on EOF, the
replacement rune, or any span hit; a positive class fails when every span
misses. -/
def classMisses (neg : Bool) (r : Int) (w : Nat) (spans : List (Int × Int)) : Bool :=
  if neg then w == 0 || r == 0xFFFD || spanHit r spans
  else !spanHit r spans

/-- predCodeFails is predCodeTemplate's test: the closure is called on the
in-scope label strings and the parse fails when the result has the wrong
sense (`!ok` for `&{…}`, `ok` for `!{…}`). -/
def PEnv.predCodeFails (env : PEnv) (neg : Bool) (code : String)
    (labelNs : List Nat) (l : Labels) : Bool :=
  let ok := env.codeEval code (labelNs.map l)
  if neg then ok else !ok

/-- AccOut is the observable result of running accepts-pass code: the
updated parser state, the position after the accepted text (`none` for a
jump to the fail label), the running furthest-error `perr`, and the labels
array. -/
structure AccOut where
  st : PState
  res : Option Int
  perr : Int
  labels : Labels


mutual

/-- ruleAcceptsFn is the generated `_RAccepts(parser, start)`: consult
`_memo` first; otherwise run the rule body from `pos, perr := start, -1`,
clamp `perr` to `start` for a named rule on the success path only (the
generated `fail:` path memoizes `perr` unclamped), and `_memoize` the
outcome.  The interpreters recurse structurally on `fuel`, consuming one
unit per step; `none` is a run that exhausts it. -/
def ruleAcceptsFn (env : PEnv) : Nat → PState → Nat → Rule → Int →
    Option (PState × Int × Int)
  | 0, _, _, _, _ => none
  | fuel + 1, st, idx, r, start =>
    let (dp, de, ok) := memoFn st idx start
    if ok then some (st, dp, de)
    else
      match exprAcceptsFn env fuel st r.expr start (-1) (fun _ => []) with
      | none => none
      | some o =>
        match o.res with
        | some pos =>
          let perr := if r.errorName.isSome then start else o.perr
          some (memoizeFn o.st idx start pos perr)
        | none => some (memoizeFn o.st idx start (-1) o.perr)
termination_by structural fuel _ _ _ _ => fuel

/-- exprAcceptsFn runs the accepts-pass code of one expression template at
`pos` with running error `perr`. -/
def exprAcceptsFn (env : PEnv) : Nat → PState → Expr → Int → Int → Labels →
    Option AccOut
  | 0, _, _, _, _, _ => none
  | fuel + 1, st, e, pos, perr, l =>
    match e with
    | .choice es => choiceAcceptsFn env fuel st es pos pos perr l
    | .action e1 _ _ _ => exprAcceptsFn env fuel st e1 pos perr l
    | .seq es => seqAcceptsFn env fuel st es pos perr l
    | .label _ e1 n =>
      match exprAcceptsFn env fuel st e1 pos perr l with
      | none => none
      | some o =>
        match o.res with
        | some pos1 =>
          some { o with labels := fun m =>
            if m = n then env.textSlice pos pos1 else o.labels m }
        | none => some o
    | .pred neg e1 =>
      match exprAcceptsFn env fuel st e1 pos perr l with
      | none => none
      | some o =>
        if neg then
          match o.res with
          | some _ => some { o with res := none, perr := max perr pos }
          | none => some { o with res := some pos, perr := perr }
        else
          match o.res with
          | some _ => some { o with res := some pos, perr := perr }
          | none => some { o with res := none, perr := max perr pos }
    | .rep op e1 =>
      if op == '+' then
        match exprAcceptsFn env fuel st e1 pos perr l with
        | none => none
        | some o =>
          match o.res with
          | some pos1 => repAcceptsFn env fuel o.st e1 pos1 o.perr o.labels
          | none => some o
      else repAcceptsFn env fuel st e1 pos perr l
    | .opt e1 =>
      if e1.canFail then
        match exprAcceptsFn env fuel st e1 pos perr l with
        | none => none
        | some o =>
          match o.res with
          | some _ => some o
          | none => some { o with res := some pos }
      else exprAcceptsFn env fuel st e1 pos perr l
    | .sub e1 => exprAcceptsFn env fuel st e1 pos perr l
    | .ident n =>
      match env.lookupRule n with
      | none => none
      | some (idx, r) =>
        match ruleAcceptsFn env fuel st idx r pos with
        | none => none
        | some (st1, dp, de) =>
          let perr1 := max perr (pos + de)
          if dp < 0 then some ⟨st1, none, perr1, l⟩
          else some ⟨st1, some (pos + dp), perr1, l⟩
    | .predCode neg c ns =>
      if env.predCodeFails neg c ns l then some ⟨st, none, max perr pos, l⟩
      else some ⟨st, some pos, perr, l⟩
    | .lit t =>
      if env.litMisses pos t then some ⟨st, none, max perr pos, l⟩
      else some ⟨st, some (pos + t.length), perr, l⟩
    | .charClass neg spans =>
      let (r, w) := env.next pos
      if classMisses neg r w spans then some ⟨st, none, max perr pos, l⟩
      else some ⟨st, some (pos + w), perr, l⟩
    | .any =>
      let (r, w) := env.next pos
      if w == 0 || r == 0xFFFD then some ⟨st, none, max perr pos, l⟩
      else some ⟨st, some (pos + w), perr, l⟩
termination_by structural fuel _ _ _ _ _ => fuel

/-- choiceAcceptsFn is choiceTemplate in the accepts pass: `pos0` is the
saved position; each failing branch restores it and falls to the next; a
branch that cannot fail falls through into the following branch's code
without a `goto ok` (as the template emits); the last branch's failure is
the choice's.  A (template-impossible) failure of a cannot-fail branch has
no generated code to jump to and is modelled as a stuck run. -/
def choiceAcceptsFn (env : PEnv) : Nat → PState → List Expr → Int → Int → Int →
    Labels → Option AccOut
  | 0, _, _, _, _, _, _ => none
  | _fuel + 1, st, [], _pos0, pos, perr, l => some ⟨st, some pos, perr, l⟩
  | fuel + 1, st, e :: es, pos0, pos, perr, l =>
    match exprAcceptsFn env fuel st e pos perr l with
    | none => none
    | some o =>
      if e.canFail then
        match o.res with
        | some _ => some o
        | none =>
          match es with
          | [] => some o
          | _ :: _ => choiceAcceptsFn env fuel o.st es pos0 pos0 o.perr o.labels
      else
        match o.res with
        | some pos1 =>
          match es with
          | [] => some o
          | _ :: _ => choiceAcceptsFn env fuel o.st es pos0 pos1 o.perr o.labels
        | none => none
termination_by structural fuel _ _ _ _ _ _ => fuel

/-- seqAcceptsFn is sequenceTemplate in the accepts pass: each factor runs
in order against the enclosing fail label. -/
def seqAcceptsFn (env : PEnv) : Nat → PState → List Expr → Int → Int → Labels →
    Option AccOut
  | 0, _, _, _, _, _ => none
  | _fuel + 1, st, [], pos, perr, l => some ⟨st, some pos, perr, l⟩
  | fuel + 1, st, e :: es, pos, perr, l =>
    match exprAcceptsFn env fuel st e pos perr l with
    | none => none
    | some o =>
      match o.res with
      | some pos1 => seqAcceptsFn env fuel o.st es pos1 o.perr o.labels
      | none => some o
termination_by structural fuel _ _ _ _ _ => fuel

/-- repAcceptsFn is repExprTemplate's `for` loop in the accepts pass: save
`pos`, run the body against a loop-local fail label, restore and break on
failure, continue on success (the Go loop may run forever on a nullable
body, which exhausts any fuel). -/
def repAcceptsFn (env : PEnv) : Nat → PState → Expr → Int → Int → Labels →
    Option AccOut
  | 0, _, _, _, _, _ => none
  | fuel + 1, st, e, pos, perr, l =>
    match exprAcceptsFn env fuel st e pos perr l with
    | none => none
    | some o =>
      match o.res with
      | some pos1 => repAcceptsFn env fuel o.st e pos1 o.perr o.labels
      | none => some { o with res := some pos }
termination_by structural fuel _ _ _ _ _ => fuel

end

/-! ## Expression rendering (string.go)

The generated failure nodes quote expressions in their `Want` fields via
the `String` methods of string.go.  Go's `strconv.QuoteToGraphic` and
`QuoteRuneToGraphic` (standard-library externals) are abstracted by plain
quoting, which agrees with them on printable ASCII without escapes — the
only case reached by the concrete evaluations in this file; no claim
inspects these strings further. -/

/-- bytesToString turns stored text bytes back into a string (each byte an
ASCII character in every concrete use here). -/
def bytesToString (bs : List Nat) : String :=
  String.mk (bs.map Char.ofNat)

/-- isIdentRune mirrors string.go's identifier-rune test (letters, digits
and underscore). -/
def isIdentRune (c : Char) : Bool :=
  c.isAlpha || c.isDigit || c == '_'

/-- charClassEsc escapes `^`, `-` and `]` in a character-class rendering
and otherwise prints the rune. -/
def charClassEsc (r : Int) : String :=
  if r = ('^' : Char).toNat then "\\^"
  else if r = ('-' : Char).toNat then "\\-"
  else if r = (']' : Char).toNat then "\\]"
  else String.mk [Char.ofNat r.toNat]

mutual

/-- renderString is string.go's `String` on expressions (with the pretty
flag off, as during generation): choices join with `/`, sequences with a
space, labels as `name:expr`, predicates as `&`/`!`, repetitions and
optionals postfixed, sub-expressions parenthesized, actions showing their
return type and an elided body, code predicates elided. -/
def Expr.renderString : Expr → String
  | .choice [] => ""
  | .choice (e :: es) => Expr.renderJoin "/" e.renderString es
  | .action e _ rt _ =>
    let t := if rt.toList.all isIdentRune then rt else "\"" ++ rt ++ "\""
    e.renderString ++ " " ++ t ++ ":\x7b…\x7d"
  | .seq [] => ""
  | .seq (e :: es) => Expr.renderJoin " " e.renderString es
  | .label nm e _ => nm ++ ":" ++ e.renderString
  | .pred neg e => (if neg then "!" else "&") ++ e.renderString
  | .rep op e => e.renderString ++ String.mk [op]
  | .opt e => e.renderString ++ "?"
  | .sub e => "(" ++ e.renderString ++ ")"
  | .ident n => n.render
  | .predCode neg _ _ => (if neg then "!\x7b…\x7d" else "&\x7b…\x7d")
  | .lit t => "\"" ++ bytesToString t ++ "\""
  | .charClass neg spans =>
    "[" ++ (if neg then "^" else "") ++ Expr.renderSpans spans ++ "]"
  | .any => "."

/-- renderJoin joins the remaining members with a separator. -/
def Expr.renderJoin (sep : String) (acc : String) : List Expr → String
  | [] => acc
  | e :: es => Expr.renderJoin sep (acc ++ sep ++ e.renderString) es

/-- renderSpans prints character-class spans. -/
def Expr.renderSpans : List (Int × Int) → String
  | [] => ""
  | (lo, hi) :: s =>
    (if lo = hi then charClassEsc lo else charClassEsc lo ++ "-" ++ charClassEsc hi)
      ++ Expr.renderSpans s

end

/-! ## The node pass (gen.go, ruleNode and the NodePass template arms) -/

/-- ncset stores a node in the node cache at (start, rule). -/
def ncset (f : Int → Nat → Option PNode) (p : Int) (r : Nat) (v : PNode) :
    Int → Nat → Option PNode :=
  fun q s => if q = p ∧ s = r then some v else f q s

/-- fcset stores a failure in the fail cache at (start, rule). -/
def fcset (f : Int → Nat → Option PFail) (p : Int) (r : Nat) (v : PFail) :
    Int → Nat → Option PFail :=
  fun q s => if q = p ∧ s = r then some v else f q s

/-- NodeOut is the observable result of running node-pass code: the state
(node caches of sub-rules may grow), the position after the accepted text
(`none` for a jump to the fail label), the kids accumulated so far on the
enclosing rule's node, and the labels array. -/
structure NodeOut where
  st : PState
  res : Option Int
  kids : List PNode
  labels : Labels

/-- leaf is `_leaf`: an anonymous node holding `text[a:b]`. -/
def PEnv.leaf (env : PEnv) (a b : Int) : PNode :=
  .mk "" (env.textSlice a b) []

mutual

/-- ruleNodeFn is the generated `_RNode(parser, start)`: return `(-1, nil)`
when `deltaPos[start][R]` is negative, the cached node at `start+dp-1` on
a cache hit, and otherwise re-run the body with tree-building side
effects, set the node's text, cache and return it; a body failure returns
`(-1, nil)` without caching. -/
def ruleNodeFn (env : PEnv) : Nat → PState → Nat → Rule → Int →
    Option (PState × Int × Option PNode)
  | 0, _, _, _, _ => none
  | fuel + 1, st, idx, r, start =>
    let dp := st.deltaPos start idx
    if dp < 0 then some (st, -1, none)
    else
      match st.nodeCache start idx with
      | some nd => some (st, start + (dp - 1), some nd)
      | none =>
        match exprNodeFn env fuel st r.expr start [] (fun _ => []) with
        | none => none
        | some o =>
          match o.res with
          | some pos =>
            let node := PNode.mk r.name.render (env.textSlice start pos) o.kids
            some ({ o.st with nodeCache := ncset o.st.nodeCache start idx node },
              pos, some node)
          | none => some (o.st, -1, none)
termination_by structural fuel _ _ _ _ => fuel

/-- exprNodeFn runs the node-pass code of one expression template:
terminals append leaf nodes, identifiers append the sub-rule's node via
`_node`, and the snapshot/truncate bookkeeping of the templates is applied
exactly where a NodePass arm appears in gen.go (in particular, the failure
arm of a non-negated predicate restores only the position there). -/
def exprNodeFn (env : PEnv) : Nat → PState → Expr → Int → List PNode → Labels →
    Option NodeOut
  | 0, _, _, _, _, _ => none
  | fuel + 1, st, e, pos, ks, l =>
    match e with
    | .choice es => choiceNodeFn env fuel st es pos pos ks.length ks l
    | .action e1 _ _ _ => exprNodeFn env fuel st e1 pos ks l
    | .seq es => seqNodeFn env fuel st es pos ks l
    | .label _ e1 n =>
      match exprNodeFn env fuel st e1 pos ks l with
      | none => none
      | some o =>
        match o.res with
        | some pos1 =>
          some { o with labels := fun m =>
            if m = n then env.textSlice pos pos1 else o.labels m }
        | none => some o
    | .pred neg e1 =>
      match exprNodeFn env fuel st e1 pos ks l with
      | none => none
      | some o =>
        if neg then
          match o.res with
          | some _ => some { o with res := none, kids := ks }
          | none => some { o with res := some pos, kids := ks }
        else
          match o.res with
          | some _ => some { o with res := some pos, kids := ks }
          | none => some { o with res := none }
    | .rep op e1 =>
      if op == '+' then
        match exprNodeFn env fuel st e1 pos ks l with
        | none => none
        | some o =>
          match o.res with
          | some pos1 => repNodeFn env fuel o.st e1 pos1 o.kids o.labels
          | none => some o
      else repNodeFn env fuel st e1 pos ks l
    | .opt e1 =>
      if e1.canFail then
        match exprNodeFn env fuel st e1 pos ks l with
        | none => none
        | some o =>
          match o.res with
          | some _ => some o
          | none => some { o with res := some pos, kids := ks }
      else exprNodeFn env fuel st e1 pos ks l
    | .sub e1 =>
      match exprNodeFn env fuel st e1 pos ks l with
      | none => none
      | some o =>
        match o.res with
        | some pos1 =>
          let s := PNode.mk "" (env.textSlice pos pos1) (o.kids.drop ks.length)
          some { o with kids := o.kids.take ks.length ++ [s] }
        | none => some o
    | .ident n =>
      match env.lookupRule n with
      | none => none
      | some (idx, r) =>
        match ruleNodeFn env fuel st idx r pos with
        | none => none
        | some (st1, p, kid) =>
          match kid with
          | none => some ⟨st1, none, ks, l⟩
          | some kid => some ⟨st1, some p, ks ++ [kid], l⟩
    | .predCode neg c ns =>
      if env.predCodeFails neg c ns l then some ⟨st, none, ks, l⟩
      else some ⟨st, some pos, ks, l⟩
    | .lit t =>
      if env.litMisses pos t then some ⟨st, none, ks, l⟩
      else some ⟨st, some (pos + t.length), ks ++ [env.leaf pos (pos + t.length)], l⟩
    | .charClass neg spans =>
      let (r, w) := env.next pos
      if classMisses neg r w spans then some ⟨st, none, ks, l⟩
      else some ⟨st, some (pos + w), ks ++ [env.leaf pos (pos + w)], l⟩
    | .any =>
      let (r, w) := env.next pos
      if w == 0 || r == 0xFFFD then some ⟨st, none, ks, l⟩
      else some ⟨st, some (pos + w), ks ++ [env.leaf pos (pos + w)], l⟩
termination_by structural fuel _ _ _ _ _ => fuel

/-- choiceNodeFn is choiceTemplate in the node pass: the kid count and the
position are snapshot; a failing branch truncates the kids and restores
the position before the next branch; a branch that cannot fail falls
through into the next branch's code (as the template emits). -/
def choiceNodeFn (env : PEnv) : Nat → PState → List Expr → Int → Int → Nat →
    List PNode → Labels → Option NodeOut
  | 0, _, _, _, _, _, _, _ => none
  | _fuel + 1, st, [], _pos0, pos, _nk, ks, l => some ⟨st, some pos, ks, l⟩
  | fuel + 1, st, e :: es, pos0, pos, nk, ks, l =>
    match exprNodeFn env fuel st e pos ks l with
    | none => none
    | some o =>
      if e.canFail then
        match o.res with
        | some _ => some o
        | none =>
          match es with
          | [] => some { o with kids := o.kids.take nk }
          | _ :: _ => choiceNodeFn env fuel o.st es pos0 pos0 nk (o.kids.take nk) o.labels
      else
        match o.res with
        | some pos1 =>
          match es with
          | [] => some o
          | _ :: _ => choiceNodeFn env fuel o.st es pos0 pos1 nk o.kids o.labels
        | none => none
termination_by structural fuel _ _ _ _ _ _ _ => fuel

/-- seqNodeFn is sequenceTemplate in the node pass. -/
def seqNodeFn (env : PEnv) : Nat → PState → List Expr → Int → List PNode →
    Labels → Option NodeOut
  | 0, _, _, _, _, _ => none
  | _fuel + 1, st, [], pos, ks, l => some ⟨st, some pos, ks, l⟩
  | fuel + 1, st, e :: es, pos, ks, l =>
    match exprNodeFn env fuel st e pos ks l with
    | none => none
    | some o =>
      match o.res with
      | some pos1 => seqNodeFn env fuel o.st es pos1 o.kids o.labels
      | none => some o
termination_by structural fuel _ _ _ _ _ => fuel

/-- repNodeFn is repExprTemplate's loop in the node pass: each iteration
snapshots the kid count and position and restores both on failure. -/
def repNodeFn (env : PEnv) : Nat → PState → Expr → Int → List PNode → Labels →
    Option NodeOut
  | 0, _, _, _, _, _ => none
  | fuel + 1, st, e, pos, ks, l =>
    match exprNodeFn env fuel st e pos ks l with
    | none => none
    | some o =>
      match o.res with
      | some pos1 => repNodeFn env fuel o.st e pos1 o.kids o.labels
      | none => some { o with res := some pos, kids := ks }
termination_by structural fuel _ _ _ _ _ => fuel

end

/-! ## The fail pass (gen.go, ruleFail and the FailPass template arms) -/

/-- FailOut is the observable result of running fail-pass code: the state
(fail caches of sub-rules may grow), the position (`none` for a jump to
the fail label), the failure kids accumulated on the enclosing rule's
failure node, and the labels array. -/
structure FailOut where
  st : PState
  res : Option Int
  kids : List PFail
  labels : Labels


mutual

/-- ruleFailFn is the generated `_RFail(parser, start, errPos)`: `_failMemo`
first (its non-nil failure is returned unchanged, whatever the caches
hold); otherwise rebuild the failure tree, collapse it to a single
`Want = error_name` leaf for a named rule, cache it, and return it with
the final position (or `-1`). -/
def ruleFailFn (env : PEnv) : Nat → PState → Nat → Rule → Int → Int →
    Option (PState × Int × PFail)
  | 0, _, _, _, _, _ => none
  | fuel + 1, st, idx, r, start, errPos =>
    match failMemoFn st idx start errPos with
    | (pos, some f) => some (st, pos, f)
    | (_, none) =>
      match exprFailFn env errPos fuel st r.expr start [] (fun _ => []) with
      | none => none
      | some o =>
        match o.res with
        | some pos =>
          let failure := PFail.mk r.name.identName start ""
            (if r.errorName.isSome then [] else o.kids)
          some ({ o.st with failCache := fcset o.st.failCache start idx failure },
            pos, failure)
        | none =>
          let failure := match r.errorName with
            | some en => PFail.mk r.name.identName start en []
            | none => PFail.mk r.name.identName start "" o.kids
          some ({ o.st with failCache := fcset o.st.failCache start idx failure },
            -1, failure)
termination_by structural fuel _ _ _ _ _ => fuel

/-- exprFailFn runs the fail-pass code of one expression template at
`pos`: failing terminals at or past `errPos` append leaf failures, failed
branches of a choice keep their collected kids (the template truncates
kids only in the node pass there), predicates snapshot and truncate the
kids and append a rendered predicate leaf on predicate failure, and
identifiers splice the sub-rule's failure in via `_fail`. -/
def exprFailFn (env : PEnv) (errPos : Int) : Nat → PState → Expr → Int →
    List PFail → Labels → Option FailOut
  | 0, _, _, _, _, _ => none
  | fuel + 1, st, e, pos, ks, l =>
    match e with
    | .choice es => choiceFailFn env errPos fuel st es pos pos ks l
    | .action e1 _ _ _ => exprFailFn env errPos fuel st e1 pos ks l
    | .seq es => seqFailFn env errPos fuel st es pos ks l
    | .label _ e1 n =>
      match exprFailFn env errPos fuel st e1 pos ks l with
      | none => none
      | some o =>
        match o.res with
        | some pos1 =>
          some { o with labels := fun m =>
            if m = n then env.textSlice pos pos1 else o.labels m }
        | none => some o
    | .pred neg e1 =>
      match exprFailFn env errPos fuel st e1 pos ks l with
      | none => none
      | some o =>
        let leafKids := fun (ks' : List PFail) =>
          if pos ≥ errPos then
            ks' ++ [PFail.mk "" pos (Expr.renderString (.pred neg e1)) []]
          else ks'
        if neg then
          match o.res with
          | some _ => some { o with res := none, kids := leafKids ks }
          | none => some { o with res := some pos, kids := ks }
        else
          match o.res with
          | some _ => some { o with res := some pos, kids := ks }
          | none => some { o with res := none, kids := leafKids ks }
    | .rep op e1 =>
      if op == '+' then
        match exprFailFn env errPos fuel st e1 pos ks l with
        | none => none
        | some o =>
          match o.res with
          | some pos1 => repFailFn env errPos fuel o.st e1 pos1 o.kids o.labels
          | none => some o
      else repFailFn env errPos fuel st e1 pos ks l
    | .opt e1 =>
      if e1.canFail then
        match exprFailFn env errPos fuel st e1 pos ks l with
        | none => none
        | some o =>
          match o.res with
          | some _ => some o
          | none => some { o with res := some pos }
      else exprFailFn env errPos fuel st e1 pos ks l
    | .sub e1 => exprFailFn env errPos fuel st e1 pos ks l
    | .ident n =>
      match env.lookupRule n with
      | none => none
      | some (idx, r) =>
        match ruleFailFn env fuel st idx r pos errPos with
        | none => none
        | some (st1, p, kid) =>
          let ks1 := if kid.want != "" || !kid.kids.isEmpty then ks ++ [kid] else ks
          if p < 0 then some ⟨st1, none, ks1, l⟩
          else some ⟨st1, some p, ks1, l⟩
    | .predCode neg c ns =>
      if env.predCodeFails neg c ns l then
        let ks1 := if pos ≥ errPos then
          ks ++ [PFail.mk "" pos
            ((if neg then "!\x7b" else "&\x7b") ++ c ++ "\x7d") []]
          else ks
        some ⟨st, none, ks1, l⟩
      else some ⟨st, some pos, ks, l⟩
    | .lit t =>
      if env.litMisses pos t then
        let ks1 := if pos ≥ errPos then
          ks ++ [PFail.mk "" pos (Expr.renderString (.lit t)) []] else ks
        some ⟨st, none, ks1, l⟩
      else some ⟨st, some (pos + t.length), ks, l⟩
    | .charClass neg spans =>
      let (r, w) := env.next pos
      if classMisses neg r w spans then
        let ks1 := if pos ≥ errPos then
          ks ++ [PFail.mk "" pos (Expr.renderString (.charClass neg spans)) []] else ks
        some ⟨st, none, ks1, l⟩
      else some ⟨st, some (pos + w), ks, l⟩
    | .any =>
      let (r, w) := env.next pos
      if w == 0 || r == 0xFFFD then
        let ks1 := if pos ≥ errPos then
          ks ++ [PFail.mk "" pos "." []] else ks
        some ⟨st, none, ks1, l⟩
      else some ⟨st, some (pos + w), ks, l⟩
termination_by structural fuel _ _ _ _ _ => fuel

/-- choiceFailFn is choiceTemplate in the fail pass: the position is
snapshot and restored between branches, but the failure kids collected by
failing branches are kept (the failure tree records all failing paths). -/
def choiceFailFn (env : PEnv) (errPos : Int) : Nat → PState → List Expr → Int →
    Int → List PFail → Labels → Option FailOut
  | 0, _, _, _, _, _, _ => none
  | _fuel + 1, st, [], _pos0, pos, ks, l => some ⟨st, some pos, ks, l⟩
  | fuel + 1, st, e :: es, pos0, pos, ks, l =>
    match exprFailFn env errPos fuel st e pos ks l with
    | none => none
    | some o =>
      if e.canFail then
        match o.res with
        | some _ => some o
        | none =>
          match es with
          | [] => some o
          | _ :: _ => choiceFailFn env errPos fuel o.st es pos0 pos0 o.kids o.labels
      else
        match o.res with
        | some pos1 =>
          match es with
          | [] => some o
          | _ :: _ => choiceFailFn env errPos fuel o.st es pos0 pos1 o.kids o.labels
        | none => none
termination_by structural fuel _ _ _ _ _ _ => fuel

/-- seqFailFn is sequenceTemplate in the fail pass. -/
def seqFailFn (env : PEnv) (errPos : Int) : Nat → PState → List Expr → Int →
    List PFail → Labels → Option FailOut
  | 0, _, _, _, _, _ => none
  | _fuel + 1, st, [], pos, ks, l => some ⟨st, some pos, ks, l⟩
  | fuel + 1, st, e :: es, pos, ks, l =>
    match exprFailFn env errPos fuel st e pos ks l with
    | none => none
    | some o =>
      match o.res with
      | some pos1 => seqFailFn env errPos fuel o.st es pos1 o.kids o.labels
      | none => some o
termination_by structural fuel _ _ _ _ _ => fuel

/-- repFailFn is repExprTemplate's loop in the fail pass: only the
position is snapshot and restored on a failing iteration (the kid
truncation there is node-pass only). -/
def repFailFn (env : PEnv) (errPos : Int) : Nat → PState → Expr → Int →
    List PFail → Labels → Option FailOut
  | 0, _, _, _, _, _ => none
  | fuel + 1, st, e, pos, ks, l =>
    match exprFailFn env errPos fuel st e pos ks l with
    | none => none
    | some o =>
      match o.res with
      | some pos1 => repFailFn env errPos fuel o.st e pos1 o.kids o.labels
      | none => some { o with res := some pos }
termination_by structural fuel _ _ _ _ _ => fuel

end

/-! ## Left-recursion checker

Modelled from the spec: the implementation of `checkLeft` is not among the
source files (only its declaration in the `Expr` interface and its tests in
check_test.go are), so the checker below follows §4.3 of the specification
literally: maintain a stack of rules; `checkLeft(R)` returns at once if `R`
already has an inferred type; a push of a rule already on the stack is the
discovery of a cycle, reported once as the stack slice from that rule to
the top (plus the rule again), whose members are all marked with a
placeholder type (the empty type) so they are not re-visited; otherwise
the traversal descends only into the potentially-left-consuming prefix of
the rule's expression (every branch of a choice; a sequence's factors up
to and including the first non-nullable one; the body of actions, labels,
predicates, repetitions, optionals and sub-expressions; the target of a
resolved identifier), and afterwards the rule's epsilon flag and inferred
type are computed from its expression.  Epsilon flags read the current
(possibly not yet final) flags of referenced rules, false before
assignment, as `Rule.epsilon`'s zero value is in Go. -/

/-- CLState is the state of the left-recursion walk: assigned types,
epsilon flags (defaulting to false), the rule stack in push order, and the
reported cycles (each the list of rule names on the cycle in order). -/
structure CLState where
  typs : String → Option String
  eps : String → Bool
  stack : List String
  errs : List (List String)

/-- clInit is the state before the walk: no types, all epsilon flags
false, empty stack, no errors. -/
def clInit : CLState := ⟨fun _ => none, fun _ => false, [], []⟩

/-- findRule resolves a name to its rule, as the name→rule map of `Check`
binds identifiers. -/
def findRule (g : List Rule) (n : PName) : Option Rule :=
  g.find? fun r => r.name.render == n.render

mutual

/-- checkLeftRule is `checkLeft` on a rule: return if typed; report and
mark a cycle if the rule is already on the stack; otherwise push, walk the
left prefix of the body, pop, and assign the rule's epsilon and type.
Exhausted fuel (never reached with fuel beyond the rule count) returns the
state unchanged. -/
def checkLeftRule (g : List Rule) : Nat → CLState → Rule → CLState
  | 0, s, _ => s
  | fuel + 1, s, r =>
    let nm := r.name.render
    if (s.typs nm).isSome then s
    else if nm ∈ s.stack then
      let cyc := (s.stack.dropWhile (· ≠ nm)) ++ [nm]
      { s with errs := s.errs ++ [cyc],
               typs := fun n => if n ∈ cyc then some "" else s.typs n }
    else
      let s1 := { s with stack := s.stack ++ [nm] }
      let s2 := checkLeftExpr g fuel s1 r.expr
      { s2 with stack := s.stack,
                eps := fun n => if n = nm then
                    r.expr.epsilon (fun m => some (s2.eps m)) else s2.eps n,
                typs := fun n => if n = nm then
                    some (r.expr.typeOf s2.typs) else s2.typs n }
termination_by structural fuel _ _ => fuel

/-- checkLeftExpr walks the potentially-left-consuming prefix of an
expression. -/
def checkLeftExpr (g : List Rule) : Nat → CLState → Expr → CLState
  | 0, s, _ => s
  | fuel + 1, s, e =>
    match e with
    | .choice es => checkLeftList g fuel s es
    | .action e1 _ _ _ => checkLeftExpr g fuel s e1
    | .seq es => checkLeftSeq g fuel s es
    | .label _ e1 _ => checkLeftExpr g fuel s e1
    | .pred _ e1 => checkLeftExpr g fuel s e1
    | .rep _ e1 => checkLeftExpr g fuel s e1
    | .opt e1 => checkLeftExpr g fuel s e1
    | .sub e1 => checkLeftExpr g fuel s e1
    | .ident n =>
      match findRule g n with
      | some r => checkLeftRule g fuel s r
      | none => s
    | .predCode _ _ _ => s
    | .lit _ => s
    | .charClass _ _ => s
    | .any => s
termination_by structural fuel _ _ => fuel

/-- checkLeftList walks every branch of a choice. -/
def checkLeftList (g : List Rule) : Nat → CLState → List Expr → CLState
  | 0, s, _ => s
  | _fuel + 1, s, [] => s
  | fuel + 1, s, e :: es => checkLeftList g fuel (checkLeftExpr g fuel s e) es
termination_by structural fuel _ _ => fuel

/-- checkLeftSeq walks a sequence's factors in order and stops after the
first factor whose epsilon flag (under the flags current after walking it)
is false. -/
def checkLeftSeq (g : List Rule) : Nat → CLState → List Expr → CLState
  | 0, s, _ => s
  | _fuel + 1, s, [] => s
  | fuel + 1, s, e :: es =>
    let s1 := checkLeftExpr g fuel s e
    if e.epsilon (fun m => some (s1.eps m)) then checkLeftSeq g fuel s1 es
    else s1
termination_by structural fuel _ _ => fuel

end

/-- checkLeftGrammar runs the checker over every rule in order from the
initial state, as the check pass invokes `checkLeft` rule by rule. -/
def checkLeftGrammar (g : List Rule) (fuel : Nat) : CLState :=
  g.foldl (fun s r => checkLeftRule g fuel s r) clInit

/-! ## Concrete instances used in the evaluations below

The rune decoder of the runtime library is out of the specified core; for
the ASCII-only inputs of the concrete evaluations the one-byte decoder
below coincides with Go's `utf8.DecodeRuneInString` (including the
`(RuneError, 0)` result at end of input). -/

/-- asciiDec decodes one byte as one rune, the runtime decoding contract
restricted to ASCII, with `(0xFFFD, 0)` at end of input. -/
def asciiDec : List Nat → Int × Nat
  | [] => (0xFFFD, 0)
  | b :: _ => ((b : Int), 1)

/-- strBytes is the byte list of an ASCII string. -/
def strBytes (s : String) : List Nat := s.toList.map Char.toNat

/-- mkEnv builds a parser environment over ASCII text whose embedded
predicate fragments all evaluate to false (none of the concrete grammars
below use one). -/
def mkEnv (rs : List Rule) (t : String) : PEnv :=
  ⟨rs, strBytes t, asciiDec, fun _ _ => false⟩

/-- ruleC3 is the named rule `A "a-rule" <- "a" "b"` (rule column 0). -/
def ruleC3 : Rule := ⟨⟨"A", []⟩, some "a-rule", .seq [.lit (strBytes "a"), .lit (strBytes "b")], 0⟩

/-- envC3 runs `ruleC3` on the input `ax`. -/
def envC3 : PEnv := mkEnv [ruleC3] "ax"

/-- ruleC4A is the named rule `A "a-name" <- B / "a"` (rule column 0). -/
def ruleC4A : Rule := ⟨⟨"A", []⟩, some "a-name", .choice [.ident ⟨"B", []⟩, .lit (strBytes "a")], 0⟩

/-- ruleC4B is the rule `B <- "a" "b"` (rule column 1). -/
def ruleC4B : Rule := ⟨⟨"B", []⟩, none, .seq [.lit (strBytes "a"), .lit (strBytes "b")], 1⟩

/-- envC4 runs the grammar `A "a-name" <- B / "a"; B <- "a" "b"` on `ax`. -/
def envC4 : PEnv := mkEnv [ruleC4A, ruleC4B] "ax"

/-- rules5 is the grammar `A <- T<a> T<a>; T<x> <- x`, whose two textually
equal invocations `T<a>` drive the template-expansion evaluation. -/
def rules5 : List Rule := [
  ⟨⟨"A", []⟩, none, .seq [.ident ⟨"T", ["a"]⟩, .ident ⟨"T", ["a"]⟩], 0⟩,
  ⟨⟨"T", ["x"]⟩, none, .ident ⟨"x", []⟩, 0⟩]

/-- rules5b is the grammar `A <- T1<a>; T1<x> <- T2<x>; T2<y> <- "b"`,
whose expansion introduces the invocation `T2<a>` by substitution. -/
def rules5b : List Rule := [
  ⟨⟨"A", []⟩, none, .ident ⟨"T1", ["a"]⟩, 0⟩,
  ⟨⟨"T1", ["x"]⟩, none, .ident ⟨"T2", ["x"]⟩, 0⟩,
  ⟨⟨"T2", ["y"]⟩, none, .lit (strBytes "b"), 0⟩]

/-- gOverlap is the grammar `A <- B / C; B <- A; C <- A`, which has the
two reachable elementary left cycles A,B,A and A,C,A. -/
def gOverlap : List Rule := [
  ⟨⟨"A", []⟩, none, .choice [.ident ⟨"B", []⟩, .ident ⟨"C", []⟩], 0⟩,
  ⟨⟨"B", []⟩, none, .ident ⟨"A", []⟩, 1⟩,
  ⟨⟨"C", []⟩, none, .ident ⟨"A", []⟩, 2⟩]

/-- ruleC1 is the rule `A <- B "c" / "a"` and ruleC1B the rule `B <- "ab"`
(columns 0 and 1), used to evaluate the accepts/node agreement concretely. -/
def ruleC1 : Rule := ⟨⟨"A", []⟩, none,
  .choice [.seq [.ident ⟨"B", []⟩, .lit (strBytes "c")], .lit (strBytes "a")], 0⟩

/-- ruleC1B is the sub-rule of the accepts/node evaluation. -/
def ruleC1B : Rule := ⟨⟨"B", []⟩, none, .lit (strBytes "ab"), 1⟩

/-- envC1 runs the grammar `A <- B "c" / "a"; B <- "ab"` on `abc`. -/
def envC1 : PEnv := mkEnv [ruleC1, ruleC1B] "abc"

/-- stAfterC1 is the parser state the witness Accepts call of C1 leaves
behind (the fresh state with the A and B results memoized). -/
def stAfterC1 : PState :=
  (ruleAcceptsFn envC1 20 PState.init 0 ruleC1 0).elim PState.init (fun t => t.1)

/-- stC10 is a parser state whose memo table records that rule column 0
succeeded at position 3 consuming one byte, while `lastFail` is still 0. -/
def stC10 : PState :=
  { PState.init with deltaPos := mset PState.init.deltaPos 3 0 2 }

/-! ## Left-edge reachability (for stating what the left-recursion
checker's reports mean)

`leftIdents` collects the identifiers on the potentially-left-consuming
prefix of an expression — the identifiers `checkLeftExpr` descends into —
under a given epsilon-flag assignment.  `leftEdgeB` is the induced edge
relation between rule names. -/

mutual

/-- leftIdents lists the identifiers in the potentially-left-consuming
prefix of an expression under the epsilon flags `eps`. -/
def leftIdents (eps : String → Bool) : Expr → List PName
  | .choice es => leftIdentsList eps es
  | .action e _ _ _ => leftIdents eps e
  | .seq es => leftIdentsSeq eps es
  | .label _ e _ => leftIdents eps e
  | .pred _ e => leftIdents eps e
  | .rep _ e => leftIdents eps e
  | .opt e => leftIdents eps e
  | .sub e => leftIdents eps e
  | .ident n => [n]
  | .predCode _ _ _ => []
  | .lit _ => []
  | .charClass _ _ => []
  | .any => []

/-- leftIdentsList collects over every branch of a choice. -/
def leftIdentsList (eps : String → Bool) : List Expr → List PName
  | [] => []
  | e :: es => leftIdents eps e ++ leftIdentsList eps es

/-- leftIdentsSeq collects over a sequence's factors up to and including
the first non-nullable one. -/
def leftIdentsSeq (eps : String → Bool) : List Expr → List PName
  | [] => []
  | e :: es =>
    leftIdents eps e ++
      (if e.epsilon (fun m => some (eps m)) then leftIdentsSeq eps es else [])

end

/-- leftEdgeB holds when rule `a` references rule `b` on the potentially-
left-consuming prefix of its expression (both resolved by rendered name). -/
def leftEdgeB (g : List Rule) (eps : String → Bool) (a b : String) : Bool :=
  match g.find? (fun r => r.name.render == a) with
  | some ra => (leftIdents eps ra.expr).any fun n =>
      n.render == b && (findRule g n).isSome
  | none => false

/-- epsLe orders epsilon-flag assignments pointwise: flags only ever flip
from false to true during the left-recursion walk. -/
def epsLe (e1 e2 : String → Bool) : Prop := ∀ x, e1 x = true → e2 x = true

/-- leftEdgeE holds when some rule named `a` references a defined rule `b`
on the potentially-left-consuming prefix of its expression under the
epsilon flags `eps` (the propositional form of `leftEdgeB`, existential
over same-named rules). -/
def leftEdgeE (g : List Rule) (eps : String → Bool) (a b : String) : Prop :=
  ∃ r ∈ g, r.name.render = a ∧ ∃ n ∈ leftIdents eps r.expr,
    n.render = b ∧ (findRule g n).isSome = true

/-- CLJ is the cycle-soundness invariant of the left-recursion walk: a
true epsilon flag belongs to a typed rule, the stack is duplicate-free,
stacked rules still have false epsilon flags, consecutive stacked rules
are joined by left edges under the current flags, and every reported
error is an elementary cycle along left edges: it returns to its first
name, repeats no interior name, and each adjacent pair is a left edge. -/
def CLJ (g : List Rule) (s : CLState) : Prop :=
  (∀ x, s.eps x = true → (s.typs x).isSome = true) ∧
  s.stack.Nodup ∧
  (∀ x ∈ s.stack, s.eps x = false) ∧
  List.Chain' (leftEdgeE g s.eps) s.stack ∧
  (∀ c ∈ s.errs, ∃ x mid, c = x :: (mid ++ [x]) ∧ (x :: mid).Nodup ∧
    List.Chain' (leftEdgeE g s.eps) c)

/-- CLStackEq states that every checker call returns the stack it was
given (frames pop what they push; reports leave it alone). -/
def CLStackEq (g : List Rule) (fuel : Nat) : Prop :=
  (∀ s r, (checkLeftRule g fuel s r).stack = s.stack) ∧
  (∀ s e, (checkLeftExpr g fuel s e).stack = s.stack) ∧
  (∀ s es, (checkLeftList g fuel s es).stack = s.stack) ∧
  (∀ s es, (checkLeftSeq g fuel s es).stack = s.stack)

/-- CLSound packages, per fuel level, the soundness of the four checker
functions: under the precondition that every identifier on the walked
left prefix is joined to the stack top by a left edge (at any future
flags), the walk only raises epsilon flags and preserves `CLJ`. -/
def CLSound (g : List Rule) (fuel : Nat) : Prop :=
  (∀ s r, r ∈ g →
    (∀ a, s.stack.getLast? = some a → leftEdgeE g s.eps a r.name.render) →
    CLJ g s →
    epsLe s.eps (checkLeftRule g fuel s r).eps ∧ CLJ g (checkLeftRule g fuel s r)) ∧
  (∀ s e,
    (∀ eps2, epsLe s.eps eps2 → ∀ n ∈ leftIdents eps2 e,
      (findRule g n).isSome = true →
      ∀ a, s.stack.getLast? = some a → leftEdgeE g eps2 a n.render) →
    CLJ g s →
    epsLe s.eps (checkLeftExpr g fuel s e).eps ∧ CLJ g (checkLeftExpr g fuel s e)) ∧
  (∀ s es,
    (∀ eps2, epsLe s.eps eps2 → ∀ n ∈ leftIdentsList eps2 es,
      (findRule g n).isSome = true →
      ∀ a, s.stack.getLast? = some a → leftEdgeE g eps2 a n.render) →
    CLJ g s →
    epsLe s.eps (checkLeftList g fuel s es).eps ∧ CLJ g (checkLeftList g fuel s es)) ∧
  (∀ s es,
    (∀ eps2, epsLe s.eps eps2 → ∀ n ∈ leftIdentsSeq eps2 es,
      (findRule g n).isSome = true →
      ∀ a, s.stack.getLast? = some a → leftEdgeE g eps2 a n.render) →
    CLJ g s →
    epsLe s.eps (checkLeftSeq g fuel s es).eps ∧ CLJ g (checkLeftSeq g fuel s es))

/-! ## A state-free reference run of the accepts-pass control flow

The generated accepts, node and fail passes share one control flow: which
alternative a choice commits to, how many iterations a repetition makes,
where each labelled span lies, and which rule is invoked at which
position, are all determined by the expression, the input and the embedded
predicates alone — the memo table only short-circuits re-computation.
`pureAcc` captures that control flow without any parser state: it returns
the position outcome, the final labels, and the list of direct rule
invocations (rule column and position) made by the expression itself
(invocations nested inside callee rules belong to the callee's own run).
It is the reference against which the memo table is proved sound and the
two passes are proved to agree. -/

mutual

/-- pureAcc is the state-free run of one expression: same equations as
`exprAcceptsFn` with the parser state and `perr` erased, and with the
direct rule invocations recorded. -/
def pureAcc (env : PEnv) : Nat → Expr → Int → Labels →
    Option (Option Int × Labels × List (Nat × Int))
  | 0, _, _, _ => none
  | fuel + 1, e, pos, l =>
    match e with
    | .choice es => pureC env fuel es pos pos l
    | .action e1 _ _ _ => pureAcc env fuel e1 pos l
    | .seq es => pureS env fuel es pos l
    | .label _ e1 n =>
      match pureAcc env fuel e1 pos l with
      | none => none
      | some (res, l1, cs) =>
        match res with
        | some pos1 =>
          some (some pos1,
            fun m => if m = n then env.textSlice pos pos1 else l1 m, cs)
        | none => some (none, l1, cs)
    | .pred neg e1 =>
      match pureAcc env fuel e1 pos l with
      | none => none
      | some (res, l1, cs) =>
        if neg then
          match res with
          | some _ => some (none, l1, cs)
          | none => some (some pos, l1, cs)
        else
          match res with
          | some _ => some (some pos, l1, cs)
          | none => some (none, l1, cs)
    | .rep op e1 =>
      if op == '+' then
        match pureAcc env fuel e1 pos l with
        | none => none
        | some (res, l1, cs1) =>
          match res with
          | some pos1 =>
            match pureR env fuel e1 pos1 l1 with
            | none => none
            | some (res2, l2, cs2) => some (res2, l2, cs1 ++ cs2)
          | none => some (none, l1, cs1)
      else pureR env fuel e1 pos l
    | .opt e1 =>
      if e1.canFail then
        match pureAcc env fuel e1 pos l with
        | none => none
        | some (res, l1, cs) =>
          match res with
          | some pos1 => some (some pos1, l1, cs)
          | none => some (some pos, l1, cs)
      else pureAcc env fuel e1 pos l
    | .sub e1 => pureAcc env fuel e1 pos l
    | .ident n =>
      match env.lookupRule n with
      | none => none
      | some (idx, r) =>
        match pureAcc env fuel r.expr pos (fun _ => []) with
        | none => none
        | some (res, _, _) =>
          match res with
          | some pos1 => some (some pos1, l, [(idx, pos)])
          | none => some (none, l, [(idx, pos)])
    | .predCode neg c ns =>
      if env.predCodeFails neg c ns l then some (none, l, [])
      else some (some pos, l, [])
    | .lit t =>
      if env.litMisses pos t then some (none, l, [])
      else some (some (pos + t.length), l, [])
    | .charClass neg spans =>
      let (r, w) := env.next pos
      if classMisses neg r w spans then some (none, l, [])
      else some (some (pos + w), l, [])
    | .any =>
      let (r, w) := env.next pos
      if w == 0 || r == 0xFFFD then some (none, l, [])
      else some (some (pos + w), l, [])
termination_by structural fuel _ _ _ => fuel

/-- pureC is the state-free run of choiceTemplate's branch list. -/
def pureC (env : PEnv) : Nat → List Expr → Int → Int → Labels →
    Option (Option Int × Labels × List (Nat × Int))
  | 0, _, _, _, _ => none
  | _fuel + 1, [], _pos0, pos, l => some (some pos, l, [])
  | fuel + 1, e :: es, pos0, pos, l =>
    match pureAcc env fuel e pos l with
    | none => none
    | some (res, l1, cs1) =>
      if e.canFail then
        match res with
        | some pos1 => some (some pos1, l1, cs1)
        | none =>
          match es with
          | [] => some (none, l1, cs1)
          | _ :: _ =>
            match pureC env fuel es pos0 pos0 l1 with
            | none => none
            | some (res2, l2, cs2) => some (res2, l2, cs1 ++ cs2)
      else
        match res with
        | some pos1 =>
          match es with
          | [] => some (some pos1, l1, cs1)
          | _ :: _ =>
            match pureC env fuel es pos0 pos1 l1 with
            | none => none
            | some (res2, l2, cs2) => some (res2, l2, cs1 ++ cs2)
        | none => none
termination_by structural fuel _ _ _ _ => fuel

/-- pureS is the state-free run of sequenceTemplate's factor list. -/
def pureS (env : PEnv) : Nat → List Expr → Int → Labels →
    Option (Option Int × Labels × List (Nat × Int))
  | 0, _, _, _ => none
  | _fuel + 1, [], pos, l => some (some pos, l, [])
  | fuel + 1, e :: es, pos, l =>
    match pureAcc env fuel e pos l with
    | none => none
    | some (res, l1, cs1) =>
      match res with
      | some pos1 =>
        match pureS env fuel es pos1 l1 with
        | none => none
        | some (res2, l2, cs2) => some (res2, l2, cs1 ++ cs2)
      | none => some (none, l1, cs1)
termination_by structural fuel _ _ _ => fuel

/-- pureR is the state-free run of repExprTemplate's loop. -/
def pureR (env : PEnv) : Nat → Expr → Int → Labels →
    Option (Option Int × Labels × List (Nat × Int))
  | 0, _, _, _ => none
  | fuel + 1, e, pos, l =>
    match pureAcc env fuel e pos l with
    | none => none
    | some (res, l1, cs1) =>
      match res with
      | some pos1 =>
        match pureR env fuel e pos1 l1 with
        | none => none
        | some (res2, l2, cs2) => some (res2, l2, cs1 ++ cs2)
      | none => some (some pos, l1, cs1)
termination_by structural fuel _ _ _ => fuel

end

/-- CallsNonzero states that every direct invocation a pure run makes has
a recorded (non-zero) `deltaPos` entry in the given state. -/
def CallsNonzero (st : PState) (cs : List (Nat × Int)) : Prop :=
  ∀ q ∈ cs, st.deltaPos q.2 q.1 ≠ 0

/-- EntryOK is the soundness of one memo cell: it is unrecorded, or it
records a failure of the rule's body at `p` whose pure run exists and
whose direct invocations are themselves recorded, or it likewise records a
success together with its (non-negative) length. -/
def EntryOK (env : PEnv) (st : PState) (idx : Nat) (r : Rule) (p : Int) : Prop :=
  st.deltaPos p idx = 0 ∨
  (∃ fuel l cs, pureAcc env fuel r.expr p (fun _ => []) = some (none, l, cs) ∧
    st.deltaPos p idx = -1 ∧ CallsNonzero st cs) ∨
  (∃ fuel p1 l cs, pureAcc env fuel r.expr p (fun _ => []) = some (some p1, l, cs) ∧
    st.deltaPos p idx = p1 - p + 1 ∧ p ≤ p1 ∧ CallsNonzero st cs)

/-- Good states that the whole `deltaPos` matrix is sound in the sense of
`EntryOK` (it says nothing about `deltaErr`, which no pass branches on,
nor the caches). -/
def Good (env : PEnv) (st : PState) : Prop :=
  ∀ idx r p, env.rules.get? idx = some r → EntryOK env st idx r p

/-- DecOK is the width contract of the runtime rune decoder: it never
reports a width beyond the remaining input. -/
def DecOK (env : PEnv) : Prop :=
  ∀ s, (env.dec s).2 ≤ s.length

/-- SmallText bounds the input length within the `int32` range of the memo
matrices (as every practical input is). -/
def SmallText (env : PEnv) : Prop :=
  (env.text.length : Int) + 2 < 2 ^ 31


/-- Preserves states that every recorded (non-zero) `deltaPos` entry of
`st` keeps its exact value in `st2` — what every accepts-pass run
guarantees, since `_memoize` is only reached on a memo miss. -/
def Preserves (st st2 : PState) : Prop :=
  ∀ p i, st.deltaPos p i ≠ 0 → st2.deltaPos p i = st.deltaPos p i

/-- PB bounds one pure outcome: a success position lies between the start
position and the end of input, and every direct invocation is made at an
in-range position. -/
def PB (env : PEnv) (pos : Int) (out : Option Int × Labels × List (Nat × Int)) : Prop :=
  (∀ p1, out.1 = some p1 → pos ≤ p1 ∧ p1 ≤ (env.text.length : Int)) ∧
  (∀ q ∈ out.2.2, 0 ≤ q.2 ∧ q.2 ≤ (env.text.length : Int))

/-- PureMono is fuel-monotonicity of the pure run at one fuel level. -/
def PureMono (env : PEnv) (fuel : Nat) : Prop :=
  (∀ e pos l out, pureAcc env fuel e pos l = some out →
    pureAcc env (fuel + 1) e pos l = some out) ∧
  (∀ es pos0 pos l out, pureC env fuel es pos0 pos l = some out →
    pureC env (fuel + 1) es pos0 pos l = some out) ∧
  (∀ es pos l out, pureS env fuel es pos l = some out →
    pureS env (fuel + 1) es pos l = some out) ∧
  (∀ e pos l out, pureR env fuel e pos l = some out →
    pureR env (fuel + 1) e pos l = some out)

/-- PureBound packages `PB` for the four pure runners at one fuel level. -/
def PureBound (env : PEnv) (fuel : Nat) : Prop :=
  (∀ e pos l out, 0 ≤ pos → pos ≤ (env.text.length : Int) →
    pureAcc env fuel e pos l = some out → PB env pos out) ∧
  (∀ es pos0 pos l out, 0 ≤ pos0 → pos0 ≤ pos → pos ≤ (env.text.length : Int) →
    pureC env fuel es pos0 pos l = some out → PB env pos0 out) ∧
  (∀ es pos l out, 0 ≤ pos → pos ≤ (env.text.length : Int) →
    pureS env fuel es pos l = some out → PB env pos out) ∧
  (∀ e pos l out, 0 ≤ pos → pos ≤ (env.text.length : Int) →
    pureR env fuel e pos l = some out → PB env pos out)

/-- AccAgree states, at one fuel level, that every completed accepts-pass
run keeps the memo matrix sound (`Good`), preserves recorded entries, and
follows the state-free reference run: same position outcome, same labels,
with every direct invocation recorded afterwards.  The rule-level part
additionally fixes the written memo cell as `dp+1` or `-1`. -/
def AccAgree (env : PEnv) (fuel : Nat) : Prop :=
  (∀ st idx r start st1 dp de,
    Good env st → env.rules.get? idx = some r →
    0 ≤ start → start ≤ (env.text.length : Int) →
    ruleAcceptsFn env fuel st idx r start = some (st1, dp, de) →
    Good env st1 ∧ Preserves st st1 ∧
    st1.deltaPos start idx = (if 0 ≤ dp then dp + 1 else -1) ∧
    (0 ≤ dp → ∃ f2 l1 cs, pureAcc env f2 r.expr start (fun _ => []) =
      some (some (start + dp), l1, cs)) ∧
    (dp < 0 → ∃ f2 l1 cs, pureAcc env f2 r.expr start (fun _ => []) =
      some (none, l1, cs))) ∧
  (∀ st e pos perr l o,
    Good env st → 0 ≤ pos → pos ≤ (env.text.length : Int) →
    exprAcceptsFn env fuel st e pos perr l = some o →
    Good env o.st ∧ Preserves st o.st ∧
    ∃ f2 cs, pureAcc env f2 e pos l = some (o.res, o.labels, cs) ∧
      CallsNonzero o.st cs) ∧
  (∀ st es pos0 pos perr l o,
    Good env st → 0 ≤ pos0 → pos0 ≤ pos → pos ≤ (env.text.length : Int) →
    choiceAcceptsFn env fuel st es pos0 pos perr l = some o →
    Good env o.st ∧ Preserves st o.st ∧
    ∃ f2 cs, pureC env f2 es pos0 pos l = some (o.res, o.labels, cs) ∧
      CallsNonzero o.st cs) ∧
  (∀ st es pos perr l o,
    Good env st → 0 ≤ pos → pos ≤ (env.text.length : Int) →
    seqAcceptsFn env fuel st es pos perr l = some o →
    Good env o.st ∧ Preserves st o.st ∧
    ∃ f2 cs, pureS env f2 es pos l = some (o.res, o.labels, cs) ∧
      CallsNonzero o.st cs) ∧
  (∀ st e pos perr l o,
    Good env st → 0 ≤ pos → pos ≤ (env.text.length : Int) →
    repAcceptsFn env fuel st e pos perr l = some o →
    Good env o.st ∧ Preserves st o.st ∧
    ∃ f2 cs, pureR env f2 e pos l = some (o.res, o.labels, cs) ∧
      CallsNonzero o.st cs)

/-- NodeAgree states, at one fuel level, that every completed node-pass
run leaves the memo matrix untouched and — provided the matrix is sound
and the run's direct invocations are recorded — returns the position
outcome and labels of the state-free reference run.  The rule-level part
reads its conclusion off the memo cell: a `d+1` cell yields position
`start + d` with a node, a `-1` cell yields `(-1, none)`. -/
def NodeAgree (env : PEnv) (fuel : Nat) : Prop :=
  (∀ st idx r start st1 p nd,
    Good env st → env.rules.get? idx = some r →
    st.deltaPos start idx ≠ 0 →
    ruleNodeFn env fuel st idx r start = some (st1, p, nd) →
    st1.deltaPos = st.deltaPos ∧
    ((∃ d, 0 ≤ d ∧ st.deltaPos start idx = d + 1 ∧ p = start + d ∧
      nd.isSome = true) ∨
     (st.deltaPos start idx = -1 ∧ p = -1 ∧ nd = none))) ∧
  (∀ st e pos ks l o f2 res l2 cs,
    Good env st →
    pureAcc env f2 e pos l = some (res, l2, cs) → CallsNonzero st cs →
    exprNodeFn env fuel st e pos ks l = some o →
    o.st.deltaPos = st.deltaPos ∧ o.res = res ∧ o.labels = l2) ∧
  (∀ st es pos0 pos nk ks l o f2 res l2 cs,
    Good env st →
    pureC env f2 es pos0 pos l = some (res, l2, cs) → CallsNonzero st cs →
    choiceNodeFn env fuel st es pos0 pos nk ks l = some o →
    o.st.deltaPos = st.deltaPos ∧ o.res = res ∧ o.labels = l2) ∧
  (∀ st es pos ks l o f2 res l2 cs,
    Good env st →
    pureS env f2 es pos l = some (res, l2, cs) → CallsNonzero st cs →
    seqNodeFn env fuel st es pos ks l = some o →
    o.st.deltaPos = st.deltaPos ∧ o.res = res ∧ o.labels = l2) ∧
  (∀ st e pos ks l o f2 res l2 cs,
    Good env st →
    pureR env f2 e pos l = some (res, l2, cs) → CallsNonzero st cs →
    repNodeFn env fuel st e pos ks l = some o →
    o.st.deltaPos = st.deltaPos ∧ o.res = res ∧ o.labels = l2)


/-- CLInv is the shape invariant of the left-recursion checker's state:
every reported error is a nonempty list that begins and ends with its
discovery rule, that rule is typed, and distinct errors have distinct
discovery rules. -/
def CLInv (s : CLState) : Prop :=
  (∀ c ∈ s.errs, ∃ x t, c = x :: t ∧ c.getLast? = some x ∧
    (s.typs x).isSome = true) ∧
  (s.errs.map List.head?).Nodup

/-- CLPost relates a checker state to the state a checker call leaves:
typed rules stay typed, reported errors stay reported, and the shape
invariant is preserved. -/
def CLPost (s s2 : CLState) : Prop :=
  (∀ x, (s.typs x).isSome = true → (s2.typs x).isSome = true) ∧
  (∀ c ∈ s.errs, c ∈ s2.errs) ∧
  (CLInv s → CLInv s2)

/-- CLAgree packages CLPost for the four checker functions at one fuel
level. -/
def CLAgree (g : List Rule) (fuel : Nat) : Prop :=
  (∀ s r, CLPost s (checkLeftRule g fuel s r)) ∧
  (∀ s e, CLPost s (checkLeftExpr g fuel s e)) ∧
  (∀ s es, CLPost s (checkLeftList g fuel s es)) ∧
  (∀ s es, CLPost s (checkLeftSeq g fuel s es))


/-! # Theorems -/

/-- toInt32 is the identity on values within the `int32` range. -/
theorem toInt32_eq_self {x : Int} (h1 : -(2 ^ 31) ≤ x) (h2 : x < 2 ^ 31) :
    toInt32 x = x := by
  unfold toInt32
  have hlo : (0 : Int) ≤ x + 2 ^ 31 := by omega
  have hhi : x + 2 ^ 31 < 2 ^ 32 := by omega
  rw [Int.emod_eq_of_lt hlo hhi]
  omega

/-- deltaPos entry written by a failing memoize. -/
theorem memoizeFn_deltaPos_fail (st : PState) (N : Nat) (s perr : Int) :
    (memoizeFn st N s (-1) perr).1.deltaPos s N = -1 := by
  simp [memoizeFn, mset, show ¬((-1 : Int) ≥ 0) by omega]

/-- deltaPos entry written by a successful memoize. -/
theorem memoizeFn_deltaPos_succ (st : PState) (N : Nat) (s pos perr : Int)
    (h : pos ≥ 0) (h2 : -(2 ^ 31) ≤ pos - s + 1) (h3 : pos - s + 1 < 2 ^ 31) :
    (memoizeFn st N s pos perr).1.deltaPos s N = pos - s + 1 := by
  simp [memoizeFn, mset, h, toInt32_eq_self h2 h3]

/-- deltaErr entry written by any memoize. -/
theorem memoizeFn_deltaErr (st : PState) (N : Nat) (s pos perr : Int)
    (h2 : -(2 ^ 31) ≤ perr - s + 1) (h3 : perr - s + 1 < 2 ^ 31) :
    (memoizeFn st N s pos perr).1.deltaErr s N = perr - s + 1 := by
  by_cases h : pos ≥ 0 <;>
    simp [memoizeFn, mset, h, toInt32_eq_self h2 h3]

/-- C2: after `_memoize(parser, N, s, pos, perr)` with `pos = -1` or
`pos ≥ s`, the `deltaPos[s][N]` entry is `pos-s+1` on success and `-1` on
failure (in particular non-zero, so `0` still means unrecorded), the
`deltaErr[s][N]` entry is `perr-s+1`, and a subsequent `_memo(parser, N, s)`
returns exactly `(pos-s, perr-s, true)` on success and `(-1, perr-s, true)`
on failure.  The hypotheses bound the deltas within the `int32` range of
the matrices (they hold for any input shorter than 2^31 bytes, the
practical domain of the generated parser). -/
theorem memoize_memo_roundTrip (st : PState) (N : Nat) (s pos perr : Int)
    (hpos : pos = -1 ∨ pos ≥ s) (hs : 0 ≤ s)
    (hd : pos - s + 1 < 2 ^ 31)
    (he1 : -(2 ^ 31) ≤ perr - s + 1) (he2 : perr - s + 1 < 2 ^ 31) :
    (pos ≥ s → (memoizeFn st N s pos perr).1.deltaPos s N = pos - s + 1) ∧
    (pos = -1 → (memoizeFn st N s pos perr).1.deltaPos s N = -1) ∧
    (memoizeFn st N s pos perr).1.deltaPos s N ≠ 0 ∧
    (memoizeFn st N s pos perr).1.deltaErr s N = perr - s + 1 ∧
    memoFn (memoizeFn st N s pos perr).1 N s =
      (if pos ≥ s then pos - s else -1, perr - s, true) := by
  have he := memoizeFn_deltaErr st N s pos perr he1 he2
  rcases hpos with h | h
  · subst h
    have hp := memoizeFn_deltaPos_fail st N s perr
    have hns : ¬((-1 : Int) ≥ s) := by omega
    refine ⟨fun hq => absurd hq hns, fun _ => hp, by rw [hp]; omega, he, ?_⟩
    rw [memoFn, hp, he]
    simp [hns]
  · have hp := memoizeFn_deltaPos_succ st N s pos perr (by omega) (by omega) hd
    refine ⟨fun _ => hp, fun hq => by omega, by rw [hp]; omega, he, ?_⟩
    rw [memoFn, hp, he]
    have h0 : ¬(pos - s + 1 = 0) := by omega
    have h1 : pos - s + 1 > 0 := by omega
    simp [h0, h1, h]

/-- Witness for `memoize_memo_roundTrip` at `s = 0`, `pos = 2`, `perr = 1`
on the fresh parser state. -/
theorem memoize_memo_roundTrip_witness :
    (memoizeFn PState.init 0 0 2 1).1.deltaPos 0 0 = 3 ∧
    (memoizeFn PState.init 0 0 2 1).1.deltaErr 0 0 = 2 ∧
    memoFn (memoizeFn PState.init 0 0 2 1).1 0 0 = (2, 1, true) := by
  have h := memoize_memo_roundTrip PState.init 0 0 2 1 (Or.inr (by norm_num))
    (by norm_num) (by norm_num) (by norm_num) (by norm_num)
  obtain ⟨h1, _, _, h4, h5⟩ := h
  have h1 := h1 (by norm_num)
  refine ⟨by rw [h1]; norm_num, by rw [h4]; norm_num, ?_⟩
  rw [h5]
  norm_num

/-- lastFail after a memoize is exactly the memoized perr. -/
theorem memoizeFn_lastFail (st : PState) (N : Nat) (s pos perr : Int) :
    (memoizeFn st N s pos perr).1.lastFail = perr := by
  by_cases h : pos ≥ 0 <;> simp [memoizeFn, h]

/-- the error delta a memoize returns is the untruncated perr - s. -/
theorem memoizeFn_de (st : PState) (N : Nat) (s pos perr : Int) :
    (memoizeFn st N s pos perr).2.2 = perr - s := by
  by_cases h : pos ≥ 0 <;> simp [memoizeFn, h]

/-- a fresh (unrecorded) entry makes `_memo` report a miss. -/
theorem memoFn_miss (st : PState) (N : Nat) (s : Int)
    (h : st.deltaPos s N = 0) : memoFn st N s = (0, 0, false) := by
  simp [memoFn, h]

/-- C3 counterexample: for the named rule `A "a-rule" <- "a" "b"` on input
`ax` at start 0, the generated Accepts fails with the unclamped `perr = 1`
and records `deltaErr[0][A] = 2`, which encodes the furthest-error
position `0 + (2 - 1) = 1`, strictly past the start 0 — so the claim's
"regardless of whether R's parse at s succeeded or failed" is false: the
generated `fail:` path memoizes perr without the clamp. -/
theorem ruleAccepts_namedClamp_counterexample :
    ruleC3.errorName.isSome = true ∧
    ((ruleAcceptsFn envC3 10 PState.init 0 ruleC3 0).map fun o =>
      (o.2.1, o.1.deltaErr 0 0)) = some (-1, 2) ∧
    (0 : Int) + (2 - 1) > 0 := by
  exact ⟨rfl, rfl, by norm_num⟩

/-- C3 amended: the Accepts function generated for a rule carrying an
error_name clamps the memoized furthest-error to the start position on the
success path only: when the body parse succeeds, the recorded
`deltaErr[s][R]` is exactly 1 (encoding position s) and the returned error
delta is 0; when the body fails, the `fail:` path memoizes the running
perr unclamped (see the counterexample). -/
theorem ruleAccepts_namedClamp_success (env : PEnv) (fuel : Nat) (st : PState)
    (idx : Nat) (r : Rule) (start : Int) (o : AccOut) (pos : Int)
    (hname : r.errorName.isSome = true)
    (hmiss : st.deltaPos start idx = 0)
    (hbody : exprAcceptsFn env fuel st r.expr start (-1) (fun _ => []) = some o)
    (hres : o.res = some pos) :
    ∃ st1 dp, ruleAcceptsFn env (fuel + 1) st idx r start = some (st1, dp, 0) ∧
      st1.deltaErr start idx = 1 := by
  have hmemo := memoFn_miss st idx start hmiss
  have he : (memoizeFn o.st idx start pos start).1.deltaErr start idx = 1 := by
    have := memoizeFn_deltaErr o.st idx start pos start (by omega) (by omega)
    rw [this]; omega
  have hde : (memoizeFn o.st idx start pos start).2.2 = 0 := by
    rw [memoizeFn_de]; omega
  refine ⟨(memoizeFn o.st idx start pos start).1,
    (memoizeFn o.st idx start pos start).2.1, ?_, he⟩
  rw [ruleAcceptsFn, hmemo]
  simp only [hbody, hres, hname, if_true, if_false, Bool.false_eq_true]
  rw [← hde]

/-- Witness for `ruleAccepts_namedClamp_success`: the named rule
`A "a-rule" <- "a" "b"` succeeds on input `ab` and records
`deltaErr[0][A] = 1`. -/
theorem ruleAccepts_namedClamp_success_witness :
    ∃ st1 dp, ruleAcceptsFn (mkEnv [ruleC3] "ab") 10 PState.init 0 ruleC3 0 =
      some (st1, dp, 0) ∧ st1.deltaErr 0 0 = 1 := by
  have h := ruleAccepts_namedClamp_success (mkEnv [ruleC3] "ab") 9 PState.init
    0 ruleC3 0
    ⟨(exprAcceptsFn (mkEnv [ruleC3] "ab") 9 PState.init ruleC3.expr 0 (-1)
        (fun _ => [])).get (by decide) |>.st,
      some 2, -1, fun _ => []⟩ 2 rfl rfl ?_ rfl
  · exact h
  · rfl

/-- C4 counterexample: in the grammar `A "a-name" <- B / "a"; B <- "a" "b"`
on input `ax`, calling A's generated Accepts at 0 first runs B's Accepts,
whose memoize records the failure position 1 (`deltaErr[0][B] = 2`) and
assigns `lastFail = 1` (second conjunct shows B's call alone does so); A
then succeeds via its second branch and, being named, memoizes the clamped
`perr = 0` — leaving `lastFail = 0`, smaller than the failure position 1
previously recorded in it.  `lastFail` is therefore not the greatest
non-suppressed failure position observed so far. -/
theorem lastFail_greatest_counterexample :
    ((ruleAcceptsFn envC4 10 PState.init 0 ruleC4A 0).map fun o =>
      (o.1.lastFail, o.1.deltaErr 0 1, o.1.deltaPos 0 1)) = some (0, 2, -1) ∧
    ((ruleAcceptsFn envC4 10 PState.init 1 ruleC4B 0).map fun o =>
      o.1.lastFail) = some 1 := by
  exact ⟨rfl, rfl⟩

/-- C4 amended: `_memoize` assigns (rather than maxes) `lastFail`: after
any memoizing (memo-miss) Accepts call returning error delta `de`,
`parser.lastFail` equals exactly `start + de`, the final perr of that call
— so a later call whose final perr is smaller (for example a named rule
that clamps its perr to its start) moves `lastFail` backwards. -/
theorem lastFail_assignment (env : PEnv) (fuel : Nat) (st : PState)
    (idx : Nat) (r : Rule) (start : Int) (st1 : PState) (dp de : Int)
    (hmiss : st.deltaPos start idx = 0)
    (h : ruleAcceptsFn env (fuel + 1) st idx r start = some (st1, dp, de)) :
    st1.lastFail = start + de := by
  rw [ruleAcceptsFn, memoFn_miss st idx start hmiss] at h
  simp only [Bool.false_eq_true, if_false] at h
  cases hb : exprAcceptsFn env fuel st r.expr start (-1) (fun _ => []) with
  | none => rw [hb] at h; exact absurd h (by simp)
  | some o =>
    rw [hb] at h
    dsimp only at h
    cases hr : o.res with
    | some pos =>
      rw [hr] at h
      dsimp only at h
      simp only [Option.some.injEq] at h
      have h1 : st1 = (memoizeFn o.st idx start pos
          (if r.errorName.isSome then start else o.perr)).1 := by
        rw [h]
      have h2 : de = (memoizeFn o.st idx start pos
          (if r.errorName.isSome then start else o.perr)).2.2 := by
        rw [h]
      rw [h1, memoizeFn_lastFail, h2, memoizeFn_de]
      omega
    | none =>
      rw [hr] at h
      dsimp only at h
      simp only [Option.some.injEq] at h
      have h1 : st1 = (memoizeFn o.st idx start (-1) o.perr).1 := by rw [h]
      have h2 : de = (memoizeFn o.st idx start (-1) o.perr).2.2 := by rw [h]
      rw [h1, memoizeFn_lastFail, h2, memoizeFn_de]
      omega

/-- Witness for `lastFail_assignment`: B's Accepts on `ax` returns error
delta 1 and leaves `lastFail = 0 + 1`. -/
theorem lastFail_assignment_witness :
    ∃ st1 dp de, ruleAcceptsFn envC4 10 PState.init 1 ruleC4B 0 =
      some (st1, dp, de) ∧ st1.lastFail = 0 + de := by
  refine ⟨_, _, _, rfl, ?_⟩
  exact lastFail_assignment envC4 9 PState.init 1 ruleC4B 0 _ _ _ rfl rfl

/-- C7 counterexample: the subexpression `"a"*` is nullable, yet
`("a"*)+` is not counted nullable — `RepExpr.epsilon` returns
`e.Op == '*'` without consulting the subexpression, so "E+ is nullable iff
E is nullable" fails. -/
theorem repExpr_epsilon_counterexample :
    Expr.epsilon (fun _ => none) (.rep '*' (.lit (strBytes "a"))) = true ∧
    Expr.epsilon (fun _ => none) (.rep '+' (.rep '*' (.lit (strBytes "a")))) = false := by
  exact ⟨rfl, rfl⟩

/-- C7 amended: `E*` is always nullable and `E+` is never counted
nullable: `RepExpr.epsilon` is exactly `Op == '*'`, regardless of the
subexpression's nullability. -/
theorem repExpr_epsilon_amended (env : String → Option Bool) (op : Char) (e : Expr) :
    Expr.epsilon env (.rep op e) = (op == '*') ∧
    Expr.epsilon env (.rep '*' e) = true ∧
    Expr.epsilon env (.rep '+' e) = false := by
  exact ⟨rfl, rfl, rfl⟩

/-- C8 counterexample: in the cited grammar.go version
(src/unnamed/part_001), a sequence whose first factor is string-typed has
type `[]string`, a repetition over a string-typed body has type
`[]string`, and an optional over a string-typed body has type `*string` —
none is reified to `string` as the claim states. -/
theorem type_reification_counterexample :
    Expr.typeOf (fun _ => none) (.lit (strBytes "a")) = "string" ∧
    Expr.typeOf (fun _ => none)
      (.seq [.lit (strBytes "a"), .lit (strBytes "b")]) = "[]string" ∧
    Expr.typeOf (fun _ => none) (.rep '+' (.lit (strBytes "a"))) = "[]string" ∧
    Expr.typeOf (fun _ => none) (.opt (.lit (strBytes "a"))) = "*string" ∧
    ("[]string" ≠ "string" ∧ "*string" ≠ "string") := by
  exact ⟨rfl, rfl, rfl, rfl, by decide, by decide⟩

/-- C8 amended: the cited `Type` methods never reify string collections:
a repetition or sequence over first-factor type `T` is `[]T` (sequences
with a disagreeing later factor fall back to `[]interface{}`), and an
optional is `*T`, for every `T` including `string`.  The string-reifying
behavior the claim describes is implemented only by the other grammar.go
version bundled in src/action_test.go (`Expr.typeReified`), for which the
last conjunct proves the claimed reification. -/
theorem type_noReification (rt : String → Option String) (e : Expr) (es : List Expr) :
    Expr.typeOf rt (.rep '+' e) = "[]" ++ Expr.typeOf rt e ∧
    Expr.typeOf rt (.rep '*' e) = "[]" ++ Expr.typeOf rt e ∧
    Expr.typeOf rt (.opt e) = "*" ++ Expr.typeOf rt e ∧
    (Expr.typeAllEq rt es (Expr.typeOf rt e) = true →
      Expr.typeOf rt (.seq (e :: es)) = "[]" ++ Expr.typeOf rt e) ∧
    (Expr.typeReified rt e = "string" →
      Expr.typeReified rt (.rep '+' e) = "string" ∧
      Expr.typeReified rt (.opt e) = "string" ∧
      Expr.typeReified rt (.seq (e :: es)) = "string") := by
  refine ⟨rfl, rfl, rfl, ?_, ?_⟩
  · intro h
    simp only [Expr.typeOf, h, if_true]
  · intro h
    refine ⟨?_, ?_, ?_⟩ <;>
      simp only [Expr.typeReified, Expr.reifyBox, h] <;> rfl

/-- Witness for `type_noReification` with a string-typed first factor and
an agreeing second factor. -/
theorem type_noReification_witness :
    Expr.typeAllEq (fun _ => none) [Expr.lit (strBytes "b")]
      (Expr.typeOf (fun _ => none) (.lit (strBytes "a"))) = true ∧
    Expr.typeReified (fun _ => none) (.lit (strBytes "a")) = "string" ∧
    Expr.typeOf (fun _ => none)
      (.seq [Expr.lit (strBytes "a"), Expr.lit (strBytes "b")]) =
      "[]" ++ Expr.typeOf (fun _ => none) (.lit (strBytes "a")) ∧
    Expr.typeReified (fun _ => none)
      (.seq [Expr.lit (strBytes "a"), Expr.lit (strBytes "b")]) = "string" := by
  refine ⟨rfl, rfl, ?_, ?_⟩
  · exact (type_noReification (fun _ => none) (.lit (strBytes "a"))
      [Expr.lit (strBytes "b")]).2.2.2.1 rfl
  · exact ((type_noReification (fun _ => none) (.lit (strBytes "a"))
      [Expr.lit (strBytes "b")]).2.2.2.2 rfl).2.2

/-- C10: for every parser state with `start > parser.lastFail` — whatever
the memo matrices and caches hold, including a memo entry recording that
the rule succeeded at `start` — the generated Fail function returns
`(-1, &peg.Fail{})`: an empty failure with no name, position 0 and no
kids, produced by `_failMemo`'s first test before the fail cache is read,
and the parser state is returned unchanged (nothing is written). -/
theorem ruleFail_shortCircuit (env : PEnv) (fuel : Nat) (st : PState)
    (idx : Nat) (r : Rule) (start errPos : Int) (h : start > st.lastFail) :
    ruleFailFn env (fuel + 1) st idx r start errPos =
      some (st, -1, PFail.empty) := by
  rw [ruleFailFn]
  have hm : failMemoFn st idx start errPos = (-1, some PFail.empty) := by
    simp [failMemoFn, h]
  rw [hm]

/-- Witness for `ruleFail_shortCircuit`: a state whose memo table records
success at (3, rule 0) but whose `lastFail` is 0; Fail at start 3 returns
the empty failure and the unchanged state. -/
theorem ruleFail_shortCircuit_witness :
    stC10.deltaPos 3 0 = 2 ∧ stC10.lastFail = 0 ∧
    ruleFailFn envC3 10 stC10 0 ruleC3 3 0 = some (stC10, -1, PFail.empty) := by
  refine ⟨rfl, rfl, ?_⟩
  exact ruleFail_shortCircuit envC3 9 stC10 0 ruleC3 3 0 (by decide)

/-- C5 counterexample: in the grammar `A <- T<a> T<a>; T<x> <- x`, the two
textually equal occurrences of the invocation `T<a>` yield two clones, not
one (the expanded list is A, T<a>, T<a>), refuting per-unique-invocation
cloning; and in `A <- T1<a>; T1<x> <- T2<x>; T2<y> <- "b"`, the clone
`T1<a>` has body `T2<a>`, yet no rule `T2<a>` is produced (only the
pre-substitution occurrence `T2<x>` is expanded) — there is no worklist
re-examining invocations introduced by substitution. -/
theorem expandTemplates_unique_counterexample :
    ((expandTemplates rules5).1.map fun r => r.name.render) =
      ["A", "T<a>", "T<a>"] ∧
    ((expandTemplates rules5b).1.map fun r => r.name.render) =
      ["A", "T1<a>", "T2<x>"] ∧
    ((expandTemplates rules5b).1.map fun r => r.expr.renderString) =
      ["T1<a>", "T2<a>", "\"b\""] := by
  exact ⟨rfl, rfl, rfl⟩

/-- C5 amended: template expansion produces exactly one specialized clone
per invocation occurrence — textually equal occurrences yield duplicate
clones — substituting each parameter by the corresponding argument in a
deep copy of the template's body and giving the clone the invocation's
arguments as its name arguments; occurrences with mismatched arity yield
an error and no clone.  Invocations are gathered by a single pre-pass over
the original rules (template bodies included, before substitution); there
is no worklist, so invocations first introduced by substitution are not
themselves expanded. -/
theorem expandClones_perOccurrence (r : Rule) (ts : List PName) :
    (expandClones r ts).1 =
      (ts.filter fun t => t.args.length == r.name.args.length).map fun t =>
        { r with name := ⟨r.name.base, t.args⟩,
                 expr := r.expr.substitute (buildSub r.name.args t.args) } := by
  induction ts with
  | nil => rfl
  | cons t ts ih =>
    by_cases h : t.args.length = r.name.args.length
    · simp [expandClones, h, ih]
    · simp [expandClones, h, ih]

/-- Witness for `expandClones_perOccurrence` is not required (the theorem
has no hypothesis), but the counterexample grammar instantiates it: the
template `T<x> <- x` with the collected occurrences `[T<a>, T<a>]`
produces exactly the two substituted clones. -/
theorem expandClones_perOccurrence_example :
    (expandClones ⟨⟨"T", ["x"]⟩, none, .ident ⟨"x", []⟩, 0⟩
        (templateInvocations rules5 "T")).1.length = 2 := by
  rfl

/-- the rules returned by the per-rule check pass are the input rules with
checked expressions; all other fields are untouched. -/
theorem checkRules_fst (d : String → Bool) (rs : List Rule) :
    (checkRules d rs).1 = rs.map fun r =>
      { r with expr := (r.expr.checkRun d []).1 } := by
  induction rs with
  | nil => rfl
  | cons r rs ih =>
    rcases hc : r.expr.checkRun d [] with ⟨e1, ls, errs⟩
    simp only [checkRules, List.map_cons, List.foldr_cons, hc] at ih ⊢
    rw [← ih]

/-- assignNs gives rule i the index i. -/
theorem assignNs_n (rs : List Rule) :
    (assignNs rs).map Rule.n = (List.range rs.length).map Int.ofNat := by
  unfold assignNs
  rw [List.map_map, List.enum_eq_zip_range]
  have h1 : ((List.range rs.length).zip rs).map
      (Rule.n ∘ fun p => { p.2 with n := (p.1 : Int) }) =
      (((List.range rs.length).zip rs).map Prod.fst).map Int.ofNat := by
    rw [List.map_map]; rfl
  rw [h1, List.map_fst_zip]
  simp

/-- C9: `Check` assigns `Grammar.CheckedRules` atomically: when any error
was accumulated the grammar's `CheckedRules` stays `nil`, and when no
error was accumulated it becomes the expanded rule list with each rule's
`N` equal to its index. -/
theorem Check_atomic (g : Grammar) (h0 : g.checkedRules = none) :
    ((Check g).1 ≠ [] → (Check g).2.checkedRules = none) ∧
    ((Check g).1 = [] → ∃ rs, (Check g).2.checkedRules = some rs ∧
      rs.length = (expandTemplates g.rules).1.length ∧
      rs.map Rule.n = (List.range rs.length).map Int.ofNat) := by
  rcases hE : expandTemplates g.rules with ⟨expanded, terrs⟩
  rcases hC : checkRules
      (fun n => (assignNs expanded).any fun r => r.name.render == n)
      (assignNs expanded) with ⟨rules2, cerrs⟩
  have hlen : rules2.length = expanded.length := by
    have := congrArg List.length (congrArg Prod.fst hC)
    rw [checkRules_fst] at this
    simpa [assignNs] using this.symm
  have hn : rules2.map Rule.n = (List.range rules2.length).map Int.ofNat := by
    have h1 := congrArg Prod.fst hC
    rw [checkRules_fst] at h1
    dsimp only at h1
    have h2 : rules2.map Rule.n = (assignNs expanded).map Rule.n := by
      rw [← h1, List.map_map]; rfl
    rw [h2, assignNs_n]
    rw [hlen]
  by_cases he : terrs = [] ∧ dupRuleErrors [] (assignNs expanded) = [] ∧ cerrs = []
  · constructor
    · intro hne
      exact absurd (by simp [Check, hE, hC, he.1, he.2.1, he.2.2]) hne
    · intro _
      refine ⟨rules2, ?_, by simp [hlen, hE], hn⟩
      simp [Check, hE, hC, he.1, he.2.1, he.2.2]
  · constructor
    · intro _
      have hcr : (Check g).2.checkedRules = g.checkedRules := by
        simp [Check, hE, hC, he]
      rw [hcr, h0]
    · intro hemp
      have hfst : (Check g).1 =
          terrs ++ (dupRuleErrors [] (assignNs expanded) ++ cerrs) := by
        simp [Check, hE, hC, he]
      rw [hfst] at hemp
      simp only [List.append_eq_nil] at hemp
      exact absurd ⟨hemp.1, hemp.2.1, hemp.2.2⟩ he

/-- Witness for `Check_atomic` on the one-rule grammar `A <- "a"` (checked
with no error) with `CheckedRules` initially nil. -/
theorem Check_atomic_witness :
    ∃ rs, (Check ⟨[⟨⟨"A", []⟩, none, .lit (strBytes "a"), 0⟩], none⟩).2.checkedRules
        = some rs ∧
      rs.length = (expandTemplates [⟨⟨"A", []⟩, none, .lit (strBytes "a"), 0⟩]).1.length ∧
      rs.map Rule.n = (List.range rs.length).map Int.ofNat := by
  exact (Check_atomic ⟨[⟨⟨"A", []⟩, none, .lit (strBytes "a"), 0⟩], none⟩ rfl).2 rfl

/-! ## Fuel monotonicity and functionality of the pure reference run -/

theorem pureMono_all (env : PEnv) : ∀ fuel, PureMono env fuel := by
  intro fuel
  induction fuel with
  | zero =>
    refine ⟨?_, ?_, ?_, ?_⟩
    · intro e pos l out h; simp [pureAcc] at h
    · intro es pos0 pos l out h; simp [pureC] at h
    · intro es pos l out h; simp [pureS] at h
    · intro e pos l out h; simp [pureR] at h
  | succ n ih =>
    obtain ⟨ihA, ihC, ihS, ihR⟩ := ih
    refine ⟨?_, ?_, ?_, ?_⟩
    · intro e pos l out h
      cases e with
      | choice es =>
        simp only [pureAcc] at h
        rw [pureAcc.eq_def]; dsimp only
        exact ihC _ _ _ _ _ h
      | action e1 c t ns =>
        simp only [pureAcc] at h
        rw [pureAcc.eq_def]; dsimp only
        exact ihA _ _ _ _ h
      | seq es =>
        simp only [pureAcc] at h
        rw [pureAcc.eq_def]; dsimp only
        exact ihS _ _ _ _ h
      | label nm e1 k =>
        simp only [pureAcc] at h
        rw [pureAcc.eq_def]; dsimp only
        cases hsub : pureAcc env n e1 pos l with
        | none => rw [hsub] at h; simp at h
        | some o1 => rw [hsub] at h; rw [ihA _ _ _ _ hsub]; exact h
      | pred neg e1 =>
        simp only [pureAcc] at h
        rw [pureAcc.eq_def]; dsimp only
        cases hsub : pureAcc env n e1 pos l with
        | none => rw [hsub] at h; simp at h
        | some o1 => rw [hsub] at h; rw [ihA _ _ _ _ hsub]; exact h
      | rep op e1 =>
        simp only [pureAcc] at h
        rw [pureAcc.eq_def]; dsimp only
        by_cases hop : (op == '+') = true
        · rw [if_pos hop] at h ⊢
          cases hsub : pureAcc env n e1 pos l with
          | none => rw [hsub] at h; simp at h
          | some o1 =>
            rw [hsub] at h
            rw [ihA _ _ _ _ hsub]
            obtain ⟨res, l1, cs1⟩ := o1
            cases res with
            | none => exact h
            | some pos1 =>
              dsimp only at h ⊢
              cases hsub2 : pureR env n e1 pos1 l1 with
              | none => rw [hsub2] at h; simp at h
              | some o2 => rw [hsub2] at h; rw [ihR _ _ _ _ hsub2]; exact h
        · rw [if_neg hop] at h ⊢
          exact ihR _ _ _ _ h
      | opt e1 =>
        simp only [pureAcc] at h
        rw [pureAcc.eq_def]; dsimp only
        by_cases hcf : e1.canFail = true
        · rw [if_pos hcf] at h ⊢
          cases hsub : pureAcc env n e1 pos l with
          | none => rw [hsub] at h; simp at h
          | some o1 => rw [hsub] at h; rw [ihA _ _ _ _ hsub]; exact h
        · rw [if_neg hcf] at h ⊢
          exact ihA _ _ _ _ h
      | sub e1 =>
        simp only [pureAcc] at h
        rw [pureAcc.eq_def]; dsimp only
        exact ihA _ _ _ _ h
      | ident nm =>
        simp only [pureAcc] at h
        rw [pureAcc.eq_def]; dsimp only
        cases hlk : env.lookupRule nm with
        | none => rw [hlk] at h; simp at h
        | some ir =>
          rw [hlk] at h
          obtain ⟨idx, r⟩ := ir
          dsimp only at h ⊢
          cases hsub : pureAcc env n r.expr pos (fun _ => []) with
          | none => rw [hsub] at h; simp at h
          | some o1 => rw [hsub] at h; rw [ihA _ _ _ _ hsub]; exact h
      | predCode neg c ns =>
        simp only [pureAcc] at h
        rw [pureAcc.eq_def]; dsimp only
        exact h
      | lit t =>
        simp only [pureAcc] at h
        rw [pureAcc.eq_def]; dsimp only
        exact h
      | charClass neg spans =>
        simp only [pureAcc] at h
        rw [pureAcc.eq_def]; dsimp only
        exact h
      | any =>
        simp only [pureAcc] at h
        rw [pureAcc.eq_def]; dsimp only
        exact h
    · intro es pos0 pos l out h
      cases es with
      | nil => simpa only [pureC] using h
      | cons e es =>
        simp only [pureC] at h
        rw [pureC.eq_def]
        dsimp only
        cases hsub : pureAcc env n e pos l with
        | none => rw [hsub] at h; simp at h
        | some o1 =>
          rw [hsub] at h
          rw [ihA _ _ _ _ hsub]
          obtain ⟨res, l1, cs1⟩ := o1
          dsimp only at h ⊢
          by_cases hcf : e.canFail = true
          · rw [if_pos hcf] at h ⊢
            cases res with
            | some pos1 => exact h
            | none =>
              cases es with
              | nil => exact h
              | cons f fs =>
                dsimp only at h ⊢
                cases hsub2 : pureC env n (f :: fs) pos0 pos0 l1 with
                | none => rw [hsub2] at h; simp at h
                | some o2 => rw [hsub2] at h; rw [ihC _ _ _ _ _ hsub2]; exact h
          · rw [if_neg hcf] at h ⊢
            cases res with
            | none => simp at h
            | some pos1 =>
              cases es with
              | nil => exact h
              | cons f fs =>
                dsimp only at h ⊢
                cases hsub2 : pureC env n (f :: fs) pos0 pos1 l1 with
                | none => rw [hsub2] at h; simp at h
                | some o2 => rw [hsub2] at h; rw [ihC _ _ _ _ _ hsub2]; exact h
    · intro es pos l out h
      cases es with
      | nil => simpa only [pureS] using h
      | cons e es =>
        simp only [pureS] at h
        rw [pureS.eq_def]
        dsimp only
        cases hsub : pureAcc env n e pos l with
        | none => rw [hsub] at h; simp at h
        | some o1 =>
          rw [hsub] at h
          rw [ihA _ _ _ _ hsub]
          obtain ⟨res, l1, cs1⟩ := o1
          cases res with
          | none => exact h
          | some pos1 =>
            dsimp only at h ⊢
            cases hsub2 : pureS env n es pos1 l1 with
            | none => rw [hsub2] at h; simp at h
            | some o2 => rw [hsub2] at h; rw [ihS _ _ _ _ hsub2]; exact h
    · intro e pos l out h
      simp only [pureR] at h
      rw [pureR.eq_def]
      dsimp only
      cases hsub : pureAcc env n e pos l with
      | none => rw [hsub] at h; simp at h
      | some o1 =>
        rw [hsub] at h
        rw [ihA _ _ _ _ hsub]
        obtain ⟨res, l1, cs1⟩ := o1
        cases res with
        | none => exact h
        | some pos1 =>
          dsimp only at h ⊢
          cases hsub2 : pureR env n e pos1 l1 with
          | none => rw [hsub2] at h; simp at h
          | some o2 => rw [hsub2] at h; rw [ihR _ _ _ _ hsub2]; exact h

/-- pureAcc is monotone under any fuel increase. -/
theorem pureAcc_le (env : PEnv) {f1 f2 : Nat} (hle : f1 ≤ f2) {e : Expr}
    {pos : Int} {l : Labels} {out : Option Int × Labels × List (Nat × Int)}
    (h : pureAcc env f1 e pos l = some out) : pureAcc env f2 e pos l = some out := by
  induction f2 with
  | zero => cases Nat.le_zero.mp hle; exact h
  | succ n ih =>
    rcases Nat.lt_or_ge f1 (n + 1) with hlt | hge
    · exact (pureMono_all env n).1 _ _ _ _ (ih (Nat.lt_succ_iff.mp hlt))
    · cases Nat.le_antisymm hle hge; exact h

/-- Two completed pure runs of one expression agree. -/
theorem pureAcc_fun (env : PEnv) {f1 f2 : Nat} {e : Expr} {pos : Int} {l : Labels}
    {o1 o2 : Option Int × Labels × List (Nat × Int)}
    (h1 : pureAcc env f1 e pos l = some o1) (h2 : pureAcc env f2 e pos l = some o2) :
    o1 = o2 := by
  have e1 := pureAcc_le env (Nat.le_max_left f1 f2) h1
  have e2 := pureAcc_le env (Nat.le_max_right f1 f2) h2
  rw [e1] at e2
  exact (Option.some_inj.mp e2)

/-- dropLenInt computes the length of the remaining input as an integer. -/
theorem dropLenInt (env : PEnv) {pos : Int} (h0 : 0 ≤ pos)
    (hL : pos ≤ (env.text.length : Int)) :
    ((env.text.drop pos.toNat).length : Int) = (env.text.length : Int) - pos := by
  rw [List.length_drop]
  omega

theorem pureBound_all (env : PEnv) (hdec : DecOK env) : ∀ fuel, PureBound env fuel := by
  intro fuel
  induction fuel with
  | zero =>
    refine ⟨?_, ?_, ?_, ?_⟩
    · intro e pos l out h0 hL h; simp [pureAcc] at h
    · intro es pos0 pos l out h0 h01 hL h; simp [pureC] at h
    · intro es pos l out h0 hL h; simp [pureS] at h
    · intro e pos l out h0 hL h; simp [pureR] at h
  | succ n ih =>
    obtain ⟨ihA, ihC, ihS, ihR⟩ := ih
    refine ⟨?_, ?_, ?_, ?_⟩
    · intro e pos l out h0 hL h
      cases e with
      | choice es =>
        simp only [pureAcc] at h
        exact ihC _ _ _ _ _ h0 le_rfl hL h
      | action e1 c t ns =>
        simp only [pureAcc] at h
        exact ihA _ _ _ _ h0 hL h
      | seq es =>
        simp only [pureAcc] at h
        exact ihS _ _ _ _ h0 hL h
      | label nm e1 k =>
        simp only [pureAcc] at h
        cases hsub : pureAcc env n e1 pos l with
        | none => rw [hsub] at h; simp at h
        | some o1 =>
          rw [hsub] at h
          obtain ⟨hres1, hcs1⟩ := ihA _ _ _ _ h0 hL hsub
          obtain ⟨res, l1, cs1⟩ := o1
          dsimp only at h
          cases res with
          | some pos1 =>
            injection h with h
            subst h
            exact ⟨fun p1 hp1 => (by cases hp1; exact hres1 _ rfl), hcs1⟩
          | none =>
            injection h with h
            subst h
            exact ⟨fun p1 hp1 => (by cases hp1), hcs1⟩
      | pred neg e1 =>
        simp only [pureAcc] at h
        cases hsub : pureAcc env n e1 pos l with
        | none => rw [hsub] at h; simp at h
        | some o1 =>
          rw [hsub] at h
          obtain ⟨hres1, hcs1⟩ := ihA _ _ _ _ h0 hL hsub
          obtain ⟨res, l1, cs1⟩ := o1
          dsimp only at h
          cases hneg : neg with
          | true =>
            rw [hneg] at h
            simp only [if_true] at h
            cases res with
            | some pos1 =>
              injection h with h; subst h
              exact ⟨fun p1 hp1 => (by cases hp1), hcs1⟩
            | none =>
              injection h with h; subst h
              exact ⟨fun p1 hp1 => (by cases hp1; exact ⟨le_rfl, hL⟩), hcs1⟩
          | false =>
            rw [hneg] at h
            simp only [Bool.false_eq_true, if_false] at h
            cases res with
            | some pos1 =>
              injection h with h; subst h
              exact ⟨fun p1 hp1 => (by cases hp1; exact ⟨le_rfl, hL⟩), hcs1⟩
            | none =>
              injection h with h; subst h
              exact ⟨fun p1 hp1 => (by cases hp1), hcs1⟩
      | rep op e1 =>
        simp only [pureAcc] at h
        by_cases hop : (op == '+') = true
        · rw [if_pos hop] at h
          cases hsub : pureAcc env n e1 pos l with
          | none => rw [hsub] at h; simp at h
          | some o1 =>
            rw [hsub] at h
            obtain ⟨hres1, hcs1⟩ := ihA _ _ _ _ h0 hL hsub
            obtain ⟨res, l1, cs1⟩ := o1
            dsimp only at h
            cases res with
            | none =>
              injection h with h; subst h
              exact ⟨fun p1 hp1 => (by cases hp1), hcs1⟩
            | some pos1 =>
              obtain ⟨hp1, hp1L⟩ := hres1 pos1 rfl
              dsimp only at h
              cases hsub2 : pureR env n e1 pos1 l1 with
              | none => rw [hsub2] at h; simp at h
              | some o2 =>
                rw [hsub2] at h
                obtain ⟨hres2, hcs2⟩ := ihR _ _ _ _ (le_trans h0 hp1) hp1L hsub2
                obtain ⟨res2, l2, cs2⟩ := o2
                dsimp only at h
                injection h with h; subst h
                refine ⟨fun p1 hp2 => ?_, fun q hq => ?_⟩
                · obtain ⟨ha, hb⟩ := hres2 _ hp2
                  exact ⟨le_trans hp1 ha, hb⟩
                · rcases List.mem_append.mp hq with hq | hq
                  · exact hcs1 q hq
                  · exact hcs2 q hq
        · rw [if_neg hop] at h
          exact ihR _ _ _ _ h0 hL h
      | opt e1 =>
        simp only [pureAcc] at h
        by_cases hcf : e1.canFail = true
        · rw [if_pos hcf] at h
          cases hsub : pureAcc env n e1 pos l with
          | none => rw [hsub] at h; simp at h
          | some o1 =>
            rw [hsub] at h
            obtain ⟨hres1, hcs1⟩ := ihA _ _ _ _ h0 hL hsub
            obtain ⟨res, l1, cs1⟩ := o1
            dsimp only at h
            cases res with
            | some pos1 =>
              injection h with h; subst h
              exact ⟨fun p1 hp1 => (by cases hp1; exact hres1 _ rfl), hcs1⟩
            | none =>
              injection h with h; subst h
              exact ⟨fun p1 hp1 => (by cases hp1; exact ⟨le_rfl, hL⟩), hcs1⟩
        · rw [if_neg hcf] at h
          exact ihA _ _ _ _ h0 hL h
      | sub e1 =>
        simp only [pureAcc] at h
        exact ihA _ _ _ _ h0 hL h
      | ident nm =>
        simp only [pureAcc] at h
        cases hlk : env.lookupRule nm with
        | none => rw [hlk] at h; simp at h
        | some ir =>
          rw [hlk] at h
          obtain ⟨idx, r⟩ := ir
          dsimp only at h
          cases hsub : pureAcc env n r.expr pos (fun _ => []) with
          | none => rw [hsub] at h; simp at h
          | some o1 =>
            rw [hsub] at h
            obtain ⟨hres1, _⟩ := ihA _ _ _ _ h0 hL hsub
            obtain ⟨res, l1, cs1⟩ := o1
            dsimp only at h
            cases res with
            | some pos1 =>
              injection h with h; subst h
              refine ⟨fun p1 hp1 => (by cases hp1; exact hres1 _ rfl), fun q hq => ?_⟩
              rcases List.mem_singleton.mp hq with rfl
              exact ⟨h0, hL⟩
            | none =>
              injection h with h; subst h
              refine ⟨fun p1 hp1 => (by cases hp1), fun q hq => ?_⟩
              rcases List.mem_singleton.mp hq with rfl
              exact ⟨h0, hL⟩
      | predCode neg c ns =>
        simp only [pureAcc] at h
        split at h <;> injection h with h <;> subst h
        · exact ⟨fun p1 hp1 => (by cases hp1), by simp [CallsNonzero]⟩
        · exact ⟨fun p1 hp1 => (by cases hp1; exact ⟨le_rfl, hL⟩), by simp⟩
      | lit t =>
        simp only [pureAcc] at h
        split at h <;> rename_i hm <;> injection h with h <;> subst h
        · exact ⟨fun p1 hp1 => (by cases hp1), by simp⟩
        · refine ⟨fun p1 hp1 => ?_, by simp⟩
          cases hp1
          have hlen : ¬((env.text.drop pos.toNat).length < t.length) := by
            intro hlt
            refine hm ?_
            simp only [PEnv.litMisses, Bool.or_eq_true, decide_eq_true_eq]
            exact Or.inl hlt
          have hd := dropLenInt env h0 hL
          rw [Nat.not_lt] at hlen
          omega
      | charClass neg spans =>
        simp only [pureAcc] at h
        have hw := hdec (env.text.drop pos.toNat)
        have hd := dropLenInt env h0 hL
        split at h <;> injection h with h <;> subst h
        · exact ⟨fun p1 hp1 => (by cases hp1), by simp⟩
        · refine ⟨fun p1 hp1 => ?_, by simp⟩
          cases hp1
          simp only [PEnv.next] at *
          constructor
          · omega
          · omega
      | any =>
        simp only [pureAcc] at h
        have hw := hdec (env.text.drop pos.toNat)
        have hd := dropLenInt env h0 hL
        split at h <;> injection h with h <;> subst h
        · exact ⟨fun p1 hp1 => (by cases hp1), by simp⟩
        · refine ⟨fun p1 hp1 => ?_, by simp⟩
          cases hp1
          simp only [PEnv.next] at *
          constructor
          · omega
          · omega
    · intro es pos0 pos l out h0 h01 hL h
      cases es with
      | nil =>
        simp only [pureC] at h
        injection h with h; subst h
        exact ⟨fun p1 hp1 => (by cases hp1; exact ⟨h01, hL⟩), by simp⟩
      | cons e es =>
        simp only [pureC] at h
        cases hsub : pureAcc env n e pos l with
        | none => rw [hsub] at h; simp at h
        | some o1 =>
          rw [hsub] at h
          obtain ⟨hres1, hcs1⟩ := ihA _ _ _ _ (le_trans h0 h01) hL hsub
          obtain ⟨res, l1, cs1⟩ := o1
          dsimp only at h
          by_cases hcf : e.canFail = true
          · rw [if_pos hcf] at h
            cases res with
            | some pos1 =>
              injection h with h; subst h
              refine ⟨fun p1 hp1 => ?_, hcs1⟩
              cases hp1
              obtain ⟨ha, hb⟩ := hres1 _ rfl
              exact ⟨le_trans h01 ha, hb⟩
            | none =>
              cases es with
              | nil =>
                injection h with h; subst h
                exact ⟨fun p1 hp1 => (by cases hp1), hcs1⟩
              | cons f fs =>
                dsimp only at h
                cases hsub2 : pureC env n (f :: fs) pos0 pos0 l1 with
                | none => rw [hsub2] at h; simp at h
                | some o2 =>
                  rw [hsub2] at h
                  obtain ⟨hres2, hcs2⟩ := ihC _ _ _ _ _ h0 le_rfl (le_trans h01 hL) hsub2
                  obtain ⟨res2, l2, cs2⟩ := o2
                  dsimp only at h
                  injection h with h; subst h
                  refine ⟨hres2, fun q hq => ?_⟩
                  rcases List.mem_append.mp hq with hq | hq
                  · exact hcs1 q hq
                  · exact hcs2 q hq
          · rw [if_neg hcf] at h
            cases res with
            | none => simp at h
            | some pos1 =>
              obtain ⟨hp1, hp1L⟩ := hres1 _ rfl
              cases es with
              | nil =>
                injection h with h; subst h
                refine ⟨fun p1 hp2 => ?_, hcs1⟩
                cases hp2
                exact ⟨le_trans h01 hp1, hp1L⟩
              | cons f fs =>
                dsimp only at h
                cases hsub2 : pureC env n (f :: fs) pos0 pos1 l1 with
                | none => rw [hsub2] at h; simp at h
                | some o2 =>
                  rw [hsub2] at h
                  obtain ⟨hres2, hcs2⟩ :=
                    ihC _ _ _ _ _ h0 (le_trans h01 hp1) hp1L hsub2
                  obtain ⟨res2, l2, cs2⟩ := o2
                  dsimp only at h
                  injection h with h; subst h
                  refine ⟨hres2, fun q hq => ?_⟩
                  rcases List.mem_append.mp hq with hq | hq
                  · exact hcs1 q hq
                  · exact hcs2 q hq
    · intro es pos l out h0 hL h
      cases es with
      | nil =>
        simp only [pureS] at h
        injection h with h; subst h
        exact ⟨fun p1 hp1 => (by cases hp1; exact ⟨le_rfl, hL⟩), by simp⟩
      | cons e es =>
        simp only [pureS] at h
        cases hsub : pureAcc env n e pos l with
        | none => rw [hsub] at h; simp at h
        | some o1 =>
          rw [hsub] at h
          obtain ⟨hres1, hcs1⟩ := ihA _ _ _ _ h0 hL hsub
          obtain ⟨res, l1, cs1⟩ := o1
          dsimp only at h
          cases res with
          | none =>
            injection h with h; subst h
            exact ⟨fun p1 hp1 => (by cases hp1), hcs1⟩
          | some pos1 =>
            obtain ⟨hp1, hp1L⟩ := hres1 _ rfl
            dsimp only at h
            cases hsub2 : pureS env n es pos1 l1 with
            | none => rw [hsub2] at h; simp at h
            | some o2 =>
              rw [hsub2] at h
              obtain ⟨hres2, hcs2⟩ := ihS _ _ _ _ (le_trans h0 hp1) hp1L hsub2
              obtain ⟨res2, l2, cs2⟩ := o2
              dsimp only at h
              injection h with h; subst h
              refine ⟨fun p1 hp2 => ?_, fun q hq => ?_⟩
              · obtain ⟨ha, hb⟩ := hres2 _ hp2
                exact ⟨le_trans hp1 ha, hb⟩
              · rcases List.mem_append.mp hq with hq | hq
                · exact hcs1 q hq
                · exact hcs2 q hq
    · intro e pos l out h0 hL h
      simp only [pureR] at h
      cases hsub : pureAcc env n e pos l with
      | none => rw [hsub] at h; simp at h
      | some o1 =>
        rw [hsub] at h
        obtain ⟨hres1, hcs1⟩ := ihA _ _ _ _ h0 hL hsub
        obtain ⟨res, l1, cs1⟩ := o1
        dsimp only at h
        cases res with
        | none =>
          injection h with h; subst h
          exact ⟨fun p1 hp1 => (by cases hp1; exact ⟨le_rfl, hL⟩), hcs1⟩
        | some pos1 =>
          obtain ⟨hp1, hp1L⟩ := hres1 _ rfl
          dsimp only at h
          cases hsub2 : pureR env n e pos1 l1 with
          | none => rw [hsub2] at h; simp at h
          | some o2 =>
            rw [hsub2] at h
            obtain ⟨hres2, hcs2⟩ := ihR _ _ _ _ (le_trans h0 hp1) hp1L hsub2
            obtain ⟨res2, l2, cs2⟩ := o2
            dsimp only at h
            injection h with h; subst h
            refine ⟨fun p1 hp2 => ?_, fun q hq => ?_⟩
            · obtain ⟨ha, hb⟩ := hres2 _ hp2
              exact ⟨le_trans hp1 ha, hb⟩
            · rcases List.mem_append.mp hq with hq | hq
              · exact hcs1 q hq
              · exact hcs2 q hq

/-! ## Memo-matrix soundness bookkeeping -/

theorem Preserves_refl (st : PState) : Preserves st st := fun _ _ _ => rfl

theorem Preserves_trans {st1 st2 st3 : PState} (h1 : Preserves st1 st2)
    (h2 : Preserves st2 st3) : Preserves st1 st3 := by
  intro p i hne
  rw [h2 p i (by rw [h1 p i hne]; exact hne), h1 p i hne]

theorem CallsNonzero_mono {st st2 : PState} {cs : List (Nat × Int)}
    (h : CallsNonzero st cs) (hp : Preserves st st2) : CallsNonzero st2 cs := by
  intro q hq
  rw [hp q.2 q.1 (h q hq)]
  exact h q hq

theorem CallsNonzero_append {st : PState} {cs1 cs2 : List (Nat × Int)} :
    CallsNonzero st (cs1 ++ cs2) ↔ CallsNonzero st cs1 ∧ CallsNonzero st cs2 := by
  constructor
  · intro h
    exact ⟨fun q hq => h q (List.mem_append.mpr (Or.inl hq)),
      fun q hq => h q (List.mem_append.mpr (Or.inr hq))⟩
  · intro ⟨h1, h2⟩ q hq
    rcases List.mem_append.mp hq with hq | hq
    · exact h1 q hq
    · exact h2 q hq

theorem EntryOK_transport {env : PEnv} {st st2 : PState} {idx : Nat} {r : Rule}
    {p : Int} (h : EntryOK env st idx r p)
    (hval : st2.deltaPos p idx = st.deltaPos p idx)
    (hcn : ∀ cs, CallsNonzero st cs → CallsNonzero st2 cs) :
    EntryOK env st2 idx r p := by
  rcases h with h | ⟨f, l1, cs, hp, hv, hc⟩ | ⟨f, p1, l1, cs, hp, hv, hle, hc⟩
  · exact Or.inl (by rw [hval, h])
  · exact Or.inr (Or.inl ⟨f, l1, cs, hp, by rw [hval, hv], hcn cs hc⟩)
  · exact Or.inr (Or.inr ⟨f, p1, l1, cs, hp, by rw [hval, hv], hle, hcn cs hc⟩)

theorem Good_of_deltaPos_eq {env : PEnv} {st st2 : PState} (hG : Good env st)
    (heq : st2.deltaPos = st.deltaPos) : Good env st2 := by
  intro idx r p hr
  exact EntryOK_transport (hG idx r p hr) (by rw [heq])
    (fun cs hc => by intro q hq; rw [heq]; exact hc q hq)

/-- Writing a fresh memo cell preserves every recorded entry. -/
theorem Preserves_write {st st2 : PState} {start : Int} {idx : Nat} {v : Int}
    (hst2 : st2.deltaPos = mset st.deltaPos start idx v)
    (h0 : st.deltaPos start idx = 0) : Preserves st st2 := by
  intro p i hne
  rw [hst2]
  unfold mset
  by_cases hc : p = start ∧ i = idx
  · exact absurd (by rw [hc.1, hc.2]; exact h0) hne
  · simp [hc]

theorem CallsNonzero_write {st st2 : PState} {cs : List (Nat × Int)} {start : Int}
    {idx : Nat} {v : Int} (h : CallsNonzero st cs)
    (hst2 : st2.deltaPos = mset st.deltaPos start idx v) (hv : v ≠ 0) :
    CallsNonzero st2 cs := by
  intro q hq
  rw [hst2]
  unfold mset
  by_cases hc : q.2 = start ∧ q.1 = idx
  · simp [hc, hv]
  · simp only [hc, if_false]
    exact h q hq

/-- Writing a justified value into a fresh memo cell keeps the matrix
sound. -/
theorem Good_write {env : PEnv} {st st2 : PState} {idx : Nat} {r : Rule}
    {start v : Int} (hG : Good env st) (hr : env.rules.get? idx = some r)
    (hst2 : st2.deltaPos = mset st.deltaPos start idx v) (hv : v ≠ 0)
    (hnew : EntryOK env st2 idx r start) : Good env st2 := by
  intro idx' r' p hr'
  by_cases hc : p = start ∧ idx' = idx
  · obtain ⟨rfl, rfl⟩ := hc
    rw [hr] at hr'
    injection hr' with hr'
    rw [← hr']
    exact hnew
  · refine EntryOK_transport (hG idx' r' p hr') ?_
      (fun cs hcs => CallsNonzero_write hcs hst2 hv)
    rw [hst2]
    unfold mset
    simp [hc]

/-- mset with the value the cell already holds changes nothing. -/
theorem mset_self {f : Int → Nat → Int} {p : Int} {i : Nat} :
    mset f p i (f p i) = f := by
  funext q s
  unfold mset
  by_cases hc : q = p ∧ s = i
  · obtain ⟨rfl, rfl⟩ := hc
    simp
  · simp [hc]

theorem pureC_le (env : PEnv) {f1 f2 : Nat} (hle : f1 ≤ f2) {es : List Expr}
    {pos0 pos : Int} {l : Labels} {out : Option Int × Labels × List (Nat × Int)}
    (h : pureC env f1 es pos0 pos l = some out) : pureC env f2 es pos0 pos l = some out := by
  induction f2 with
  | zero => cases Nat.le_zero.mp hle; exact h
  | succ n ih =>
    rcases Nat.lt_or_ge f1 (n + 1) with hlt | hge
    · exact (pureMono_all env n).2.1 _ _ _ _ _ (ih (Nat.lt_succ_iff.mp hlt))
    · cases Nat.le_antisymm hle hge; exact h

theorem pureS_le (env : PEnv) {f1 f2 : Nat} (hle : f1 ≤ f2) {es : List Expr}
    {pos : Int} {l : Labels} {out : Option Int × Labels × List (Nat × Int)}
    (h : pureS env f1 es pos l = some out) : pureS env f2 es pos l = some out := by
  induction f2 with
  | zero => cases Nat.le_zero.mp hle; exact h
  | succ n ih =>
    rcases Nat.lt_or_ge f1 (n + 1) with hlt | hge
    · exact (pureMono_all env n).2.2.1 _ _ _ _ (ih (Nat.lt_succ_iff.mp hlt))
    · cases Nat.le_antisymm hle hge; exact h

theorem pureR_le (env : PEnv) {f1 f2 : Nat} (hle : f1 ≤ f2) {e : Expr}
    {pos : Int} {l : Labels} {out : Option Int × Labels × List (Nat × Int)}
    (h : pureR env f1 e pos l = some out) : pureR env f2 e pos l = some out := by
  induction f2 with
  | zero => cases Nat.le_zero.mp hle; exact h
  | succ n ih =>
    rcases Nat.lt_or_ge f1 (n + 1) with hlt | hge
    · exact (pureMono_all env n).2.2.2 _ _ _ _ (ih (Nat.lt_succ_iff.mp hlt))
    · cases Nat.le_antisymm hle hge; exact h

/-- memoizeFn's written cell and returned deltas, in closed form. -/
theorem memoizeFn_char (st : PState) (idx : Nat) (start pos perr : Int) :
    (memoizeFn st idx start pos perr).1.deltaPos =
      mset st.deltaPos start idx
        (if pos ≥ 0 then toInt32 (pos - start + 1) else -1) ∧
    (memoizeFn st idx start pos perr).2.1 = (if pos ≥ 0 then pos - start else -1) := by
  unfold memoizeFn
  by_cases h : pos ≥ 0
  · simp [h]
  · simp [h]

/-- A successful identifier lookup resolves to the indexed rule. -/
theorem lookupRule_get {env : PEnv} {nm : PName} {idx : Nat} {r : Rule}
    (h : env.lookupRule nm = some (idx, r)) : env.rules.get? idx = some r := by
  unfold PEnv.lookupRule at h
  cases hf : env.rules.findIdx? (fun r => r.name.identName == nm.identName) with
  | none => rw [hf] at h; simp at h
  | some i =>
    rw [hf] at h
    dsimp only at h
    cases hg : env.rules.get? i with
    | none => rw [hg] at h; simp at h
    | some r2 =>
      rw [hg] at h
      injection h with h
      cases h
      exact hg

/-- accAgree_all: every completed accepts-pass run keeps the memo matrix
sound, preserves recorded entries, and follows the state-free reference
run (see AccAgree). -/
theorem accAgree_all (env : PEnv) (hdec : DecOK env) (hsmall : SmallText env) :
    ∀ fuel, AccAgree env fuel := by
  intro fuel
  induction fuel with
  | zero =>
    refine ⟨?_, ?_, ?_, ?_, ?_⟩
    · intro st idx r start st1 dp de _ _ _ _ h; simp [ruleAcceptsFn] at h
    · intro st e pos perr l o _ _ _ h; simp [exprAcceptsFn] at h
    · intro st es pos0 pos perr l o _ _ _ _ h; simp [choiceAcceptsFn] at h
    · intro st es pos perr l o _ _ _ h; simp [seqAcceptsFn] at h
    · intro st e pos perr l o _ _ _ h; simp [repAcceptsFn] at h
  | succ n ih =>
    obtain ⟨ihR, ihE, ihC, ihS, ihRp⟩ := ih
    have hsm : (env.text.length : Int) + 2 < 2 ^ 31 := hsmall
    refine ⟨?_, ?_, ?_, ?_, ?_⟩
    · -- rule level
      intro st idx r start st1 dp de hG hr h0 hL hrun
      simp only [ruleAcceptsFn] at hrun
      rcases hG idx r start hr with hE0 | ⟨fb, lb, csb, hpb, hvb, hcb⟩ |
        ⟨fb, p1, lb, csb, hpb, hvb, hleb, hcb⟩
      · -- unrecorded cell: fresh run and memoize
        have hm : memoFn st idx start = (0, 0, false) := by simp [memoFn, hE0]
        rw [hm] at hrun
        dsimp only at hrun
        cases hsub : exprAcceptsFn env n st r.expr start (-1) (fun _ => []) with
        | none => rw [hsub] at hrun; simp at hrun
        | some o =>
          rw [hsub] at hrun
          dsimp only at hrun
          obtain ⟨hGo, hPo, f2, cs, hpure, hcn⟩ :=
            ihE st r.expr start (-1) (fun _ => []) o hG h0 hL hsub
          cases hres : o.res with
          | some pos =>
            rw [hres] at hrun
            dsimp only at hrun
            rw [hres] at hpure
            generalize hpe : (if r.errorName.isSome = true then start else o.perr) = pe at hrun
            injection hrun with hrun
            obtain ⟨hbres, hbcs⟩ := (pureBound_all env hdec f2).1 _ _ _ _ h0 hL hpure
            obtain ⟨hsp, hspL⟩ := hbres pos rfl
            have hge : pos ≥ 0 := le_trans h0 hsp
            obtain ⟨hwdp, hwret⟩ := memoizeFn_char o.st idx start pos pe
            have hcollapse : toInt32 (pos - start + 1) = pos - start + 1 :=
              toInt32_eq_self (by omega) (by omega)
            have hst1dp : st1.deltaPos =
                mset o.st.deltaPos start idx (pos - start + 1) := by
              rw [show st1 = (memoizeFn o.st idx start pos pe).1 from by rw [hrun],
                hwdp, if_pos hge, hcollapse]
            have hdp2 : dp = pos - start := by
              rw [show dp = (memoizeFn o.st idx start pos pe).2.1 from by rw [hrun],
                hwret, if_pos hge]
            have hvne : pos - start + 1 ≠ 0 := by omega
            by_cases hfresh : o.st.deltaPos start idx = 0
            · have hnew : EntryOK env st1 idx r start := by
                refine Or.inr (Or.inr ⟨f2, pos, o.labels, cs, hpure, ?_, hsp,
                  CallsNonzero_write hcn hst1dp hvne⟩)
                rw [hst1dp]
                simp [mset]
              refine ⟨Good_write hGo hr hst1dp hvne hnew,
                Preserves_trans hPo (Preserves_write hst1dp hfresh), ?_, ?_, ?_⟩
              · have hcell : st1.deltaPos start idx = pos - start + 1 := by
                  rw [hst1dp]; simp [mset]
                rw [hcell, if_pos (show (0 : Int) ≤ dp by omega)]
                omega
              · intro _
                exact ⟨f2, o.labels, cs, by
                  rw [show start + dp = pos from by omega]; exact hpure⟩
              · intro hneg
                exact absurd hneg (by omega)
            · rcases hGo idx r start hr with hz | ⟨fb2, lb2, csb2, hpb2, hvb2, _⟩ |
                ⟨fb2, p1b, lb2, csb2, hpb2, hvb2, hleb2, hcb2⟩
              · exact absurd hz hfresh
              · exact absurd (pureAcc_fun env hpb2 hpure) (by simp)
              · have hpp : p1b = pos := by
                  have h2 := pureAcc_fun env hpb2 hpure
                  simp only [Prod.mk.injEq] at h2
                  exact Option.some_inj.mp h2.1
                have hst1dp2 : st1.deltaPos = o.st.deltaPos := by
                  rw [hst1dp, show pos - start + 1 = o.st.deltaPos start idx from by
                    rw [hvb2]; omega]
                  exact mset_self
                refine ⟨Good_of_deltaPos_eq hGo hst1dp2,
                  Preserves_trans hPo (fun p i _ => by rw [hst1dp2]), ?_, ?_, ?_⟩
                · rw [hst1dp2, hvb2, if_pos (show 0 ≤ dp by omega)]
                  omega
                · intro _
                  exact ⟨f2, o.labels, cs, by
                    rw [show start + dp = pos from by omega]; exact hpure⟩
                · intro hneg
                  exact absurd hneg (by omega)
          | none =>
            rw [hres] at hrun
            dsimp only at hrun
            rw [hres] at hpure
            injection hrun with hrun
            obtain ⟨hwdp, hwret⟩ := memoizeFn_char o.st idx start (-1) o.perr
            have hst1dp : st1.deltaPos = mset o.st.deltaPos start idx (-1) := by
              rw [show st1 = (memoizeFn o.st idx start (-1) o.perr).1 from by rw [hrun],
                hwdp, if_neg (by norm_num)]
            have hdp2 : dp = -1 := by
              rw [show dp = (memoizeFn o.st idx start (-1) o.perr).2.1 from by rw [hrun],
                hwret, if_neg (by norm_num)]
            have hvne : (-1 : Int) ≠ 0 := by norm_num
            by_cases hfresh : o.st.deltaPos start idx = 0
            · have hnew : EntryOK env st1 idx r start := by
                refine Or.inr (Or.inl ⟨f2, o.labels, cs, hpure, ?_,
                  CallsNonzero_write hcn hst1dp hvne⟩)
                rw [hst1dp]
                simp [mset]
              refine ⟨Good_write hGo hr hst1dp hvne hnew,
                Preserves_trans hPo (Preserves_write hst1dp hfresh), ?_, ?_, ?_⟩
              · have hcell : st1.deltaPos start idx = -1 := by
                  rw [hst1dp]; simp [mset]
                rw [hcell, if_neg (show ¬((0 : Int) ≤ dp) by omega)]
              · intro hpos
                exact absurd hpos (by omega)
              · intro _
                exact ⟨f2, o.labels, cs, hpure⟩
            · rcases hGo idx r start hr with hz | ⟨fb2, lb2, csb2, hpb2, hvb2, _⟩ |
                ⟨fb2, p1b, lb2, csb2, hpb2, hvb2, hleb2, hcb2⟩
              · exact absurd hz hfresh
              · have hst1dp2 : st1.deltaPos = o.st.deltaPos := by
                  rw [hst1dp, show (-1 : Int) = o.st.deltaPos start idx from by rw [hvb2]]
                  exact mset_self
                refine ⟨Good_of_deltaPos_eq hGo hst1dp2,
                  Preserves_trans hPo (fun p i _ => by rw [hst1dp2]), ?_, ?_, ?_⟩
                · rw [hst1dp2, hvb2, if_neg (show ¬(0 ≤ dp) by omega)]
                · intro hpos
                  exact absurd hpos (by omega)
                · intro _
                  exact ⟨f2, o.labels, cs, hpure⟩
              · exact absurd (pureAcc_fun env hpb2 hpure) (by simp)
      · -- recorded failure: memo hit
        have hm : memoFn st idx start = (-1, st.deltaErr start idx - 1, true) := by
          simp [memoFn, hvb]
        rw [hm] at hrun
        dsimp only at hrun
        simp only [Option.some_inj, Prod.mk.injEq] at hrun
        obtain ⟨rfl, rfl, rfl⟩ := hrun
        refine ⟨hG, Preserves_refl st, ?_, ?_, ?_⟩
        · rw [hvb, if_neg (by norm_num)]
        · intro hpos
          exact absurd hpos (by norm_num)
        · intro _
          exact ⟨fb, lb, csb, hpb⟩
      · -- recorded success: memo hit
        have hm : memoFn st idx start = (p1 - start, st.deltaErr start idx - 1, true) := by
          simp [memoFn, hvb, show ¬(p1 - start + 1 = 0) from by omega,
            show p1 - start + 1 > 0 from by omega]
        rw [hm] at hrun
        dsimp only at hrun
        simp only [Option.some_inj, Prod.mk.injEq] at hrun
        obtain ⟨rfl, rfl, rfl⟩ := hrun
        refine ⟨hG, Preserves_refl st, ?_, ?_, ?_⟩
        · rw [hvb, if_pos (show 0 ≤ p1 - start by omega)]
        · intro _
          exact ⟨fb, lb, csb, by
            rw [show start + (p1 - start) = p1 from by omega]; exact hpb⟩
        · intro hneg
          exact absurd hneg (by omega)
    · -- expression level
      intro st e pos perr l o hG h0 hL hrun
      cases e with
      | choice es =>
        simp only [exprAcceptsFn] at hrun
        obtain ⟨hGo, hPo, f2, cs, hpure, hcn⟩ :=
          ihC st es pos pos perr l o hG h0 le_rfl hL hrun
        exact ⟨hGo, hPo, f2 + 1, cs, by simp only [pureAcc]; exact hpure, hcn⟩
      | action e1 c t ns =>
        simp only [exprAcceptsFn] at hrun
        obtain ⟨hGo, hPo, f2, cs, hpure, hcn⟩ := ihE st e1 pos perr l o hG h0 hL hrun
        exact ⟨hGo, hPo, f2 + 1, cs, by simp only [pureAcc]; exact hpure, hcn⟩
      | seq es =>
        simp only [exprAcceptsFn] at hrun
        obtain ⟨hGo, hPo, f2, cs, hpure, hcn⟩ := ihS st es pos perr l o hG h0 hL hrun
        exact ⟨hGo, hPo, f2 + 1, cs, by simp only [pureAcc]; exact hpure, hcn⟩
      | label nm e1 k =>
        simp only [exprAcceptsFn] at hrun
        cases hsub : exprAcceptsFn env n st e1 pos perr l with
        | none => rw [hsub] at hrun; simp at hrun
        | some o1 =>
          rw [hsub] at hrun
          dsimp only at hrun
          obtain ⟨hGo, hPo, f2, cs, hpure, hcn⟩ := ihE st e1 pos perr l o1 hG h0 hL hsub
          cases hres : o1.res with
          | some pos1 =>
            rw [hres] at hrun
            injection hrun with hrun
            subst hrun
            rw [hres] at hpure
            refine ⟨hGo, hPo, f2 + 1, cs, ?_, hcn⟩
            simp [pureAcc, hpure, hres]
          | none =>
            rw [hres] at hrun
            injection hrun with hrun
            subst hrun
            rw [hres] at hpure
            refine ⟨hGo, hPo, f2 + 1, cs, ?_, hcn⟩
            simp [pureAcc, hpure, hres]
      | pred neg e1 =>
        simp only [exprAcceptsFn] at hrun
        cases hsub : exprAcceptsFn env n st e1 pos perr l with
        | none => rw [hsub] at hrun; simp at hrun
        | some o1 =>
          rw [hsub] at hrun
          dsimp only at hrun
          obtain ⟨hGo, hPo, f2, cs, hpure, hcn⟩ := ihE st e1 pos perr l o1 hG h0 hL hsub
          cases hneg : neg with
          | true =>
            rw [hneg] at hrun
            simp only [if_true] at hrun
            cases hres : o1.res with
            | some pos1 =>
              rw [hres] at hrun
              injection hrun with hrun
              subst hrun
              rw [hres] at hpure
              refine ⟨hGo, hPo, f2 + 1, cs, ?_, hcn⟩
              simp [pureAcc, hpure, hres]
            | none =>
              rw [hres] at hrun
              injection hrun with hrun
              subst hrun
              rw [hres] at hpure
              refine ⟨hGo, hPo, f2 + 1, cs, ?_, hcn⟩
              simp [pureAcc, hpure, hres]
          | false =>
            rw [hneg] at hrun
            simp only [Bool.false_eq_true, if_false] at hrun
            cases hres : o1.res with
            | some pos1 =>
              rw [hres] at hrun
              injection hrun with hrun
              subst hrun
              rw [hres] at hpure
              refine ⟨hGo, hPo, f2 + 1, cs, ?_, hcn⟩
              simp [pureAcc, hpure, hres]
            | none =>
              rw [hres] at hrun
              injection hrun with hrun
              subst hrun
              rw [hres] at hpure
              refine ⟨hGo, hPo, f2 + 1, cs, ?_, hcn⟩
              simp [pureAcc, hpure, hres]
      | rep op e1 =>
        simp only [exprAcceptsFn] at hrun
        by_cases hop : (op == '+') = true
        · rw [if_pos hop] at hrun
          cases hsub : exprAcceptsFn env n st e1 pos perr l with
          | none => rw [hsub] at hrun; simp at hrun
          | some o1 =>
            rw [hsub] at hrun
            dsimp only at hrun
            obtain ⟨hGo1, hPo1, f2, cs1, hpure1, hcn1⟩ :=
              ihE st e1 pos perr l o1 hG h0 hL hsub
            cases hres : o1.res with
            | none =>
              rw [hres] at hrun
              injection hrun with hrun
              subst hrun
              rw [hres] at hpure1
              refine ⟨hGo1, hPo1, f2 + 1, cs1, ?_, hcn1⟩
              simp [pureAcc, hop, hpure1, hres]
            | some pos1 =>
              rw [hres] at hrun
              rw [hres] at hpure1
              obtain ⟨hbres, _⟩ := (pureBound_all env hdec f2).1 _ _ _ _ h0 hL hpure1
              obtain ⟨hp1, hp1L⟩ := hbres pos1 rfl
              obtain ⟨hGo, hPo, f3, cs2, hpure2, hcn2⟩ :=
                ihRp o1.st e1 pos1 o1.perr o1.labels o hGo1 (le_trans h0 hp1) hp1L hrun
              refine ⟨hGo, Preserves_trans hPo1 hPo, max f2 f3 + 1,
                cs1 ++ cs2, ?_, CallsNonzero_append.mpr
                  ⟨CallsNonzero_mono hcn1 hPo, hcn2⟩⟩
              simp [pureAcc, hop, pureAcc_le env (le_max_left f2 f3) hpure1,
                pureR_le env (le_max_right f2 f3) hpure2]
        · rw [if_neg hop] at hrun
          obtain ⟨hGo, hPo, f2, cs, hpure, hcn⟩ := ihRp st e1 pos perr l o hG h0 hL hrun
          refine ⟨hGo, hPo, f2 + 1, cs, ?_, hcn⟩
          simp only [pureAcc, if_neg hop]
          exact hpure
      | opt e1 =>
        simp only [exprAcceptsFn] at hrun
        by_cases hcf : e1.canFail = true
        · rw [if_pos hcf] at hrun
          cases hsub : exprAcceptsFn env n st e1 pos perr l with
          | none => rw [hsub] at hrun; simp at hrun
          | some o1 =>
            rw [hsub] at hrun
            dsimp only at hrun
            obtain ⟨hGo, hPo, f2, cs, hpure, hcn⟩ := ihE st e1 pos perr l o1 hG h0 hL hsub
            cases hres : o1.res with
            | some pos1 =>
              rw [hres] at hrun
              injection hrun with hrun
              subst hrun
              rw [hres] at hpure
              refine ⟨hGo, hPo, f2 + 1, cs, ?_, hcn⟩
              simp [pureAcc, hcf, hpure, hres]
            | none =>
              rw [hres] at hrun
              injection hrun with hrun
              subst hrun
              rw [hres] at hpure
              refine ⟨hGo, hPo, f2 + 1, cs, ?_, hcn⟩
              simp [pureAcc, hcf, hpure, hres]
        · rw [if_neg hcf] at hrun
          obtain ⟨hGo, hPo, f2, cs, hpure, hcn⟩ := ihE st e1 pos perr l o hG h0 hL hrun
          refine ⟨hGo, hPo, f2 + 1, cs, ?_, hcn⟩
          simp only [pureAcc, if_neg hcf]
          exact hpure
      | sub e1 =>
        simp only [exprAcceptsFn] at hrun
        obtain ⟨hGo, hPo, f2, cs, hpure, hcn⟩ := ihE st e1 pos perr l o hG h0 hL hrun
        exact ⟨hGo, hPo, f2 + 1, cs, by simp only [pureAcc]; exact hpure, hcn⟩
      | ident nm =>
        simp only [exprAcceptsFn] at hrun
        cases hlk : env.lookupRule nm with
        | none => rw [hlk] at hrun; simp at hrun
        | some ir =>
          rw [hlk] at hrun
          obtain ⟨idx, r⟩ := ir
          dsimp only at hrun
          cases hsub : ruleAcceptsFn env n st idx r pos with
          | none => rw [hsub] at hrun; simp at hrun
          | some t =>
            obtain ⟨st2, dp, de⟩ := t
            rw [hsub] at hrun
            dsimp only at hrun
            have hr : env.rules.get? idx = some r := lookupRule_get hlk
            obtain ⟨hG2, hP2, hentry, hsucc, hfail⟩ :=
              ihR st idx r pos st2 dp de hG hr h0 hL hsub
            have hcn1 : CallsNonzero st2 [(idx, pos)] := by
              intro q hq
              rcases List.mem_singleton.mp hq with rfl
              dsimp only
              rw [hentry]
              split <;> omega
            by_cases hdp : dp < 0
            · rw [if_pos hdp] at hrun
              injection hrun with hrun
              subst hrun
              obtain ⟨f2, l1, cs, hpure⟩ := hfail hdp
              refine ⟨hG2, hP2, f2 + 1, [(idx, pos)], ?_, hcn1⟩
              simp [pureAcc, hlk, hpure]
            · rw [if_neg hdp] at hrun
              injection hrun with hrun
              subst hrun
              obtain ⟨f2, l1, cs, hpure⟩ := hsucc (by omega)
              refine ⟨hG2, hP2, f2 + 1, [(idx, pos)], ?_, hcn1⟩
              simp [pureAcc, hlk, hpure]
      | predCode neg c ns =>
        simp only [exprAcceptsFn] at hrun
        split at hrun <;> rename_i hcond <;> injection hrun with hrun <;> subst hrun
        · refine ⟨hG, Preserves_refl st, 1, [], ?_, by simp [CallsNonzero]⟩
          simp [pureAcc, hcond]
        · refine ⟨hG, Preserves_refl st, 1, [], ?_, by simp [CallsNonzero]⟩
          simp [pureAcc, hcond]
      | lit t =>
        simp only [exprAcceptsFn] at hrun
        split at hrun <;> rename_i hcond <;> injection hrun with hrun <;> subst hrun
        · refine ⟨hG, Preserves_refl st, 1, [], ?_, by simp [CallsNonzero]⟩
          simp [pureAcc, hcond]
        · refine ⟨hG, Preserves_refl st, 1, [], ?_, by simp [CallsNonzero]⟩
          simp [pureAcc, hcond]
      | charClass neg spans =>
        simp only [exprAcceptsFn] at hrun
        split at hrun <;> rename_i hcond <;> injection hrun with hrun <;> subst hrun
        · refine ⟨hG, Preserves_refl st, 1, [], ?_, by simp [CallsNonzero]⟩
          simp [pureAcc, hcond]
        · refine ⟨hG, Preserves_refl st, 1, [], ?_, by simp [CallsNonzero]⟩
          simp [pureAcc, hcond]
      | any =>
        simp only [exprAcceptsFn] at hrun
        split at hrun <;> rename_i hcond <;> injection hrun with hrun <;> subst hrun
        · refine ⟨hG, Preserves_refl st, 1, [], ?_, by simp [CallsNonzero]⟩
          simp [pureAcc, hcond]
        · refine ⟨hG, Preserves_refl st, 1, [], ?_, by simp [CallsNonzero]⟩
          simp [pureAcc, hcond]
    · -- choice list level
      intro st es pos0 pos perr l o hG h0 h01 hL hrun
      cases es with
      | nil =>
        simp only [choiceAcceptsFn] at hrun
        injection hrun with hrun
        subst hrun
        refine ⟨hG, Preserves_refl st, 1, [], ?_, by simp [CallsNonzero]⟩
        simp [pureC]
      | cons e es =>
        simp only [choiceAcceptsFn] at hrun
        cases hsub : exprAcceptsFn env n st e pos perr l with
        | none => rw [hsub] at hrun; simp at hrun
        | some o1 =>
          rw [hsub] at hrun
          dsimp only at hrun
          obtain ⟨hGo1, hPo1, f2, cs1, hpure1, hcn1⟩ :=
            ihE st e pos perr l o1 hG (le_trans h0 h01) hL hsub
          by_cases hcf : e.canFail = true
          · rw [if_pos hcf] at hrun
            cases hres : o1.res with
            | some pos1 =>
              rw [hres] at hrun
              injection hrun with hrun
              subst hrun
              rw [hres] at hpure1
              refine ⟨hGo1, hPo1, f2 + 1, cs1, ?_, hcn1⟩
              simp [pureC, hpure1, hcf, hres]
            | none =>
              rw [hres] at hrun
              rw [hres] at hpure1
              cases es with
              | nil =>
                injection hrun with hrun
                subst hrun
                refine ⟨hGo1, hPo1, f2 + 1, cs1, ?_, hcn1⟩
                simp [pureC, hpure1, hcf, hres]
              | cons f fs =>
                obtain ⟨hGo, hPo, f3, cs2, hpure2, hcn2⟩ :=
                  ihC o1.st (f :: fs) pos0 pos0 o1.perr o1.labels o hGo1 h0 le_rfl
                    (le_trans h01 hL) hrun
                refine ⟨hGo, Preserves_trans hPo1 hPo, max f2 f3 + 1,
                  cs1 ++ cs2, ?_, CallsNonzero_append.mpr
                    ⟨CallsNonzero_mono hcn1 hPo, hcn2⟩⟩
                simp [pureC, hcf, pureAcc_le env (le_max_left f2 f3) hpure1,
                  pureC_le env (le_max_right f2 f3) hpure2]
          · rw [if_neg hcf] at hrun
            cases hres : o1.res with
            | none => rw [hres] at hrun; simp at hrun
            | some pos1 =>
              rw [hres] at hrun
              rw [hres] at hpure1
              obtain ⟨hbres, _⟩ :=
                (pureBound_all env hdec f2).1 _ _ _ _ (le_trans h0 h01) hL hpure1
              obtain ⟨hp1, hp1L⟩ := hbres pos1 rfl
              cases es with
              | nil =>
                injection hrun with hrun
                subst hrun
                refine ⟨hGo1, hPo1, f2 + 1, cs1, ?_, hcn1⟩
                simp [pureC, hpure1, hcf, hres]
              | cons f fs =>
                obtain ⟨hGo, hPo, f3, cs2, hpure2, hcn2⟩ :=
                  ihC o1.st (f :: fs) pos0 pos1 o1.perr o1.labels o hGo1 h0
                    (le_trans h01 hp1) hp1L hrun
                refine ⟨hGo, Preserves_trans hPo1 hPo, max f2 f3 + 1,
                  cs1 ++ cs2, ?_, CallsNonzero_append.mpr
                    ⟨CallsNonzero_mono hcn1 hPo, hcn2⟩⟩
                simp [pureC, hcf, pureAcc_le env (le_max_left f2 f3) hpure1,
                  pureC_le env (le_max_right f2 f3) hpure2]
    · -- sequence list level
      intro st es pos perr l o hG h0 hL hrun
      cases es with
      | nil =>
        simp only [seqAcceptsFn] at hrun
        injection hrun with hrun
        subst hrun
        refine ⟨hG, Preserves_refl st, 1, [], ?_, by simp [CallsNonzero]⟩
        simp [pureS]
      | cons e es =>
        simp only [seqAcceptsFn] at hrun
        cases hsub : exprAcceptsFn env n st e pos perr l with
        | none => rw [hsub] at hrun; simp at hrun
        | some o1 =>
          rw [hsub] at hrun
          dsimp only at hrun
          obtain ⟨hGo1, hPo1, f2, cs1, hpure1, hcn1⟩ :=
            ihE st e pos perr l o1 hG h0 hL hsub
          cases hres : o1.res with
          | none =>
            rw [hres] at hrun
            injection hrun with hrun
            subst hrun
            rw [hres] at hpure1
            refine ⟨hGo1, hPo1, f2 + 1, cs1, ?_, hcn1⟩
            simp [pureS, hpure1, hres]
          | some pos1 =>
            rw [hres] at hrun
            rw [hres] at hpure1
            obtain ⟨hbres, _⟩ := (pureBound_all env hdec f2).1 _ _ _ _ h0 hL hpure1
            obtain ⟨hp1, hp1L⟩ := hbres pos1 rfl
            obtain ⟨hGo, hPo, f3, cs2, hpure2, hcn2⟩ :=
              ihS o1.st es pos1 o1.perr o1.labels o hGo1 (le_trans h0 hp1) hp1L hrun
            refine ⟨hGo, Preserves_trans hPo1 hPo, max f2 f3 + 1,
              cs1 ++ cs2, ?_, CallsNonzero_append.mpr
                ⟨CallsNonzero_mono hcn1 hPo, hcn2⟩⟩
            simp [pureS, pureAcc_le env (le_max_left f2 f3) hpure1,
              pureS_le env (le_max_right f2 f3) hpure2]
    · -- repetition loop level
      intro st e pos perr l o hG h0 hL hrun
      simp only [repAcceptsFn] at hrun
      cases hsub : exprAcceptsFn env n st e pos perr l with
      | none => rw [hsub] at hrun; simp at hrun
      | some o1 =>
        rw [hsub] at hrun
        dsimp only at hrun
        obtain ⟨hGo1, hPo1, f2, cs1, hpure1, hcn1⟩ :=
          ihE st e pos perr l o1 hG h0 hL hsub
        cases hres : o1.res with
        | none =>
          rw [hres] at hrun
          injection hrun with hrun
          subst hrun
          rw [hres] at hpure1
          refine ⟨hGo1, hPo1, f2 + 1, cs1, ?_, hcn1⟩
          simp [pureR, hpure1, hres]
        | some pos1 =>
          rw [hres] at hrun
          rw [hres] at hpure1
          obtain ⟨hbres, _⟩ := (pureBound_all env hdec f2).1 _ _ _ _ h0 hL hpure1
          obtain ⟨hp1, hp1L⟩ := hbres pos1 rfl
          obtain ⟨hGo, hPo, f3, cs2, hpure2, hcn2⟩ :=
            ihRp o1.st e pos1 o1.perr o1.labels o hGo1 (le_trans h0 hp1) hp1L hrun
          refine ⟨hGo, Preserves_trans hPo1 hPo, max f2 f3 + 1,
            cs1 ++ cs2, ?_, CallsNonzero_append.mpr
              ⟨CallsNonzero_mono hcn1 hPo, hcn2⟩⟩
          simp [pureR, pureAcc_le env (le_max_left f2 f3) hpure1,
            pureR_le env (le_max_right f2 f3) hpure2]

/-- nodeAgree_all: every completed node-pass run leaves the memo matrix
untouched and follows the state-free reference run (see NodeAgree). -/
theorem nodeAgree_all (env : PEnv) : ∀ fuel, NodeAgree env fuel := by
  intro fuel
  induction fuel with
  | zero =>
    refine ⟨?_, ?_, ?_, ?_, ?_⟩
    · intro st idx r start st1 p nd _ _ _ h; simp [ruleNodeFn] at h
    · intro st e pos ks l o f2 res l2 cs _ _ _ h; simp [exprNodeFn] at h
    · intro st es pos0 pos nk ks l o f2 res l2 cs _ _ _ h; simp [choiceNodeFn] at h
    · intro st es pos ks l o f2 res l2 cs _ _ _ h; simp [seqNodeFn] at h
    · intro st e pos ks l o f2 res l2 cs _ _ _ h; simp [repNodeFn] at h
  | succ n ih =>
    obtain ⟨ihR, ihE, ihC, ihS, ihRp⟩ := ih
    refine ⟨?_, ?_, ?_, ?_, ?_⟩
    · -- rule level
      intro st idx r start st1 p nd hG hr hnz hrun
      simp only [ruleNodeFn] at hrun
      rcases hG idx r start hr with h0 | ⟨fb, lb, csb, hpb, hvb, hcb⟩ |
        ⟨fb, p1, lb, csb, hpb, hvb, hleb, hcb⟩
      · exact absurd h0 hnz
      · rw [hvb] at hrun
        rw [if_pos (show (-1 : Int) < 0 from by norm_num)] at hrun
        simp only [Option.some_inj, Prod.mk.injEq] at hrun
        obtain ⟨rfl, rfl, rfl⟩ := hrun
        exact ⟨rfl, Or.inr ⟨hvb, rfl, rfl⟩⟩
      · rw [hvb] at hrun
        rw [if_neg (show ¬(p1 - start + 1 < 0) from by omega)] at hrun
        cases hcache : st.nodeCache start idx with
        | some nd1 =>
          rw [hcache] at hrun
          simp only [Option.some_inj, Prod.mk.injEq] at hrun
          obtain ⟨rfl, rfl, rfl⟩ := hrun
          exact ⟨rfl, Or.inl ⟨p1 - start, by omega, hvb, by omega, rfl⟩⟩
        | none =>
          rw [hcache] at hrun
          dsimp only at hrun
          cases hb : exprNodeFn env n st r.expr start [] (fun _ => []) with
          | none => rw [hb] at hrun; simp at hrun
          | some o =>
            rw [hb] at hrun
            dsimp only at hrun
            obtain ⟨hst1, hres1, hlab1⟩ :=
              ihE st r.expr start [] (fun _ => []) o fb (some p1) lb csb hG hpb hcb hb
            rw [hres1] at hrun
            dsimp only at hrun
            simp only [Option.some_inj, Prod.mk.injEq] at hrun
            obtain ⟨rfl, rfl, rfl⟩ := hrun
            exact ⟨hst1, Or.inl ⟨p1 - start, by omega, hvb, by omega, rfl⟩⟩
    · -- expression level
      intro st e pos ks l o f2 res l2 cs hG hpure hcn hrun
      cases e with
      | choice es =>
        cases f2 with
        | zero => simp [pureAcc] at hpure
        | succ pf =>
          simp only [pureAcc] at hpure
          simp only [exprNodeFn] at hrun
          exact ihC st es pos pos ks.length ks l o pf res l2 cs hG hpure hcn hrun
      | action e1 c t ns =>
        cases f2 with
        | zero => simp [pureAcc] at hpure
        | succ pf =>
          simp only [pureAcc] at hpure
          simp only [exprNodeFn] at hrun
          exact ihE st e1 pos ks l o pf res l2 cs hG hpure hcn hrun
      | seq es =>
        cases f2 with
        | zero => simp [pureAcc] at hpure
        | succ pf =>
          simp only [pureAcc] at hpure
          simp only [exprNodeFn] at hrun
          exact ihS st es pos ks l o pf res l2 cs hG hpure hcn hrun
      | label nm e1 k =>
        cases f2 with
        | zero => simp [pureAcc] at hpure
        | succ pf =>
          simp only [pureAcc] at hpure
          simp only [exprNodeFn] at hrun
          cases hsub : pureAcc env pf e1 pos l with
          | none => rw [hsub] at hpure; simp at hpure
          | some t1 =>
            rw [hsub] at hpure
            obtain ⟨res1, l1c, cs1⟩ := t1
            dsimp only at hpure
            cases hnode : exprNodeFn env n st e1 pos ks l with
            | none => rw [hnode] at hrun; simp at hrun
            | some o1 =>
              rw [hnode] at hrun
              dsimp only at hrun
              cases res1 with
              | some pos1 =>
                simp only [Option.some_inj, Prod.mk.injEq] at hpure
                obtain ⟨rfl, rfl, rfl⟩ := hpure
                obtain ⟨hst1, hres1, hlab1⟩ :=
                  ihE st e1 pos ks l o1 pf (some pos1) l1c cs1 hG hsub hcn hnode
                rw [hres1] at hrun
                dsimp only at hrun
                injection hrun with hrun
                subst hrun
                exact ⟨hst1, by simp [hres1], by simp [hlab1]⟩
              | none =>
                simp only [Option.some_inj, Prod.mk.injEq] at hpure
                obtain ⟨rfl, rfl, rfl⟩ := hpure
                obtain ⟨hst1, hres1, hlab1⟩ :=
                  ihE st e1 pos ks l o1 pf none l1c cs1 hG hsub hcn hnode
                rw [hres1] at hrun
                dsimp only at hrun
                injection hrun with hrun
                subst hrun
                exact ⟨hst1, hres1, hlab1⟩
      | pred neg e1 =>
        cases f2 with
        | zero => simp [pureAcc] at hpure
        | succ pf =>
          simp only [pureAcc] at hpure
          simp only [exprNodeFn] at hrun
          cases hsub : pureAcc env pf e1 pos l with
          | none => rw [hsub] at hpure; simp at hpure
          | some t1 =>
            rw [hsub] at hpure
            obtain ⟨res1, l1c, cs1⟩ := t1
            dsimp only at hpure
            cases hnode : exprNodeFn env n st e1 pos ks l with
            | none => rw [hnode] at hrun; simp at hrun
            | some o1 =>
              rw [hnode] at hrun
              dsimp only at hrun
              cases hneg : neg with
              | true =>
                rw [hneg] at hpure hrun
                simp only [if_true] at hpure hrun
                cases res1 with
                | some pos1 =>
                  simp only [Option.some_inj, Prod.mk.injEq] at hpure
                  obtain ⟨rfl, rfl, rfl⟩ := hpure
                  obtain ⟨hst1, hres1, hlab1⟩ :=
                    ihE st e1 pos ks l o1 pf (some pos1) l1c cs1 hG hsub hcn hnode
                  rw [hres1] at hrun
                  dsimp only at hrun
                  injection hrun with hrun
                  subst hrun
                  exact ⟨hst1, by simp, by simp [hlab1]⟩
                | none =>
                  simp only [Option.some_inj, Prod.mk.injEq] at hpure
                  obtain ⟨rfl, rfl, rfl⟩ := hpure
                  obtain ⟨hst1, hres1, hlab1⟩ :=
                    ihE st e1 pos ks l o1 pf none l1c cs1 hG hsub hcn hnode
                  rw [hres1] at hrun
                  dsimp only at hrun
                  injection hrun with hrun
                  subst hrun
                  exact ⟨hst1, by simp, by simp [hlab1]⟩
              | false =>
                rw [hneg] at hpure hrun
                simp only [Bool.false_eq_true, if_false] at hpure hrun
                cases res1 with
                | some pos1 =>
                  simp only [Option.some_inj, Prod.mk.injEq] at hpure
                  obtain ⟨rfl, rfl, rfl⟩ := hpure
                  obtain ⟨hst1, hres1, hlab1⟩ :=
                    ihE st e1 pos ks l o1 pf (some pos1) l1c cs1 hG hsub hcn hnode
                  rw [hres1] at hrun
                  dsimp only at hrun
                  injection hrun with hrun
                  subst hrun
                  exact ⟨hst1, by simp, by simp [hlab1]⟩
                | none =>
                  simp only [Option.some_inj, Prod.mk.injEq] at hpure
                  obtain ⟨rfl, rfl, rfl⟩ := hpure
                  obtain ⟨hst1, hres1, hlab1⟩ :=
                    ihE st e1 pos ks l o1 pf none l1c cs1 hG hsub hcn hnode
                  rw [hres1] at hrun
                  dsimp only at hrun
                  injection hrun with hrun
                  subst hrun
                  exact ⟨hst1, by simp, by simp [hlab1]⟩
      | rep op e1 =>
        cases f2 with
        | zero => simp [pureAcc] at hpure
        | succ pf =>
          simp only [pureAcc] at hpure
          simp only [exprNodeFn] at hrun
          by_cases hop : (op == '+') = true
          · rw [if_pos hop] at hpure hrun
            cases hsub : pureAcc env pf e1 pos l with
            | none => rw [hsub] at hpure; simp at hpure
            | some t1 =>
              rw [hsub] at hpure
              obtain ⟨res1, l1c, cs1⟩ := t1
              dsimp only at hpure
              cases hnode : exprNodeFn env n st e1 pos ks l with
              | none => rw [hnode] at hrun; simp at hrun
              | some o1 =>
                rw [hnode] at hrun
                dsimp only at hrun
                cases res1 with
                | none =>
                  simp only [Option.some_inj, Prod.mk.injEq] at hpure
                  obtain ⟨rfl, rfl, rfl⟩ := hpure
                  obtain ⟨hst1, hres1, hlab1⟩ :=
                    ihE st e1 pos ks l o1 pf none l1c cs1 hG hsub hcn hnode
                  rw [hres1] at hrun
                  dsimp only at hrun
                  injection hrun with hrun
                  subst hrun
                  exact ⟨hst1, hres1, hlab1⟩
                | some pos1 =>
                  dsimp only at hpure
                  cases hsub2 : pureR env pf e1 pos1 l1c with
                  | none => rw [hsub2] at hpure; simp at hpure
                  | some t2 =>
                    rw [hsub2] at hpure
                    obtain ⟨res2, l2c, cs2⟩ := t2
                    dsimp only at hpure
                    simp only [Option.some_inj, Prod.mk.injEq] at hpure
                    obtain ⟨rfl, rfl, rfl⟩ := hpure
                    obtain ⟨hcn1, hcn2⟩ := CallsNonzero_append.mp hcn
                    obtain ⟨hst1, hres1, hlab1⟩ :=
                      ihE st e1 pos ks l o1 pf (some pos1) l1c cs1 hG hsub hcn1 hnode
                    rw [hres1] at hrun
                    dsimp only at hrun
                    rw [hlab1] at hrun
                    obtain ⟨hst2, hres2, hlab2⟩ := ihRp o1.st e1 pos1 o1.kids l1c o pf
                      res2 l2c cs2 (Good_of_deltaPos_eq hG hst1)
                      hsub2 (by intro q hq; rw [hst1]; exact hcn2 q hq) hrun
                    exact ⟨by rw [hst2, hst1], hres2, hlab2⟩
          · rw [if_neg hop] at hpure hrun
            exact ihRp st e1 pos ks l o pf res l2 cs hG hpure hcn hrun
      | opt e1 =>
        cases f2 with
        | zero => simp [pureAcc] at hpure
        | succ pf =>
          simp only [pureAcc] at hpure
          simp only [exprNodeFn] at hrun
          by_cases hcf : e1.canFail = true
          · rw [if_pos hcf] at hpure hrun
            cases hsub : pureAcc env pf e1 pos l with
            | none => rw [hsub] at hpure; simp at hpure
            | some t1 =>
              rw [hsub] at hpure
              obtain ⟨res1, l1c, cs1⟩ := t1
              dsimp only at hpure
              cases hnode : exprNodeFn env n st e1 pos ks l with
              | none => rw [hnode] at hrun; simp at hrun
              | some o1 =>
                rw [hnode] at hrun
                dsimp only at hrun
                cases res1 with
                | some pos1 =>
                  simp only [Option.some_inj, Prod.mk.injEq] at hpure
                  obtain ⟨rfl, rfl, rfl⟩ := hpure
                  obtain ⟨hst1, hres1, hlab1⟩ :=
                    ihE st e1 pos ks l o1 pf (some pos1) l1c cs1 hG hsub hcn hnode
                  rw [hres1] at hrun
                  dsimp only at hrun
                  injection hrun with hrun
                  subst hrun
                  exact ⟨hst1, hres1, hlab1⟩
                | none =>
                  simp only [Option.some_inj, Prod.mk.injEq] at hpure
                  obtain ⟨rfl, rfl, rfl⟩ := hpure
                  obtain ⟨hst1, hres1, hlab1⟩ :=
                    ihE st e1 pos ks l o1 pf none l1c cs1 hG hsub hcn hnode
                  rw [hres1] at hrun
                  dsimp only at hrun
                  injection hrun with hrun
                  subst hrun
                  exact ⟨hst1, by simp, by simp [hlab1]⟩
          · rw [if_neg hcf] at hpure hrun
            exact ihE st e1 pos ks l o pf res l2 cs hG hpure hcn hrun
      | sub e1 =>
        cases f2 with
        | zero => simp [pureAcc] at hpure
        | succ pf =>
          simp only [pureAcc] at hpure
          simp only [exprNodeFn] at hrun
          cases hnode : exprNodeFn env n st e1 pos ks l with
          | none => rw [hnode] at hrun; simp at hrun
          | some o1 =>
            rw [hnode] at hrun
            dsimp only at hrun
            obtain ⟨hst1, hres1, hlab1⟩ :=
              ihE st e1 pos ks l o1 pf res l2 cs hG hpure hcn hnode
            cases hres : o1.res with
            | some pos1 =>
              rw [hres] at hrun
              dsimp only at hrun
              injection hrun with hrun
              subst hrun
              exact ⟨hst1, by rw [← hres1, hres], by simp [hlab1]⟩
            | none =>
              rw [hres] at hrun
              injection hrun with hrun
              subst hrun
              exact ⟨hst1, hres1, hlab1⟩
      | ident nm =>
        cases f2 with
        | zero => simp [pureAcc] at hpure
        | succ pf =>
          simp only [pureAcc] at hpure
          simp only [exprNodeFn] at hrun
          cases hlk : env.lookupRule nm with
          | none => rw [hlk] at hpure; simp at hpure
          | some ir =>
            rw [hlk] at hpure hrun
            obtain ⟨idx, r⟩ := ir
            dsimp only at hpure hrun
            cases hsub : pureAcc env pf r.expr pos (fun _ => []) with
            | none => rw [hsub] at hpure; simp at hpure
            | some t1 =>
              rw [hsub] at hpure
              obtain ⟨bres, lb2, csb2⟩ := t1
              dsimp only at hpure
              have hr : env.rules.get? idx = some r := lookupRule_get hlk
              cases hrule : ruleNodeFn env n st idx r pos with
              | none => rw [hrule] at hrun; simp at hrun
              | some t2 =>
                obtain ⟨st2, pr, kid⟩ := t2
                rw [hrule] at hrun
                dsimp only at hrun
                cases bres with
                | some pos1 =>
                  simp only [Option.some_inj, Prod.mk.injEq] at hpure
                  obtain ⟨rfl, rfl, rfl⟩ := hpure
                  have hnz : st.deltaPos pos idx ≠ 0 := by
                    have := hcn (idx, pos) (List.mem_singleton.mpr rfl)
                    exact this
                  obtain ⟨hst2, hdisj⟩ := ihR st idx r pos st2 pr kid hG hr hnz hrule
                  obtain ⟨hentry, hple⟩ :
                      st.deltaPos pos idx = pos1 - pos + 1 ∧ pos ≤ pos1 := by
                    rcases hG idx r pos hr with h0 | ⟨fb, lb, csb, hpb, hvb, hcb⟩ |
                      ⟨fb, p1b, lb, csb, hpb, hvb, hleb, hcb⟩
                    · exact absurd h0 hnz
                    · exact absurd (pureAcc_fun env hpb hsub) (by simp)
                    · have h2 := pureAcc_fun env hpb hsub
                      simp only [Prod.mk.injEq] at h2
                      have hq := Option.some_inj.mp h2.1
                      constructor
                      · rw [hvb, hq]
                      · rw [← hq]
                        exact hleb
                  rcases hdisj with ⟨d, hd0, hdv, hdp, hks⟩ | ⟨hdv, hdp, hks⟩
                  · rw [hentry] at hdv
                    cases kid with
                    | none => simp at hks
                    | some k =>
                      dsimp only at hrun
                      injection hrun with hrun
                      subst hrun
                      refine ⟨hst2, ?_, rfl⟩
                      have hpr : pr = pos1 := by omega
                      dsimp only
                      rw [hpr]
                  · rw [hentry] at hdv
                    exact absurd hdv (by omega)
                | none =>
                  simp only [Option.some_inj, Prod.mk.injEq] at hpure
                  obtain ⟨rfl, rfl, rfl⟩ := hpure
                  have hnz : st.deltaPos pos idx ≠ 0 := by
                    have := hcn (idx, pos) (List.mem_singleton.mpr rfl)
                    exact this
                  obtain ⟨hst2, hdisj⟩ := ihR st idx r pos st2 pr kid hG hr hnz hrule
                  have hentry : st.deltaPos pos idx = -1 := by
                    rcases hG idx r pos hr with h0 | ⟨fb, lb, csb, hpb, hvb, hcb⟩ |
                      ⟨fb, p1b, lb, csb, hpb, hvb, hleb, hcb⟩
                    · exact absurd h0 hnz
                    · exact hvb
                    · exact absurd (pureAcc_fun env hpb hsub) (by simp)
                  rcases hdisj with ⟨d, hd0, hdv, hdp, hks⟩ | ⟨hdv, hdp, hks⟩
                  · rw [hentry] at hdv
                    exact absurd hdv (by omega)
                  · subst hks
                    dsimp only at hrun
                    injection hrun with hrun
                    subst hrun
                    exact ⟨hst2, rfl, rfl⟩
      | predCode neg c ns =>
        cases f2 with
        | zero => simp [pureAcc] at hpure
        | succ pf =>
          simp only [pureAcc] at hpure
          simp only [exprNodeFn] at hrun
          by_cases hcond : env.predCodeFails neg c ns l = true
          · rw [if_pos hcond] at hpure hrun
            simp only [Option.some_inj, Prod.mk.injEq] at hpure
            obtain ⟨rfl, rfl, rfl⟩ := hpure
            injection hrun with hrun
            subst hrun
            exact ⟨rfl, rfl, rfl⟩
          · rw [if_neg hcond] at hpure hrun
            simp only [Option.some_inj, Prod.mk.injEq] at hpure
            obtain ⟨rfl, rfl, rfl⟩ := hpure
            injection hrun with hrun
            subst hrun
            exact ⟨rfl, rfl, rfl⟩
      | lit t =>
        cases f2 with
        | zero => simp [pureAcc] at hpure
        | succ pf =>
          simp only [pureAcc] at hpure
          simp only [exprNodeFn] at hrun
          by_cases hcond : env.litMisses pos t = true
          · rw [if_pos hcond] at hpure hrun
            simp only [Option.some_inj, Prod.mk.injEq] at hpure
            obtain ⟨rfl, rfl, rfl⟩ := hpure
            injection hrun with hrun
            subst hrun
            exact ⟨rfl, rfl, rfl⟩
          · rw [if_neg hcond] at hpure hrun
            simp only [Option.some_inj, Prod.mk.injEq] at hpure
            obtain ⟨rfl, rfl, rfl⟩ := hpure
            injection hrun with hrun
            subst hrun
            exact ⟨rfl, rfl, rfl⟩
      | charClass neg spans =>
        cases f2 with
        | zero => simp [pureAcc] at hpure
        | succ pf =>
          simp only [pureAcc] at hpure
          simp only [exprNodeFn] at hrun
          cases hnx : env.next pos with
          | mk rv w =>
            rw [hnx] at hpure hrun
            dsimp only at hpure hrun
            by_cases hcond : classMisses neg rv w spans = true
            · rw [if_pos hcond] at hpure hrun
              simp only [Option.some_inj, Prod.mk.injEq] at hpure
              obtain ⟨rfl, rfl, rfl⟩ := hpure
              injection hrun with hrun
              subst hrun
              exact ⟨rfl, rfl, rfl⟩
            · rw [if_neg hcond] at hpure hrun
              simp only [Option.some_inj, Prod.mk.injEq] at hpure
              obtain ⟨rfl, rfl, rfl⟩ := hpure
              injection hrun with hrun
              subst hrun
              exact ⟨rfl, rfl, rfl⟩
      | any =>
        cases f2 with
        | zero => simp [pureAcc] at hpure
        | succ pf =>
          simp only [pureAcc] at hpure
          simp only [exprNodeFn] at hrun
          cases hnx : env.next pos with
          | mk rv w =>
            rw [hnx] at hpure hrun
            dsimp only at hpure hrun
            by_cases hcond : (w == 0 || rv == 0xFFFD) = true
            · rw [if_pos hcond] at hpure hrun
              simp only [Option.some_inj, Prod.mk.injEq] at hpure
              obtain ⟨rfl, rfl, rfl⟩ := hpure
              injection hrun with hrun
              subst hrun
              exact ⟨rfl, rfl, rfl⟩
            · rw [if_neg hcond] at hpure hrun
              simp only [Option.some_inj, Prod.mk.injEq] at hpure
              obtain ⟨rfl, rfl, rfl⟩ := hpure
              injection hrun with hrun
              subst hrun
              exact ⟨rfl, rfl, rfl⟩
    · -- choice list level
      intro st es pos0 pos nk ks l o f2 res l2 cs hG hpure hcn hrun
      cases es with
      | nil =>
        cases f2 with
        | zero => simp [pureC] at hpure
        | succ pf =>
          simp only [pureC] at hpure
          simp only [choiceNodeFn] at hrun
          simp only [Option.some_inj, Prod.mk.injEq] at hpure
          obtain ⟨rfl, rfl, rfl⟩ := hpure
          injection hrun with hrun
          subst hrun
          exact ⟨rfl, rfl, rfl⟩
      | cons e es =>
        cases f2 with
        | zero => simp [pureC] at hpure
        | succ pf =>
          simp only [pureC] at hpure
          simp only [choiceNodeFn] at hrun
          cases hsub : pureAcc env pf e pos l with
          | none => rw [hsub] at hpure; simp at hpure
          | some t1 =>
            rw [hsub] at hpure
            obtain ⟨res1, l1c, cs1⟩ := t1
            dsimp only at hpure
            cases hnode : exprNodeFn env n st e pos ks l with
            | none => rw [hnode] at hrun; simp at hrun
            | some o1 =>
              rw [hnode] at hrun
              dsimp only at hrun
              by_cases hcf : e.canFail = true
              · rw [if_pos hcf] at hpure hrun
                cases res1 with
                | some pos1 =>
                  simp only [Option.some_inj, Prod.mk.injEq] at hpure
                  obtain ⟨rfl, rfl, rfl⟩ := hpure
                  obtain ⟨hst1, hres1, hlab1⟩ :=
                    ihE st e pos ks l o1 pf (some pos1) l1c cs1 hG hsub hcn hnode
                  rw [hres1] at hrun
                  dsimp only at hrun
                  injection hrun with hrun
                  subst hrun
                  exact ⟨hst1, hres1, hlab1⟩
                | none =>
                  cases es with
                  | nil =>
                    simp only [Option.some_inj, Prod.mk.injEq] at hpure
                    obtain ⟨rfl, rfl, rfl⟩ := hpure
                    obtain ⟨hst1, hres1, hlab1⟩ :=
                      ihE st e pos ks l o1 pf none l1c cs1 hG hsub hcn hnode
                    rw [hres1] at hrun
                    dsimp only at hrun
                    injection hrun with hrun
                    subst hrun
                    exact ⟨hst1, by simp [hres1], by simp [hlab1]⟩
                  | cons f fs =>
                    dsimp only at hpure
                    cases hsub2 : pureC env pf (f :: fs) pos0 pos0 l1c with
                    | none => rw [hsub2] at hpure; simp at hpure
                    | some t2 =>
                      rw [hsub2] at hpure
                      obtain ⟨res2, l2c, cs2⟩ := t2
                      dsimp only at hpure
                      simp only [Option.some_inj, Prod.mk.injEq] at hpure
                      obtain ⟨rfl, rfl, rfl⟩ := hpure
                      obtain ⟨hcn1, hcn2⟩ := CallsNonzero_append.mp hcn
                      obtain ⟨hst1, hres1, hlab1⟩ :=
                        ihE st e pos ks l o1 pf none l1c cs1 hG hsub hcn1 hnode
                      rw [hres1] at hrun
                      dsimp only at hrun
                      rw [hlab1] at hrun
                      obtain ⟨hst2, hres2, hlab2⟩ :=
                        ihC o1.st (f :: fs) pos0 pos0 nk (o1.kids.take nk) l1c o pf
                          res2 l2c cs2 (Good_of_deltaPos_eq hG hst1) hsub2
                          (fun q hq => by rw [hst1]; exact hcn2 q hq) hrun
                      exact ⟨by rw [hst2, hst1], hres2, hlab2⟩
              · rw [if_neg hcf] at hpure hrun
                cases res1 with
                | none => simp at hpure
                | some pos1 =>
                  cases es with
                  | nil =>
                    simp only [Option.some_inj, Prod.mk.injEq] at hpure
                    obtain ⟨rfl, rfl, rfl⟩ := hpure
                    obtain ⟨hst1, hres1, hlab1⟩ :=
                      ihE st e pos ks l o1 pf (some pos1) l1c cs1 hG hsub hcn hnode
                    rw [hres1] at hrun
                    dsimp only at hrun
                    injection hrun with hrun
                    subst hrun
                    exact ⟨hst1, hres1, hlab1⟩
                  | cons f fs =>
                    dsimp only at hpure
                    cases hsub2 : pureC env pf (f :: fs) pos0 pos1 l1c with
                    | none => rw [hsub2] at hpure; simp at hpure
                    | some t2 =>
                      rw [hsub2] at hpure
                      obtain ⟨res2, l2c, cs2⟩ := t2
                      dsimp only at hpure
                      simp only [Option.some_inj, Prod.mk.injEq] at hpure
                      obtain ⟨rfl, rfl, rfl⟩ := hpure
                      obtain ⟨hcn1, hcn2⟩ := CallsNonzero_append.mp hcn
                      obtain ⟨hst1, hres1, hlab1⟩ :=
                        ihE st e pos ks l o1 pf (some pos1) l1c cs1 hG hsub hcn1 hnode
                      rw [hres1] at hrun
                      dsimp only at hrun
                      rw [hlab1] at hrun
                      obtain ⟨hst2, hres2, hlab2⟩ :=
                        ihC o1.st (f :: fs) pos0 pos1 nk o1.kids l1c o pf
                          res2 l2c cs2 (Good_of_deltaPos_eq hG hst1) hsub2
                          (fun q hq => by rw [hst1]; exact hcn2 q hq) hrun
                      exact ⟨by rw [hst2, hst1], hres2, hlab2⟩
    · -- sequence list level
      intro st es pos ks l o f2 res l2 cs hG hpure hcn hrun
      cases es with
      | nil =>
        cases f2 with
        | zero => simp [pureS] at hpure
        | succ pf =>
          simp only [pureS] at hpure
          simp only [seqNodeFn] at hrun
          simp only [Option.some_inj, Prod.mk.injEq] at hpure
          obtain ⟨rfl, rfl, rfl⟩ := hpure
          injection hrun with hrun
          subst hrun
          exact ⟨rfl, rfl, rfl⟩
      | cons e es =>
        cases f2 with
        | zero => simp [pureS] at hpure
        | succ pf =>
          simp only [pureS] at hpure
          simp only [seqNodeFn] at hrun
          cases hsub : pureAcc env pf e pos l with
          | none => rw [hsub] at hpure; simp at hpure
          | some t1 =>
            rw [hsub] at hpure
            obtain ⟨res1, l1c, cs1⟩ := t1
            dsimp only at hpure
            cases hnode : exprNodeFn env n st e pos ks l with
            | none => rw [hnode] at hrun; simp at hrun
            | some o1 =>
              rw [hnode] at hrun
              dsimp only at hrun
              cases res1 with
              | none =>
                simp only [Option.some_inj, Prod.mk.injEq] at hpure
                obtain ⟨rfl, rfl, rfl⟩ := hpure
                obtain ⟨hst1, hres1, hlab1⟩ :=
                  ihE st e pos ks l o1 pf none l1c cs1 hG hsub hcn hnode
                rw [hres1] at hrun
                dsimp only at hrun
                injection hrun with hrun
                subst hrun
                exact ⟨hst1, hres1, hlab1⟩
              | some pos1 =>
                dsimp only at hpure
                cases hsub2 : pureS env pf es pos1 l1c with
                | none => rw [hsub2] at hpure; simp at hpure
                | some t2 =>
                  rw [hsub2] at hpure
                  obtain ⟨res2, l2c, cs2⟩ := t2
                  dsimp only at hpure
                  simp only [Option.some_inj, Prod.mk.injEq] at hpure
                  obtain ⟨rfl, rfl, rfl⟩ := hpure
                  obtain ⟨hcn1, hcn2⟩ := CallsNonzero_append.mp hcn
                  obtain ⟨hst1, hres1, hlab1⟩ :=
                    ihE st e pos ks l o1 pf (some pos1) l1c cs1 hG hsub hcn1 hnode
                  rw [hres1] at hrun
                  dsimp only at hrun
                  rw [hlab1] at hrun
                  obtain ⟨hst2, hres2, hlab2⟩ :=
                    ihS o1.st es pos1 o1.kids l1c o pf res2 l2c cs2
                      (Good_of_deltaPos_eq hG hst1) hsub2
                      (fun q hq => by rw [hst1]; exact hcn2 q hq) hrun
                  exact ⟨by rw [hst2, hst1], hres2, hlab2⟩
    · -- repetition loop level
      intro st e pos ks l o f2 res l2 cs hG hpure hcn hrun
      cases f2 with
      | zero => simp [pureR] at hpure
      | succ pf =>
        simp only [pureR] at hpure
        simp only [repNodeFn] at hrun
        cases hsub : pureAcc env pf e pos l with
        | none => rw [hsub] at hpure; simp at hpure
        | some t1 =>
          rw [hsub] at hpure
          obtain ⟨res1, l1c, cs1⟩ := t1
          dsimp only at hpure
          cases hnode : exprNodeFn env n st e pos ks l with
          | none => rw [hnode] at hrun; simp at hrun
          | some o1 =>
            rw [hnode] at hrun
            dsimp only at hrun
            cases res1 with
            | none =>
              simp only [Option.some_inj, Prod.mk.injEq] at hpure
              obtain ⟨rfl, rfl, rfl⟩ := hpure
              obtain ⟨hst1, hres1, hlab1⟩ :=
                ihE st e pos ks l o1 pf none l1c cs1 hG hsub hcn hnode
              rw [hres1] at hrun
              dsimp only at hrun
              injection hrun with hrun
              subst hrun
              exact ⟨hst1, by simp, by simp [hlab1]⟩
            | some pos1 =>
              dsimp only at hpure
              cases hsub2 : pureR env pf e pos1 l1c with
              | none => rw [hsub2] at hpure; simp at hpure
              | some t2 =>
                rw [hsub2] at hpure
                obtain ⟨res2, l2c, cs2⟩ := t2
                dsimp only at hpure
                simp only [Option.some_inj, Prod.mk.injEq] at hpure
                obtain ⟨rfl, rfl, rfl⟩ := hpure
                obtain ⟨hcn1, hcn2⟩ := CallsNonzero_append.mp hcn
                obtain ⟨hst1, hres1, hlab1⟩ :=
                  ihE st e pos ks l o1 pf (some pos1) l1c cs1 hG hsub hcn1 hnode
                rw [hres1] at hrun
                dsimp only at hrun
                rw [hlab1] at hrun
                obtain ⟨hst2, hres2, hlab2⟩ :=
                  ihRp o1.st e pos1 o1.kids l1c o pf res2 l2c cs2
                    (Good_of_deltaPos_eq hG hst1) hsub2
                    (fun q hq => by rw [hst1]; exact hcn2 q hq) hrun
                exact ⟨by rw [hst2, hst1], hres2, hlab2⟩

/-- C1: For every checked rule R (a rule of the environment, looked up at
its column index) and start position s on any input, from any sound memo
state: if the generated Accepts function for R, called at s, returns
(dp, de), then the generated Node function for R called at the same start
s (on the state the Accepts call left behind) returns a position equal to
s + dp together with a non-nil node when dp ≥ 0, and returns (-1, nil)
when dp < 0.  Hypotheses: the rune decoder respects the remaining-input
bound, the input is shorter than the int32 range of the memo matrices,
the start is within the input, and both calls complete (return). -/
theorem acceptsNode_agree {env : PEnv} {st st1 st2 : PState} {idx : Nat}
    {r : Rule} {start dp de p : Int} {nd : Option PNode} {f1 f2 : Nat}
    (hdec : DecOK env) (hsmall : SmallText env) (hG : Good env st)
    (hr : env.rules.get? idx = some r) (h0 : 0 ≤ start)
    (hL : start ≤ (env.text.length : Int))
    (hA : ruleAcceptsFn env f1 st idx r start = some (st1, dp, de))
    (hN : ruleNodeFn env f2 st1 idx r start = some (st2, p, nd)) :
    (0 ≤ dp → p = start + dp ∧ nd.isSome = true) ∧
    (dp < 0 → p = -1 ∧ nd = none) := by
  obtain ⟨hG1, hP1, hentry, hsucc, hfail⟩ :=
    (accAgree_all env hdec hsmall f1).1 st idx r start st1 dp de hG hr h0 hL hA
  have hnz : st1.deltaPos start idx ≠ 0 := by
    rw [hentry]
    split <;> omega
  obtain ⟨hst2, hdisj⟩ :=
    (nodeAgree_all env f2).1 st1 idx r start st2 p nd hG1 hr hnz hN
  rw [hentry] at hdisj
  constructor
  · intro hdp
    rw [if_pos hdp] at hdisj
    rcases hdisj with ⟨d, hd0, hdv, hdpv, hks⟩ | ⟨hdv, _, _⟩
    · have hd : d = dp := by omega
      subst hd
      exact ⟨hdpv, hks⟩
    · exact absurd hdv (by omega)
  · intro hdp
    rw [if_neg (show ¬(0 ≤ dp) from by omega)] at hdisj
    rcases hdisj with ⟨d, hd0, hdv, hdpv, hks⟩ | ⟨_, hp, hnd⟩
    · exact absurd hdv (by omega)
    · exact ⟨hp, hnd⟩

/-- Witness for C1 on the grammar A <- B "c" / "a"; B <- "ab" and input
abc from the freshly allocated parser state: Accepts at start 0 returns
dp = 3 (and de = -1), and the Node pass on the resulting state then
returns position 0 + 3 with a node. -/
theorem acceptsNode_agree_witness :
    ∃ st2 : PState, ∃ p : Int, ∃ nd : Option PNode,
      ruleAcceptsFn envC1 20 PState.init 0 ruleC1 0 = some (stAfterC1, 3, -1) ∧
      ruleNodeFn envC1 20 stAfterC1 0 ruleC1 0 = some (st2, p, nd) ∧
      ((0 ≤ (3 : Int) → p = 0 + 3 ∧ nd.isSome = true) ∧
       ((3 : Int) < 0 → p = -1 ∧ nd = none)) := by
  have hdec : DecOK envC1 := by
    intro s
    cases s with
    | nil => simp [envC1, mkEnv, asciiDec]
    | cons c cs => simp [envC1, mkEnv, asciiDec]
  have hsmall : SmallText envC1 := by
    show (envC1.text.length : Int) + 2 < 2 ^ 31
    decide
  have hG : Good envC1 PState.init := fun idx r p _ => Or.inl rfl
  refine ⟨_, _, _, rfl, rfl, ?_⟩
  exact acceptsNode_agree hdec hsmall hG (rfl : envC1.rules.get? 0 = some ruleC1)
    (by decide) (by decide)
    (rfl : ruleAcceptsFn envC1 20 PState.init 0 ruleC1 0 = some (stAfterC1, 3, -1))
    (rfl : ruleNodeFn envC1 20 stAfterC1 0 ruleC1 0 = some (_, _, _))

/-! ## Shape and uniqueness of the left-recursion checker's reports -/

/-- Dropping a list to a member leaves that member at the head. -/
theorem dropWhile_ne_head {nm : String} : ∀ l : List String, nm ∈ l →
    ∃ t, l.dropWhile (· ≠ nm) = nm :: t := by
  intro l hm
  induction l with
  | nil => cases hm
  | cons a l ih =>
    by_cases ha : a = nm
    · subst ha
      refine ⟨l, ?_⟩
      rw [List.dropWhile_cons_of_neg (by simp)]
    · rcases List.mem_cons.mp hm with h | h
      · exact absurd h.symm ha
      · obtain ⟨t, ht⟩ := ih h
        refine ⟨t, ?_⟩
        rw [List.dropWhile_cons_of_pos (by simp [ha])]
        exact ht

theorem CLPost_refl (s : CLState) : CLPost s s :=
  ⟨fun _ h => h, fun _ h => h, fun h => h⟩

theorem CLPost_trans {s1 s2 s3 : CLState} (h1 : CLPost s1 s2)
    (h2 : CLPost s2 s3) : CLPost s1 s3 :=
  ⟨fun x h => h2.1 x (h1.1 x h), fun c h => h2.2.1 c (h1.2.1 c h),
    fun h => h2.2.2 (h1.2.2 h)⟩

theorem clAgree_all (g : List Rule) : ∀ fuel, CLAgree g fuel := by
  intro fuel
  induction fuel with
  | zero =>
    refine ⟨?_, ?_, ?_, ?_⟩ <;> intro s a <;>
      first
        | exact CLPost_refl s
  | succ n ih =>
    obtain ⟨ihR, ihE, ihL, ihS⟩ := ih
    refine ⟨?_, ?_, ?_, ?_⟩
    · intro s r
      simp only [checkLeftRule]
      by_cases hty : (s.typs r.name.render).isSome = true
      · rw [if_pos hty]
        exact CLPost_refl s
      · rw [if_neg hty]
        by_cases hstk : r.name.render ∈ s.stack
        · rw [if_pos hstk]
          obtain ⟨tl, htl⟩ := dropWhile_ne_head s.stack hstk
          refine ⟨?_, ?_, ?_⟩
          · intro x hx
            dsimp only
            by_cases hc : x ∈ s.stack.dropWhile (· ≠ r.name.render) ++ [r.name.render]
            · rw [if_pos hc]
              rfl
            · rw [if_neg hc]
              exact hx
          · intro c hc
            dsimp only
            exact List.mem_append.mpr (Or.inl hc)
          · intro ⟨hshape, hnd⟩
            constructor
            · intro c hc
              dsimp only at hc
              rcases List.mem_append.mp hc with hc | hc
              · obtain ⟨x, t, hct, hcl, hcty⟩ := hshape c hc
                refine ⟨x, t, hct, hcl, ?_⟩
                dsimp only
                by_cases hx : x ∈ s.stack.dropWhile (· ≠ r.name.render) ++ [r.name.render]
                · rw [if_pos hx]
                  rfl
                · rw [if_neg hx]
                  exact hcty
              · rcases List.mem_singleton.mp hc with rfl
                refine ⟨r.name.render, tl ++ [r.name.render], by rw [htl]; simp, ?_, ?_⟩
                · rw [List.getLast?_concat]
                · dsimp only
                  rw [if_pos (List.mem_append.mpr (Or.inr (List.mem_singleton.mpr rfl)))]
                  rfl
            · dsimp only
              rw [List.map_append]
              rw [List.nodup_append]
              refine ⟨hnd, by simp, ?_⟩
              intro a ha hb
              simp only [List.map_cons, List.map_nil, List.mem_singleton] at hb
              simp only [List.mem_map] at ha
              obtain ⟨c, hc, hch⟩ := ha
              obtain ⟨x, t, hct, _, hcty⟩ := hshape c hc
              have hxnm : x = r.name.render := by
                rw [hb] at hch
                rw [hct, htl, List.cons_append] at hch
                simp only [List.head?_cons, Option.some_inj] at hch
                exact hch
              rw [hxnm] at hcty
              exact hty hcty
        · rw [if_neg hstk]
          refine CLPost_trans
            ((⟨fun x h => h, fun c h => h, fun h => h⟩ :
              CLPost s { s with stack := s.stack ++ [r.name.render] }))
            (CLPost_trans
              (ihE { s with stack := s.stack ++ [r.name.render] } r.expr) ?_)
          set s2 := checkLeftExpr g n
            { s with stack := s.stack ++ [r.name.render] } r.expr with hs2
          refine ⟨?_, ?_, ?_⟩
          · intro x hx
            dsimp only
            by_cases hxn : x = r.name.render
            · rw [if_pos hxn]
              rfl
            · rw [if_neg hxn]
              exact hx
          · intro c hc
            exact hc
          · intro ⟨hshape, hnd⟩
            constructor
            · intro c hc
              obtain ⟨x, t, hct, hcl, hcty⟩ := hshape c hc
              refine ⟨x, t, hct, hcl, ?_⟩
              dsimp only
              by_cases hxn : x = r.name.render
              · rw [if_pos hxn]
                rfl
              · rw [if_neg hxn]
                exact hcty
            · exact hnd
    · intro s e
      cases e with
      | choice es => simp only [checkLeftExpr]; exact ihL s es
      | action e1 c t ns => simp only [checkLeftExpr]; exact ihE s e1
      | seq es => simp only [checkLeftExpr]; exact ihS s es
      | label nm e1 k => simp only [checkLeftExpr]; exact ihE s e1
      | pred neg e1 => simp only [checkLeftExpr]; exact ihE s e1
      | rep op e1 => simp only [checkLeftExpr]; exact ihE s e1
      | opt e1 => simp only [checkLeftExpr]; exact ihE s e1
      | sub e1 => simp only [checkLeftExpr]; exact ihE s e1
      | ident nm =>
        simp only [checkLeftExpr]
        cases hf : findRule g nm with
        | some r => exact ihR s r
        | none => exact CLPost_refl s
      | predCode neg c ns => simp only [checkLeftExpr]; exact CLPost_refl s
      | lit t => simp only [checkLeftExpr]; exact CLPost_refl s
      | charClass neg spans => simp only [checkLeftExpr]; exact CLPost_refl s
      | any => simp only [checkLeftExpr]; exact CLPost_refl s
    · intro s es
      cases es with
      | nil => simp only [checkLeftList]; exact CLPost_refl s
      | cons e es =>
        simp only [checkLeftList]
        exact CLPost_trans (ihE s e) (ihL (checkLeftExpr g n s e) es)
    · intro s es
      cases es with
      | nil => simp only [checkLeftSeq]; exact CLPost_refl s
      | cons e es =>
        simp only [checkLeftSeq]
        by_cases heps :
            e.epsilon (fun m => some ((checkLeftExpr g n s e).eps m)) = true
        · rw [if_pos heps]
          exact CLPost_trans (ihE s e) (ihS (checkLeftExpr g n s e) es)
        · rw [if_neg heps]
          exact ihE s e

/-- The shape invariant holds after checking any list of rules. -/
theorem clInv_fold (g : List Rule) (fuel : Nat) : ∀ rs : List Rule, ∀ s : CLState,
    CLInv s → CLInv (rs.foldl (fun s r => checkLeftRule g fuel s r) s) := by
  intro rs
  induction rs with
  | nil => intro s h; exact h
  | cons r rs ih =>
    intro s h
    exact ih _ (((clAgree_all g fuel).1 s r).2.2 h)

/-- C6, counterexample: on the grammar A <- B / C; B <- A; C <- A the
checker reports only the cycle A,B,A even though A,C,A is also a reachable
elementary left cycle (its two left edges hold under the final epsilon
flags), so not every reachable elementary cycle gets an error. -/
theorem checkLeft_everyCycle_counterexample :
    (checkLeftGrammar gOverlap 10).errs = [["A", "B", "A"]] ∧
    leftEdgeB gOverlap (checkLeftGrammar gOverlap 10).eps "A" "C" = true ∧
    leftEdgeB gOverlap (checkLeftGrammar gOverlap 10).eps "C" "A" = true ∧
    ¬(["A", "C", "A"] ∈ (checkLeftGrammar gOverlap 10).errs) := by
  refine ⟨rfl, rfl, rfl, ?_⟩
  decide

/-! ## Monotonicity of nullability, left prefixes and left edges in the
epsilon flags (flags only flip false to true during the walk, and
everything the walk established persists) -/

mutual

/-- epsilon is monotone in the rule flags. -/
theorem epsilon_mono {eps eps2 : String → Bool} (hle : epsLe eps eps2) :
    ∀ e : Expr, Expr.epsilon (fun m => some (eps m)) e = true →
      Expr.epsilon (fun m => some (eps2 m)) e = true
  | .choice es, h => epsilonAny_mono hle es h
  | .action e1 _ _ _, h => epsilon_mono hle e1 h
  | .seq es, h => epsilonAll_mono hle es h
  | .label _ e1 _, h => epsilon_mono hle e1 h
  | .pred _ _, h => h
  | .rep _ _, h => h
  | .opt _, h => h
  | .sub e1, h => epsilon_mono hle e1 h
  | .ident n, h => by
      simp only [Expr.epsilon, Option.getD_some] at h ⊢
      exact hle _ h
  | .predCode _ _ _, h => h
  | .lit _, h => h
  | .charClass _ _, h => h
  | .any, h => h
termination_by structural e _ => e

/-- epsilonAny is monotone in the rule flags. -/
theorem epsilonAny_mono {eps eps2 : String → Bool} (hle : epsLe eps eps2) :
    ∀ es : List Expr, Expr.epsilonAny (fun m => some (eps m)) es = true →
      Expr.epsilonAny (fun m => some (eps2 m)) es = true
  | [], h => h
  | e :: es, h => by
      simp only [Expr.epsilonAny, Bool.or_eq_true] at h ⊢
      rcases h with h | h
      · exact Or.inl (epsilon_mono hle e h)
      · exact Or.inr (epsilonAny_mono hle es h)
termination_by structural es _ => es

/-- epsilonAll is monotone in the rule flags. -/
theorem epsilonAll_mono {eps eps2 : String → Bool} (hle : epsLe eps eps2) :
    ∀ es : List Expr, Expr.epsilonAll (fun m => some (eps m)) es = true →
      Expr.epsilonAll (fun m => some (eps2 m)) es = true
  | [], h => h
  | e :: es, h => by
      simp only [Expr.epsilonAll, Bool.and_eq_true] at h ⊢
      exact ⟨epsilon_mono hle e h.1, epsilonAll_mono hle es h.2⟩
termination_by structural es _ => es

end

mutual

/-- The potentially-left-consuming prefix grows with the flags. -/
theorem leftIdents_mono {eps eps2 : String → Bool} (hle : epsLe eps eps2) :
    ∀ e : Expr, ∀ n : PName, n ∈ leftIdents eps e → n ∈ leftIdents eps2 e
  | .choice es, n, h => leftIdentsList_mono hle es n h
  | .action e1 _ _ _, n, h => leftIdents_mono hle e1 n h
  | .seq es, n, h => leftIdentsSeq_mono hle es n h
  | .label _ e1 _, n, h => leftIdents_mono hle e1 n h
  | .pred _ e1, n, h => leftIdents_mono hle e1 n h
  | .rep _ e1, n, h => leftIdents_mono hle e1 n h
  | .opt e1, n, h => leftIdents_mono hle e1 n h
  | .sub e1, n, h => leftIdents_mono hle e1 n h
  | .ident _, n, h => h
  | .predCode _ _ _, n, h => h
  | .lit _, n, h => h
  | .charClass _ _, n, h => h
  | .any, n, h => h
termination_by structural e _ _ => e

/-- leftIdentsList is monotone in the flags. -/
theorem leftIdentsList_mono {eps eps2 : String → Bool} (hle : epsLe eps eps2) :
    ∀ es : List Expr, ∀ n : PName,
      n ∈ leftIdentsList eps es → n ∈ leftIdentsList eps2 es
  | [], _, h => h
  | e :: es, n, h => by
      simp only [leftIdentsList, List.mem_append] at h ⊢
      rcases h with h | h
      · exact Or.inl (leftIdents_mono hle e n h)
      · exact Or.inr (leftIdentsList_mono hle es n h)
termination_by structural es _ _ => es

/-- leftIdentsSeq is monotone in the flags (the first non-nullable factor
can only move later as flags rise). -/
theorem leftIdentsSeq_mono {eps eps2 : String → Bool} (hle : epsLe eps eps2) :
    ∀ es : List Expr, ∀ n : PName,
      n ∈ leftIdentsSeq eps es → n ∈ leftIdentsSeq eps2 es
  | [], _, h => h
  | e :: es, n, h => by
      simp only [leftIdentsSeq, List.mem_append] at h ⊢
      rcases h with h | h
      · exact Or.inl (leftIdents_mono hle e n h)
      · by_cases heps : Expr.epsilon (fun m => some (eps m)) e = true
        · rw [if_pos heps] at h
          rw [if_pos (epsilon_mono hle e heps)]
          exact Or.inr (leftIdentsSeq_mono hle es n h)
        · rw [if_neg heps] at h
          cases h
termination_by structural es _ _ => es

end

/-- Left edges persist as the flags rise. -/
theorem leftEdgeE_mono {g : List Rule} {eps eps2 : String → Bool}
    (hle : epsLe eps eps2) {a b : String} (h : leftEdgeE g eps a b) :
    leftEdgeE g eps2 a b := by
  obtain ⟨r, hrg, hra, n, hn, hb, hf⟩ := h
  exact ⟨r, hrg, hra, n, leftIdents_mono hle r.expr n hn, hb, hf⟩

/-- The deterministic edge test implies the propositional edge. -/
theorem leftEdgeE_of_leftEdgeB {g : List Rule} {eps : String → Bool}
    {a b : String} (h : leftEdgeB g eps a b = true) : leftEdgeE g eps a b := by
  unfold leftEdgeB at h
  cases hf : g.find? (fun r => r.name.render == a) with
  | none => rw [hf] at h; cases h
  | some ra =>
    rw [hf] at h
    simp only [List.any_eq_true, Bool.and_eq_true, beq_iff_eq] at h
    obtain ⟨n, hn, hb, hfr⟩ := h
    exact ⟨ra, List.mem_of_find?_eq_some hf,
      by simpa using List.find?_some hf, n, hn, hb, hfr⟩

/-- Every checker call returns the stack it was given. -/
theorem clStackEq_all (g : List Rule) : ∀ fuel, CLStackEq g fuel := by
  intro fuel
  induction fuel with
  | zero =>
    exact ⟨fun s r => rfl, fun s e => rfl, fun s es => rfl, fun s es => rfl⟩
  | succ n ih =>
    obtain ⟨ihR, ihE, ihL, ihS⟩ := ih
    refine ⟨?_, ?_, ?_, ?_⟩
    · intro s r
      simp only [checkLeftRule]
      by_cases hty : (s.typs r.name.render).isSome = true
      · rw [if_pos hty]
      · rw [if_neg hty]
        by_cases hstk : r.name.render ∈ s.stack
        · rw [if_pos hstk]
        · rw [if_neg hstk]
    · intro s e
      cases e with
      | choice es => simp only [checkLeftExpr]; exact ihL s es
      | action e1 c t ns => simp only [checkLeftExpr]; exact ihE s e1
      | seq es => simp only [checkLeftExpr]; exact ihS s es
      | label nm e1 k => simp only [checkLeftExpr]; exact ihE s e1
      | pred neg e1 => simp only [checkLeftExpr]; exact ihE s e1
      | rep op e1 => simp only [checkLeftExpr]; exact ihE s e1
      | opt e1 => simp only [checkLeftExpr]; exact ihE s e1
      | sub e1 => simp only [checkLeftExpr]; exact ihE s e1
      | ident nm =>
        simp only [checkLeftExpr]
        cases hf : findRule g nm with
        | some r => exact ihR s r
        | none => rfl
      | predCode neg c ns => rfl
      | lit t => rfl
      | charClass neg spans => rfl
      | any => rfl
    · intro s es
      cases es with
      | nil => rfl
      | cons e es =>
        simp only [checkLeftList]
        rw [ihL (checkLeftExpr g n s e) es, ihE s e]
    · intro s es
      cases es with
      | nil => rfl
      | cons e es =>
        simp only [checkLeftSeq]
        by_cases heps :
            e.epsilon (fun m => some ((checkLeftExpr g n s e).eps m)) = true
        · rw [if_pos heps]
          rw [ihS (checkLeftExpr g n s e) es, ihE s e]
        · rw [if_neg heps]
          exact ihE s e

/-- clSound_all: the left-recursion walk only raises epsilon flags and
keeps the cycle-soundness invariant CLJ, provided every identifier on the
walked prefix is joined to the stack top by a left edge (which the walk
itself arranges at every descent). -/
theorem clSound_all (g : List Rule) : ∀ fuel, CLSound g fuel := by
  intro fuel
  induction fuel with
  | zero =>
    refine ⟨?_, ?_, ?_, ?_⟩
    · intro s r _ _ hJ; exact ⟨fun _ h => h, hJ⟩
    · intro s e _ hJ; exact ⟨fun _ h => h, hJ⟩
    · intro s es _ hJ; exact ⟨fun _ h => h, hJ⟩
    · intro s es _ hJ; exact ⟨fun _ h => h, hJ⟩
  | succ n ih =>
    obtain ⟨ihR, ihE, ihL, ihS⟩ := ih
    obtain ⟨stR, stE, stL, stS⟩ := clStackEq_all g n
    refine ⟨?_, ?_, ?_, ?_⟩
    · -- rule level
      intro s r hrg hedge hJ
      obtain ⟨hW, hN, hT, hC, hE⟩ := hJ
      simp only [checkLeftRule]
      by_cases hty : (s.typs r.name.render).isSome = true
      · rw [if_pos hty]
        exact ⟨fun _ h => h, hW, hN, hT, hC, hE⟩
      · rw [if_neg hty]
        by_cases hstk : r.name.render ∈ s.stack
        · rw [if_pos hstk]
          obtain ⟨tl, htl⟩ := dropWhile_ne_head s.stack hstk
          have hsne : s.stack ≠ [] := by
            intro h
            rw [h] at hstk
            cases hstk
          obtain ⟨a, ha⟩ : ∃ a, s.stack.getLast? = some a := by
            cases hla : s.stack.getLast? with
            | some a => exact ⟨a, rfl⟩
            | none => exact absurd (List.getLast?_eq_none_iff.mp hla) hsne
          have hsuf : s.stack.dropWhile (· ≠ r.name.render) <:+ s.stack :=
            ⟨s.stack.takeWhile (· ≠ r.name.render),
              List.takeWhile_append_dropWhile _ _⟩
          have hlast2 :
              (s.stack.dropWhile (· ≠ r.name.render)).getLast? = some a := by
            obtain ⟨pre, hpre⟩ := hsuf
            rw [← hpre] at ha
            rw [← ha]
            exact (List.getLast?_append_of_ne_nil pre (by rw [htl]; simp)).symm
          have hchain : List.Chain' (leftEdgeE g s.eps)
              ((s.stack.dropWhile (· ≠ r.name.render)) ++ [r.name.render]) := by
            rw [List.chain'_append]
            refine ⟨hC.suffix hsuf, by simp, ?_⟩
            intro x hx y hy
            rw [hlast2] at hx
            have hxa : a = x := by simpa using hx
            have hynm : r.name.render = y := by simpa using hy
            rw [← hxa, ← hynm]
            exact hedge a ha
          refine ⟨fun _ h => h, ?_, hN, hT, hC, ?_⟩
          · intro x hx
            dsimp only
            by_cases hc :
                x ∈ s.stack.dropWhile (· ≠ r.name.render) ++ [r.name.render]
            · rw [if_pos hc]
              rfl
            · rw [if_neg hc]
              exact hW x hx
          · intro c hc
            dsimp only at hc
            rcases List.mem_append.mp hc with hc | hc
            · exact hE c hc
            · rcases List.mem_singleton.mp hc with rfl
              refine ⟨r.name.render, tl, ?_, ?_, hchain⟩
              · rw [htl]
                simp
              · rw [← htl]
                exact List.Nodup.sublist hsuf.sublist hN
        · rw [if_neg hstk]
          have hepsnm : s.eps r.name.render = false := by
            cases h : s.eps r.name.render
            · rfl
            · exact absurd (hW _ h) hty
          have hJ1 : CLJ g { s with stack := s.stack ++ [r.name.render] } := by
            refine ⟨hW, ?_, ?_, ?_, hE⟩
            · rw [List.nodup_append]
              refine ⟨hN, by simp, ?_⟩
              intro x hx hx2
              rcases List.mem_singleton.mp hx2 with rfl
              exact hstk hx
            · intro x hx
              rcases List.mem_append.mp hx with hx | hx
              · exact hT x hx
              · rcases List.mem_singleton.mp hx with rfl
                exact hepsnm
            · rw [List.chain'_append]
              refine ⟨hC, by simp, ?_⟩
              intro x hx y hy
              have hynm : r.name.render = y := by simpa using hy
              cases hla : s.stack.getLast? with
              | none => rw [hla] at hx; cases hx
              | some b =>
                rw [hla] at hx
                have hxb : b = x := by simpa using hx
                rw [← hxb, ← hynm]
                exact hedge b hla
          have hpre1 : ∀ eps2, epsLe s.eps eps2 → ∀ n2 ∈ leftIdents eps2 r.expr,
              (findRule g n2).isSome = true →
              ∀ a, (s.stack ++ [r.name.render]).getLast? = some a →
                leftEdgeE g eps2 a n2.render := by
            intro eps2 hle n2 hn2 hf a ha
            rw [List.getLast?_concat] at ha
            have haa : r.name.render = a := by simpa using ha
            rw [← haa]
            exact ⟨r, hrg, rfl, n2, hn2, rfl, hf⟩
          obtain ⟨hle2, hJ2⟩ :=
            ihE { s with stack := s.stack ++ [r.name.render] } r.expr hpre1 hJ1
          have hstk2 : (checkLeftExpr g n
              { s with stack := s.stack ++ [r.name.render] } r.expr).stack =
              s.stack ++ [r.name.render] := stE _ r.expr
          obtain ⟨hW2, hN2, hT2, hC2, hE2⟩ := hJ2
          have hle3 : epsLe
              (checkLeftExpr g n
                { s with stack := s.stack ++ [r.name.render] } r.expr).eps
              (fun n2 => if n2 = r.name.render then
                  r.expr.epsilon (fun m => some ((checkLeftExpr g n
                    { s with stack := s.stack ++ [r.name.render] } r.expr).eps m))
                else (checkLeftExpr g n
                  { s with stack := s.stack ++ [r.name.render] } r.expr).eps n2) := by
            intro x hx
            dsimp only
            by_cases hxn : x = r.name.render
            · have hfalse := hT2 x (by
                rw [hstk2]
                exact List.mem_append.mpr (Or.inr (List.mem_singleton.mpr hxn)))
              rw [hfalse] at hx
              cases hx
            · rw [if_neg hxn]
              exact hx
          constructor
          · intro x hx
            dsimp only
            by_cases hxn : x = r.name.render
            · subst hxn
              rw [hepsnm] at hx
              cases hx
            · rw [if_neg hxn]
              exact hle2 x hx
          · refine ⟨?_, hN, ?_, ?_, ?_⟩
            · intro x hx
              dsimp only at hx ⊢
              by_cases hxn : x = r.name.render
              · rw [if_pos hxn]
                rfl
              · rw [if_neg hxn] at hx ⊢
                exact hW2 x hx
            · intro x hx
              dsimp only at hx ⊢
              have hxn : ¬(x = r.name.render) := fun h => hstk (h ▸ hx)
              rw [if_neg hxn]
              exact hT2 x (by rw [hstk2]; exact List.mem_append.mpr (Or.inl hx))
            · dsimp only
              refine List.Chain'.imp (fun a b h => leftEdgeE_mono hle3 h) ?_
              have hC2b := hC2
              rw [hstk2] at hC2b
              exact (List.chain'_append.mp hC2b).1
            · intro c hc
              dsimp only at hc
              obtain ⟨x, mid, hsh, hnd, hch⟩ := hE2 c hc
              exact ⟨x, mid, hsh, hnd,
                hch.imp (fun a b h => leftEdgeE_mono hle3 h)⟩
    · -- expression level
      intro s e hpre hJ
      cases e with
      | choice es =>
        simp only [checkLeftExpr]
        exact ihL s es hpre hJ
      | action e1 c t ns =>
        simp only [checkLeftExpr]
        exact ihE s e1 hpre hJ
      | seq es =>
        simp only [checkLeftExpr]
        exact ihS s es hpre hJ
      | label nm e1 k =>
        simp only [checkLeftExpr]
        exact ihE s e1 hpre hJ
      | pred neg e1 =>
        simp only [checkLeftExpr]
        exact ihE s e1 hpre hJ
      | rep op e1 =>
        simp only [checkLeftExpr]
        exact ihE s e1 hpre hJ
      | opt e1 =>
        simp only [checkLeftExpr]
        exact ihE s e1 hpre hJ
      | sub e1 =>
        simp only [checkLeftExpr]
        exact ihE s e1 hpre hJ
      | ident nm =>
        simp only [checkLeftExpr]
        cases hf : findRule g nm with
        | none => exact ⟨fun _ h => h, hJ⟩
        | some r =>
          have hf2 := hf
          unfold findRule at hf2
          have hrg : r ∈ g := List.mem_of_find?_eq_some hf2
          have hrr : r.name.render = nm.render := by
            have := List.find?_some hf2
            simpa using this
          refine ihR s r hrg ?_ hJ
          intro a ha
          rw [hrr]
          refine hpre s.eps (fun _ h => h) nm ?_ ?_ a ha
          · simp [leftIdents]
          · rw [hf]
            rfl
      | predCode neg c ns =>
        simp only [checkLeftExpr]
        exact ⟨fun _ h => h, hJ⟩
      | lit t =>
        simp only [checkLeftExpr]
        exact ⟨fun _ h => h, hJ⟩
      | charClass neg spans =>
        simp only [checkLeftExpr]
        exact ⟨fun _ h => h, hJ⟩
      | any =>
        simp only [checkLeftExpr]
        exact ⟨fun _ h => h, hJ⟩
    · -- choice-branch list level
      intro s es hpre hJ
      cases es with
      | nil =>
        simp only [checkLeftList]
        exact ⟨fun _ h => h, hJ⟩
      | cons e es =>
        simp only [checkLeftList]
        have hpreE : ∀ eps2, epsLe s.eps eps2 → ∀ n2 ∈ leftIdents eps2 e,
            (findRule g n2).isSome = true →
            ∀ a, s.stack.getLast? = some a → leftEdgeE g eps2 a n2.render := by
          intro eps2 hle n2 hn2 hf a ha
          refine hpre eps2 hle n2 ?_ hf a ha
          simp only [leftIdentsList]
          exact List.mem_append.mpr (Or.inl hn2)
        obtain ⟨hle1, hJ1⟩ := ihE s e hpreE hJ
        have hstk1 : (checkLeftExpr g n s e).stack = s.stack := stE s e
        have hpreL : ∀ eps2, epsLe (checkLeftExpr g n s e).eps eps2 →
            ∀ n2 ∈ leftIdentsList eps2 es, (findRule g n2).isSome = true →
            ∀ a, (checkLeftExpr g n s e).stack.getLast? = some a →
              leftEdgeE g eps2 a n2.render := by
          intro eps2 hle n2 hn2 hf a ha
          rw [hstk1] at ha
          refine hpre eps2 (fun x hx => hle x (hle1 x hx)) n2 ?_ hf a ha
          simp only [leftIdentsList]
          exact List.mem_append.mpr (Or.inr hn2)
        obtain ⟨hle2, hJ2⟩ := ihL (checkLeftExpr g n s e) es hpreL hJ1
        exact ⟨fun x hx => hle2 x (hle1 x hx), hJ2⟩
    · -- sequence factor level
      intro s es hpre hJ
      cases es with
      | nil =>
        simp only [checkLeftSeq]
        exact ⟨fun _ h => h, hJ⟩
      | cons e es =>
        simp only [checkLeftSeq]
        have hpreE : ∀ eps2, epsLe s.eps eps2 → ∀ n2 ∈ leftIdents eps2 e,
            (findRule g n2).isSome = true →
            ∀ a, s.stack.getLast? = some a → leftEdgeE g eps2 a n2.render := by
          intro eps2 hle n2 hn2 hf a ha
          refine hpre eps2 hle n2 ?_ hf a ha
          simp only [leftIdentsSeq]
          exact List.mem_append.mpr (Or.inl hn2)
        obtain ⟨hle1, hJ1⟩ := ihE s e hpreE hJ
        have hstk1 : (checkLeftExpr g n s e).stack = s.stack := stE s e
        by_cases heps :
            e.epsilon (fun m => some ((checkLeftExpr g n s e).eps m)) = true
        · rw [if_pos heps]
          have hpreS : ∀ eps2, epsLe (checkLeftExpr g n s e).eps eps2 →
              ∀ n2 ∈ leftIdentsSeq eps2 es, (findRule g n2).isSome = true →
              ∀ a, (checkLeftExpr g n s e).stack.getLast? = some a →
                leftEdgeE g eps2 a n2.render := by
            intro eps2 hle n2 hn2 hf a ha
            rw [hstk1] at ha
            refine hpre eps2 (fun x hx => hle x (hle1 x hx)) n2 ?_ hf a ha
            simp only [leftIdentsSeq]
            refine List.mem_append.mpr (Or.inr ?_)
            rw [if_pos (epsilon_mono hle e heps)]
            exact hn2
          obtain ⟨hle2, hJ2⟩ := ihS (checkLeftExpr g n s e) es hpreS hJ1
          exact ⟨fun x hx => hle2 x (hle1 x hx), hJ2⟩
        · rw [if_neg heps]
          exact ⟨hle1, hJ1⟩

/-- The cycle-soundness invariant holds after checking any list of the
grammar's rules from an empty stack. -/
theorem clJ_fold (g : List Rule) (fuel : Nat) : ∀ rs : List Rule,
    (∀ r ∈ rs, r ∈ g) → ∀ s : CLState, s.stack = [] → CLJ g s →
    CLJ g (rs.foldl (fun s r => checkLeftRule g fuel s r) s) := by
  intro rs
  induction rs with
  | nil => intro _ s _ h; exact h
  | cons r rs ih =>
    intro hg s hstk hJ
    have hstep := (clSound_all g fuel).1 s r (hg r (List.mem_cons_self r rs))
      (by intro a ha; rw [hstk] at ha; cases ha) hJ
    refine ih (fun r2 h2 => hg r2 (List.mem_cons_of_mem r h2)) _ ?_ hstep.2
    rw [(clStackEq_all g fuel).1 s r]
    exact hstk

/-- C6, amended: every error the left-recursion checker reports names the
rules of a reachable elementary left cycle in order: the list begins and
ends with the rule at which the back-edge was discovered, repeats no
interior name, and each adjacent pair of names is a left edge under the
final epsilon flags — the next name is referenced on the previous rule's
potentially-left-consuming prefix — so no rule whose potentially-left-
consuming prefix consumes input before the recursion is ever reported.
The discovery rule ends the walk typed, and distinct errors have distinct
discovery rules, so at most one error per discovery rule is produced
(whence, per the counterexample, overlapping reachable cycles can go
unreported). -/
theorem checkLeft_reports_amended (g : List Rule) (fuel : Nat) :
    (∀ c ∈ (checkLeftGrammar g fuel).errs,
      ∃ x mid, c = x :: (mid ++ [x]) ∧ (x :: mid).Nodup ∧
        List.Chain' (leftEdgeE g (checkLeftGrammar g fuel).eps) c ∧
        ((checkLeftGrammar g fuel).typs x).isSome = true) ∧
    ((checkLeftGrammar g fuel).errs.map List.head?).Nodup := by
  have hInv := clInv_fold g fuel g clInit
    ⟨fun c hc => absurd hc (by simp [clInit]), by simp [clInit]⟩
  have hJ := clJ_fold g fuel g (fun _ h => h) clInit rfl
    ⟨fun x hx => by simp [clInit] at hx, by simp [clInit],
      fun x hx => by simp [clInit] at hx, by simp [clInit],
      fun c hc => by simp [clInit] at hc⟩
  refine ⟨?_, hInv.2⟩
  intro c hc
  obtain ⟨x, mid, hsh, hnd, hch⟩ := hJ.2.2.2.2 c hc
  obtain ⟨x2, t2, hsh2, _, hty2⟩ := hInv.1 c hc
  have hx2 : x2 = x := by
    rw [hsh] at hsh2
    injection hsh2 with h
    exact h.symm
  rw [hx2] at hty2
  exact ⟨x, mid, hsh, hnd, hch, hty2⟩

/-- Witness instantiating the amended C6 theorem on the overlap grammar:
its one report A,B,A is an elementary left cycle in order discovered (and
typed) at A. -/
theorem checkLeft_reports_amended_witness :
    ["A", "B", "A"] ∈ (checkLeftGrammar gOverlap 10).errs ∧
    ∃ x mid, ["A", "B", "A"] = x :: (mid ++ [x]) ∧ (x :: mid).Nodup ∧
      List.Chain' (leftEdgeE gOverlap (checkLeftGrammar gOverlap 10).eps)
        ["A", "B", "A"] ∧
      ((checkLeftGrammar gOverlap 10).typs x).isSome = true := by
  have hm : ["A", "B", "A"] ∈ (checkLeftGrammar gOverlap 10).errs := by decide
  exact ⟨hm, (checkLeft_reports_amended gOverlap 10).1 ["A", "B", "A"] hm⟩
